import Mathlib

/-!
# Apex-UI: the scene-graph node and the two-phase event dispatch

A shallow embedding of `src/UiCore.cpp` (with `src/UiEvents.h`).

* A `UiBase*` is an `Option Nat`: `none` is `nullptr`, `some i` is the address `i`.
* The heap maps an address to the node stored there; `none` is storage that was
  never allocated or has been freed by `delete`.
* Every hook of the concrete node variant (`IMPL.OnCreate()`, ...) is recorded in
  a call log. The two event hooks return a `bool`, which the variant computes from
  the heap, the node and the event; hooks do not edit the tree.
* `assert` is modelled as active: a failed assertion aborts with
  `Fault.assertFailed`. A dereference of `nullptr` aborts with `Fault.nullDeref`, a
  dereference of freed storage with `Fault.danglingDeref`.
* The recursive drivers and their `for` loops take a fuel argument, since on an
  arbitrary heap the links may form a cycle.
-/

namespace ApexUI

/-- A `UiBase*`: `none` is `nullptr`. -/
abbrev Ptr := Option Nat

/-- The data members of `UiBase` (the two flag bits) and of `UiElement` (the five
links). `Rect bounds` is never read or written by the core and is left out. -/
structure UiNode where
  isInitialized : Bool := false
  isAttached : Bool := false
  m_parent : Ptr := none
  m_nextSibling : Ptr := none
  m_prevSibling : Ptr := none
  m_firstChild : Ptr := none
  m_lastChild : Ptr := none
deriving DecidableEq, Repr

/-- The heap: the node stored at each address, `none` when nothing is allocated there. -/
abbrev Heap := Nat → Option UiNode

/-- The enum `UiEventType` of `UiEvents.h`. -/
inductive UiEventType where
  | MouseButtonDown
  | MouseButtonUp
  | KeyboardDown
  | KeyboardUp
deriving DecidableEq, Repr

/-- The class `UiEventBase`: the identifier and the result of the virtual `EventType()`. -/
structure UiEventBase where
  eventId : Nat
  EventType : UiEventType
deriving DecidableEq, Repr

/-- The six customisation points a concrete node variant supplies. -/
inductive Hook where
  | OnCreate
  | OnDestroy
  | OnAttach
  | OnDetach
  | OnPreviewEvent
  | OnEvent
deriving DecidableEq, Repr

/-- The results of the two event hooks of the concrete variants, per node. -/
structure Hooks where
  OnPreviewEvent : Heap → Nat → UiEventBase → Bool
  OnEvent : Heap → Nat → UiEventBase → Bool

/-- The ways a run stops without returning. -/
inductive Fault where
  | assertFailed
  | nullDeref
  | danglingDeref
  | outOfFuel
deriving DecidableEq, Repr

/-- The observable state: the heap and the hook calls made so far, oldest first. -/
structure World where
  heap : Heap
  log : List (Hook × Nat)

/-- The result of running an operation: it returned a value, or it stopped; either
way the world it left behind is kept. -/
inductive Outcome (α : Type) where
  | done (val : α) (w : World)
  | abort (f : Fault) (w : World)

/-- The world after an outcome. -/
def Outcome.world {α : Type} : Outcome α → World
  | .done _ w => w
  | .abort _ w => w

/-- Overwrite the node stored at address `i`. -/
def Heap.set (h : Heap) (i : Nat) (nd : UiNode) : Heap :=
  fun j => if j = i then some nd else h j

/-- Release the storage at address `i` (`delete`). -/
def Heap.free (h : Heap) (i : Nat) : Heap :=
  fun j => if j = i then none else h j

/-- Record a hook call. -/
def World.call (w : World) (k : Hook) (i : Nat) : World :=
  { w with log := w.log ++ [(k, i)] }

/-- An assignment through a pointer, `p->Field() = v`: the pointer is dereferenced
and the node it points to is rewritten by `f`. -/
def World.assign (w : World) (p : Ptr) (f : UiNode → UiNode) : Outcome Unit :=
  match p with
  | none => .abort .nullDeref w
  | some i =>
    match w.heap i with
    | none => .abort .danglingDeref w
    | some nd => .done () { w with heap := w.heap.set i (f nd) }

namespace UiElement

/-- The method `UiElement::Add`, lines 78-93. -/
def Add (w : World) (this : Nat) (child : Ptr) : Outcome Unit :=
  match w.heap this with
  | none => .abort .danglingDeref w
  | some nd =>
    if nd.isInitialized || nd.isAttached then .abort .assertFailed w
    else
      let linked : Outcome Unit :=
        match nd.m_lastChild with
        | some l =>
          match w.assign (some l) (fun x => { x with m_nextSibling := child }) with
          | .abort f w1 => .abort f w1
          | .done _ w1 => w1.assign (some this) (fun x => { x with m_lastChild := child })
        | none =>
          if nd.m_firstChild.isSome then .abort .assertFailed w
          else
            w.assign (some this) (fun x => { x with m_firstChild := child, m_lastChild := child })
      match linked with
      | .abort f w2 => .abort f w2
      | .done _ w2 => w2.assign child (fun x => { x with m_parent := some this })

/-- The unlink block that `Remove` (lines 99-115) and `OnDetachBase` (lines 164-180)
both contain, word for word: it edits the links around `this`. -/
def unlinkThis (w : World) (this : Nat) : Outcome Unit :=
  match w.heap this with
  | none => .abort .danglingDeref w
  | some nd =>
    -- if (m_parent && m_parent->FirstChild() == this) m_parent->FirstChild() = m_nextSibling;
    let s1 : Outcome Unit :=
      match nd.m_parent with
      | none => .done () w
      | some p =>
        match w.heap p with
        | none => .abort .danglingDeref w
        | some pn =>
          if pn.m_firstChild = some this then
            w.assign (some p) (fun x => { x with m_firstChild := nd.m_nextSibling })
          else .done () w
    match s1 with
    | .abort f w1 => .abort f w1
    | .done _ w1 =>
      -- if (m_parent && m_parent->LastChild() == this) m_parent->LastChild() = m_prevSibling;
      match w1.heap this with
      | none => .abort .danglingDeref w1
      | some nd1 =>
        let s2 : Outcome Unit :=
          match nd1.m_parent with
          | none => .done () w1
          | some p =>
            match w1.heap p with
            | none => .abort .danglingDeref w1
            | some pn =>
              if pn.m_lastChild = some this then
                w1.assign (some p) (fun x => { x with m_lastChild := nd1.m_prevSibling })
              else .done () w1
        match s2 with
        | .abort f w2 => .abort f w2
        | .done _ w2 =>
          -- if (m_nextSibling) m_nextSibling->PrevSibling() = m_prevSibling;
          match w2.heap this with
          | none => .abort .danglingDeref w2
          | some nd2 =>
            let s3 : Outcome Unit :=
              match nd2.m_nextSibling with
              | none => .done () w2
              | some n =>
                w2.assign (some n) (fun x => { x with m_prevSibling := nd2.m_prevSibling })
            match s3 with
            | .abort f w3 => .abort f w3
            | .done _ w3 =>
              -- if (m_prevSibling) m_prevSibling->NextSibling() = m_nextSibling;
              match w3.heap this with
              | none => .abort .danglingDeref w3
              | some nd3 =>
                match nd3.m_prevSibling with
                | none => .done () w3
                | some q =>
                  w3.assign (some q) (fun x => { x with m_nextSibling := nd3.m_nextSibling })

/-- The method `UiElement::Remove`, lines 95-116. The assertion reads `child->Parent()` only
when the two flags of `this` are clear (`&&` short-circuits). -/
def Remove (w : World) (this : Nat) (child : Ptr) : Outcome Unit :=
  match w.heap this with
  | none => .abort .danglingDeref w
  | some nd =>
    if nd.isInitialized || nd.isAttached then .abort .assertFailed w
    else
      match child with
      | none => .abort .nullDeref w
      | some c =>
        match w.heap c with
        | none => .abort .danglingDeref w
        | some cn =>
          if cn.m_parent = some this then unlinkThis w this
          else .abort .assertFailed w

mutual
/-- The method `UiElement::OnCreateBase`, lines 121-132. -/
def OnCreateBase : Nat → World → Nat → Outcome Unit
  | 0, w, _ => .abort .outOfFuel w
  | fuel + 1, w, this =>
    match w.heap this with
    | none => .abort .danglingDeref w
    | some nd =>
      if nd.isInitialized then .abort .assertFailed w
      else
        match OnCreateBase_loop fuel (w.call .OnCreate this) nd.m_firstChild with
        | .abort f w1 => .abort f w1
        | .done _ w1 => w1.assign (some this) (fun x => { x with isInitialized := true })
/-- The `for` loop of `OnCreateBase` (lines 126-129), entered with `child`. -/
def OnCreateBase_loop : Nat → World → Ptr → Outcome Unit
  | _, w, none => .done () w
  | 0, w, some _ => .abort .outOfFuel w
  | fuel + 1, w, some c =>
    match OnCreateBase fuel w c with
    | .abort f w1 => .abort f w1
    | .done _ w1 =>
      match w1.heap c with
      | none => .abort .danglingDeref w1
      | some cn => OnCreateBase_loop fuel w1 cn.m_nextSibling
end

mutual
/-- The method `UiElement::OnDestroyBase`, lines 134-147. -/
def OnDestroyBase : Nat → World → Nat → Outcome Unit
  | 0, w, _ => .abort .outOfFuel w
  | fuel + 1, w, this =>
    match w.heap this with
    | none => .abort .danglingDeref w
    | some nd =>
      if !nd.isInitialized then .abort .assertFailed w
      else
        match OnDestroyBase_loop fuel w nd.m_firstChild with
        | .abort f w1 => .abort f w1
        | .done _ w1 =>
          (w1.call .OnDestroy this).assign (some this) (fun x => { x with isInitialized := false })
/-- The `for` loop of `OnDestroyBase` (lines 137-143), entered with `child`: the
next sibling is read first, the child is destroyed, then its storage is freed. -/
def OnDestroyBase_loop : Nat → World → Ptr → Outcome Unit
  | _, w, none => .done () w
  | 0, w, some _ => .abort .outOfFuel w
  | fuel + 1, w, some c =>
    match w.heap c with
    | none => .abort .danglingDeref w
    | some cn =>
      match OnDestroyBase fuel w c with
      | .abort f w1 => .abort f w1
      | .done _ w1 =>
        match w1.heap c with
        | none => .abort .danglingDeref w1
        | some _ => OnDestroyBase_loop fuel { w1 with heap := w1.heap.free c } cn.m_nextSibling
end

mutual
/-- The method `UiElement::OnAttachBase`, lines 149-159. -/
def OnAttachBase : Nat → World → Nat → Outcome Unit
  | 0, w, _ => .abort .outOfFuel w
  | fuel + 1, w, this =>
    match w.heap this with
    | none => .abort .danglingDeref w
    | some nd =>
      if nd.isAttached then .abort .assertFailed w
      else
        match (w.call .OnAttach this).assign (some this)
            (fun x => { x with isAttached := true }) with
        | .abort f w1 => .abort f w1
        | .done _ w1 =>
          match w1.heap this with
          | none => .abort .danglingDeref w1
          | some nd1 => OnAttachBase_loop fuel w1 nd1.m_firstChild
/-- The `for` loop of `OnAttachBase` (lines 155-158), entered with `child`. -/
def OnAttachBase_loop : Nat → World → Ptr → Outcome Unit
  | _, w, none => .done () w
  | 0, w, some _ => .abort .outOfFuel w
  | fuel + 1, w, some c =>
    match OnAttachBase fuel w c with
    | .abort f w1 => .abort f w1
    | .done _ w1 =>
      match w1.heap c with
      | none => .abort .danglingDeref w1
      | some cn => OnAttachBase_loop fuel w1 cn.m_nextSibling
end

/-- The method `UiElement::OnDetachBase`, lines 161-184. -/
def OnDetachBase (w : World) (this : Nat) : Outcome Unit :=
  match w.heap this with
  | none => .abort .danglingDeref w
  | some nd =>
    if !nd.isAttached then .abort .assertFailed w
    else
      match unlinkThis w this with
      | .abort f w1 => .abort f w1
      | .done _ w1 =>
        (w1.call .OnDetach this).assign (some this) (fun x => { x with isAttached := false })

mutual
/-- The method `UiElement::OnPreviewEventBase`, lines 186-200. -/
def OnPreviewEventBase (hk : Hooks) (e : UiEventBase) : Nat → World → Nat → Outcome Ptr
  | 0, w, _ => .abort .outOfFuel w
  | fuel + 1, w, this =>
    match w.heap this with
    | none => .abort .danglingDeref w
    | some nd =>
      if hk.OnPreviewEvent w.heap this e then .done (some this) (w.call .OnPreviewEvent this)
      else OnPreviewEventBase_loop hk e fuel (w.call .OnPreviewEvent this) nd.m_firstChild none
/-- The `for` loop of `OnPreviewEventBase` (lines 193-197), entered with `child`
and the current value of `handler`: it breaks when the child returns null and
otherwise goes on to the next sibling. -/
def OnPreviewEventBase_loop (hk : Hooks) (e : UiEventBase) :
    Nat → World → Ptr → Ptr → Outcome Ptr
  | _, w, none, handler => .done handler w
  | 0, w, some _, _ => .abort .outOfFuel w
  | fuel + 1, w, some c, _ =>
    match OnPreviewEventBase hk e fuel w c with
    | .abort f w1 => .abort f w1
    | .done none w1 => .done none w1
    | .done (some hd) w1 =>
      match w1.heap c with
      | none => .abort .danglingDeref w1
      | some cn => OnPreviewEventBase_loop hk e fuel w1 cn.m_nextSibling (some hd)
end

/-- The method `UiElement::OnEventBase`, lines 202-209: `Parent()->OnEventBase(e)` is called
without a null check. -/
def OnEventBase (hk : Hooks) (e : UiEventBase) : Nat → World → Nat → Outcome Bool
  | 0, w, _ => .abort .outOfFuel w
  | fuel + 1, w, this =>
    match w.heap this with
    | none => .abort .danglingDeref w
    | some nd =>
      if hk.OnEvent w.heap this e then .done true (w.call .OnEvent this)
      else
        match nd.m_parent with
        | none => .abort .nullDeref (w.call .OnEvent this)
        | some p => OnEventBase hk e fuel (w.call .OnEvent this) p

end UiElement

namespace Panel

/-- The method `Panel::OnPreviewEvent`, lines 243-254. -/
def OnPreviewEvent (h : Heap) (this : Nat) (e : UiEventBase) : Bool :=
  if e.EventType = UiEventType.MouseButtonDown then
    match h this with
    | some nd => if nd.m_firstChild.isSome then false else true
    | none => false
  else false

/-- The method `Panel::OnEvent`, lines 256-264: the guard is commented out, so it returns true. -/
def OnEvent (_h : Heap) (_this : Nat) (_e : UiEventBase) : Bool := true

/-- The event hooks of a tree whose nodes are all `Panel`s. -/
def hooks : Hooks := { OnPreviewEvent := OnPreviewEvent, OnEvent := OnEvent }

end Panel

namespace UiFactory

/-- The method `UiFactory::Create`, lines 273-276. -/
def Create (fuel : Nat) (w : World) (root : Ptr) : Outcome Unit :=
  match root with
  | none => .abort .nullDeref w
  | some r => UiElement.OnCreateBase fuel w r

/-- The method `UiFactory::Destroy`, lines 278-281. -/
def Destroy (fuel : Nat) (w : World) (root : Ptr) : Outcome Unit :=
  match root with
  | none => .abort .nullDeref w
  | some r => UiElement.OnDestroyBase fuel w r

/-- The method `UiFactory::Attach`, lines 283-286. -/
def Attach (fuel : Nat) (w : World) (root : Ptr) : Outcome Unit :=
  match root with
  | none => .abort .nullDeref w
  | some r => UiElement.OnAttachBase fuel w r

/-- The method `UiFactory::Detach`, lines 288-291. -/
def Detach (w : World) (root : Ptr) : Outcome Unit :=
  match root with
  | none => .abort .nullDeref w
  | some r => UiElement.OnDetachBase w r

/-- The method `UiFactory::DispatchEvent`, lines 293-299. The `bool` returned by the bubble
pass is dropped, as in the source. -/
def DispatchEvent (hk : Hooks) (fuel : Nat) (w : World) (root : Ptr) (e : UiEventBase) :
    Outcome Unit :=
  match root with
  | none => .abort .nullDeref w
  | some r =>
    match UiElement.OnPreviewEventBase hk e fuel w r with
    | .abort f w1 => .abort f w1
    | .done none w1 => .done () w1
    | .done (some handler) w1 =>
      match UiElement.OnEventBase hk e fuel w1 handler with
      | .abort f w2 => .abort f w2
      | .done _ w2 => .done () w2

end UiFactory

/-! ## Observations on outcomes and heaps -/

/-- The value an operation returned, when it returned. -/
def Outcome.value? {α : Type} : Outcome α → Option α
  | .done v _ => some v
  | .abort _ _ => none

/-- The fault an operation stopped with, when it stopped. -/
def Outcome.fault? {α : Type} : Outcome α → Option Fault
  | .done _ _ => none
  | .abort f _ => some f

/-- The call log an operation left behind. -/
def Outcome.log {α : Type} (o : Outcome α) : List (Hook × Nat) := o.world.log

/-- Walk from `start` along `m_nextSibling` until null: the addresses visited, in
order. `none` when the walk meets freed storage or is longer than the fuel. -/
def walkNext (h : Heap) : Nat → Ptr → Option (List Nat)
  | _, none => some []
  | 0, some _ => none
  | k + 1, some c =>
    match h c with
    | none => none
    | some nd => (walkNext h k nd.m_nextSibling).map (fun l => c :: l)

/-- Walk from `start` along `m_prevSibling` until null: the addresses visited, in
order. `none` when the walk meets freed storage or is longer than the fuel. -/
def walkPrev (h : Heap) : Nat → Ptr → Option (List Nat)
  | _, none => some []
  | 0, some _ => none
  | k + 1, some c =>
    match h c with
    | none => none
    | some nd => (walkPrev h k nd.m_prevSibling).map (fun l => c :: l)

/-- The link `m_firstChild` of the node at `i`, null when nothing is stored there. -/
def firstChildOf (h : Heap) (i : Nat) : Ptr := (h i).bind (fun nd => nd.m_firstChild)

/-- The link `m_lastChild` of the node at `i`, null when nothing is stored there. -/
def lastChildOf (h : Heap) (i : Nat) : Ptr := (h i).bind (fun nd => nd.m_lastChild)

/-- The link `m_parent` of the node at `i`, null when nothing is stored there. -/
def parentOf (h : Heap) (i : Nat) : Ptr := (h i).bind (fun nd => nd.m_parent)

/-- The host statement sequence `p.Add(c1); ...; p.Add(cn);`. -/
def AddAll (p : Nat) : List Nat → World → Outcome Unit
  | [], w => .done () w
  | c :: cs, w =>
    match UiElement.Add w p (some c) with
    | .abort f w1 => .abort f w1
    | .done _ w1 => AddAll p cs w1

/-- A freshly constructed node has all five links null (the member initialisers of
lines 213-217). -/
def UiNode.linksNull (nd : UiNode) : Prop :=
  nd.m_parent = none ∧ nd.m_nextSibling = none ∧ nd.m_prevSibling = none ∧
    nd.m_firstChild = none ∧ nd.m_lastChild = none

/-! ## Trees, as the links present them

A child list is written in first-child / next-sibling form: `cons i kids rest` is
the node at address `i`, whose own child list is `kids`, followed by its later
siblings `rest`. A tree with root `r` and child list `kids` is `cons r kids nil`.
-/

/-- A list of sibling subtrees. -/
inductive Forest where
  | nil
  | cons (id : Nat) (kids : Forest) (rest : Forest)
deriving DecidableEq, Repr

namespace Forest

/-- The addresses of the nodes, in depth-first pre-order. -/
def ids : Forest → List Nat
  | nil => []
  | cons i kids rest => i :: (kids.ids ++ rest.ids)

/-- The addresses of the nodes in depth-first post-order: the subtrees of a node's
children left to right, then the node itself. -/
def postorder : Forest → List Nat
  | nil => []
  | cons i kids rest => kids.postorder ++ [i] ++ rest.postorder

/-- The number of nodes. -/
def size : Forest → Nat
  | nil => 0
  | cons _ kids rest => 1 + kids.size + rest.size

end Forest

/-- The heap `h` holds the sibling list `f` starting at pointer `start`, under the
parent `par`: `m_firstChild` and `m_nextSibling` spell out `f`, and `m_parent` of
every listed node is its parent in `f`. Nothing is asked of `m_prevSibling` and
`m_lastChild`, which no traversal reads. -/
def Linked (h : Heap) : Ptr → Forest → Ptr → Prop
  | _, .nil, start => start = none
  | par, .cons i kids rest, start =>
    start = some i ∧
      ∃ nd, h i = some nd ∧ nd.m_parent = par ∧
        Linked h (some i) kids nd.m_firstChild ∧ Linked h par rest nd.m_nextSibling

/-- A well-formed tree in the heap: root `r` without parent or sibling, child list
`kids`, all addresses distinct. -/
def IsTree (h : Heap) (r : Nat) (kids : Forest) : Prop :=
  Linked h none (.cons r kids .nil) (some r) ∧ (Forest.cons r kids .nil).ids.Nodup

/-- What the preview loop computes over a sibling list, read off the tree: the
final value of `handler` and the nodes whose preview hook ran, in order. `pv i`
is the result of the preview hook of node `i`. -/
def previewScan (pv : Nat → Bool) : Forest → Ptr → Ptr × List Nat
  | .nil, handler => (handler, [])
  | .cons i kids rest, _ =>
    let own : Ptr × List Nat :=
      if pv i then (some i, [i])
      else ((previewScan pv kids none).1, i :: (previewScan pv kids none).2)
    match own.1 with
    | none => (none, own.2)
    | some hd => ((previewScan pv rest (some hd)).1, own.2 ++ (previewScan pv rest (some hd)).2)

/-- The chain `n0, n1, ..., nk` follows `m_parent`: each node is allocated and the
parent link of each but the last is the next one. -/
def ParentChain (h : Heap) : List Nat → Prop
  | [] => True
  | [n] => (h n).isSome
  | n :: m :: rest => parentOf h n = some m ∧ ParentChain h (m :: rest)

/-- The log entries for one hook called on each node of a list, in order. -/
def calls (k : Hook) (l : List Nat) : List (Hook × Nat) := l.map (fun i => (k, i))

/-- Deciding `Linked` by reading the heap along the forest. -/
instance decLinked (h : Heap) : (par : Ptr) → (f : Forest) → (start : Ptr) →
    Decidable (Linked h par f start)
  | _, .nil, start => by unfold Linked; infer_instance
  | par, .cons i kids rest, start =>
    match hh : h i with
    | none => isFalse (by simp [Linked, hh])
    | some nd =>
      have := decLinked h (some i) kids nd.m_firstChild
      have := decLinked h par rest nd.m_nextSibling
      decidable_of_iff
        (start = some i ∧ nd.m_parent = par ∧
          Linked h (some i) kids nd.m_firstChild ∧ Linked h par rest nd.m_nextSibling)
        (by simp [Linked, hh])

/-- Deciding `IsTree`. -/
instance decIsTree (h : Heap) (r : Nat) (kids : Forest) : Decidable (IsTree h r kids) := by
  unfold IsTree; infer_instance

/-- Deciding `ParentChain` by reading the parent links along the list. -/
instance decParentChain (h : Heap) : (l : List Nat) → Decidable (ParentChain h l)
  | [] => by unfold ParentChain; infer_instance
  | [_] => by unfold ParentChain; infer_instance
  | _ :: m :: rest => by
    have := decParentChain h (m :: rest)
    unfold ParentChain; infer_instance

/-- The result of the preview hook of each node, for the event `e` on the heap `h`. -/
def Hooks.previewOn (hk : Hooks) (h : Heap) (e : UiEventBase) : Nat → Bool :=
  fun j => hk.OnPreviewEvent h j e

/-- What the preview driver computes on the node `i` with child list `kids`: the
handler it returns and the nodes whose preview hook ran, in order. -/
def previewNode (pv : Nat → Bool) (i : Nat) (kids : Forest) : Ptr × List Nat :=
  if pv i then (some i, [i])
  else ((previewScan pv kids none).1, i :: (previewScan pv kids none).2)

/-- The sibling chain from `start` along `m_nextSibling` is exactly the list `l`,
ending at null. -/
def NextChain (h : Heap) : Ptr → List Nat → Prop
  | start, [] => start = none
  | start, c :: cs => start = some c ∧ ∃ nd, h c = some nd ∧ NextChain h nd.m_nextSibling cs

/-- The state of the parent `p` after the children `pre` were added to it in order:
`p` is still uninitialized and unattached, its first and last child links are the
ends of `pre`, the sibling chain from the first child is `pre`, and every child
points back to `p`. -/
def Built (h : Heap) (p : Nat) (pre : List Nat) : Prop :=
  ∃ pn, h p = some pn ∧ pn.isInitialized = false ∧ pn.isAttached = false ∧
    pn.m_firstChild = pre.head? ∧ pn.m_lastChild = pre.getLast? ∧
    NextChain h pre.head? pre ∧ ∀ c ∈ pre, parentOf h c = some p

/-! ## Sample inputs -/

/-- Five freshly constructed nodes at addresses 0 to 4, and an empty call log. -/
def freshWorld : World := { heap := fun i => if i < 5 then some {} else none, log := [] }

/-- A mouse-button-down event, as `main` sends it. -/
def sampleEvent : UiEventBase := { eventId := 1, EventType := .MouseButtonDown }

/-- The tree of `main`: root 0 with the children 1, 2, 3 added in that order. -/
def flatWorld : World := (AddAll 0 [1, 2, 3] freshWorld).world

/-- Root 0 with the single child 1. -/
def pairWorld : World := (AddAll 0 [1] freshWorld).world

/-- Root 0 with the children 1 and 2. -/
def twoWorld : World := (AddAll 0 [1, 2] freshWorld).world

/-- Root 0 with the children 1 and 2, and node 1 with the child 3; then created. -/
def nestedWorld : World :=
  (UiElement.OnCreateBase 10 (AddAll 1 [3] (AddAll 0 [1, 2] freshWorld).world).world 0).world

/-- Hooks of a tree where only node 3 volunteers in the preview pass. -/
def onlyThird : Hooks :=
  { OnPreviewEvent := fun _ i _ => decide (i = 3), OnEvent := fun _ _ _ => true }

/-- Hooks where the leaf 1 volunteers, declines the event itself, and the root 0
consumes it. -/
def leafThenRoot : Hooks :=
  { OnPreviewEvent := fun _ i _ => decide (i = 1), OnEvent := fun _ i _ => decide (i = 0) }

/-- Hooks where the leaf 1 volunteers and no node consumes the event. -/
def nobodyConsumes : Hooks :=
  { OnPreviewEvent := fun _ i _ => decide (i = 1), OnEvent := fun _ _ _ => false }

/-- Hooks where no node volunteers. -/
def nobodyVolunteers : Hooks :=
  { OnPreviewEvent := fun _ _ _ => false, OnEvent := fun _ _ _ => true }

/-- Node 1 created and attached on its own, node 0 still fresh. -/
def liveChildWorld : World :=
  (UiElement.OnAttachBase 3 (UiElement.OnCreateBase 3 freshWorld 1).world 1).world

/-- Node 0 created on its own, node 1 still fresh. -/
def liveParentWorld : World := (UiElement.OnCreateBase 3 freshWorld 0).world

/-- The tree of `main` after `Create` and `Attach` on the root 0. -/
def liveFlatWorld : World :=
  (UiFactory.Attach 8 (UiFactory.Create 8 flatWorld (some 0)).world (some 0)).world

/-- Root 0 with the children 1 and 2, after `Create` and `Attach` on the root. -/
def liveTwoWorld : World :=
  (UiFactory.Attach 8 (UiFactory.Create 8 twoWorld (some 0)).world (some 0)).world

/-- The tree of `main` after `Create` on the root 0. -/
def createdFlatWorld : World := (UiFactory.Create 8 flatWorld (some 0)).world

/-! ## The unlink block, statement by statement -/

/-- Sequencing: the next statement runs in the world the previous one returned. -/
def Outcome.andThen (o : Outcome Unit) (k : World → Outcome Unit) : Outcome Unit :=
  match o with
  | .abort f w => .abort f w
  | .done _ w => k w

/-- First statement of the unlink block (lines 99-102 and 164-167):
`if (m_parent && m_parent->FirstChild() == this) m_parent->FirstChild() = m_nextSibling;` -/
def unlinkFirst (w : World) (this : Nat) : Outcome Unit :=
  match w.heap this with
  | none => .abort .danglingDeref w
  | some nd =>
    match nd.m_parent with
    | none => .done () w
    | some p =>
      match w.heap p with
      | none => .abort .danglingDeref w
      | some pn =>
        if pn.m_firstChild = some this then
          w.assign (some p) (fun x => { x with m_firstChild := nd.m_nextSibling })
        else .done () w

/-- Second statement of the unlink block (lines 103-106 and 168-171):
`if (m_parent && m_parent->LastChild() == this) m_parent->LastChild() = m_prevSibling;` -/
def unlinkLast (w : World) (this : Nat) : Outcome Unit :=
  match w.heap this with
  | none => .abort .danglingDeref w
  | some nd =>
    match nd.m_parent with
    | none => .done () w
    | some p =>
      match w.heap p with
      | none => .abort .danglingDeref w
      | some pn =>
        if pn.m_lastChild = some this then
          w.assign (some p) (fun x => { x with m_lastChild := nd.m_prevSibling })
        else .done () w

/-- Third statement of the unlink block (lines 108-111 and 173-176):
`if (m_nextSibling) m_nextSibling->PrevSibling() = m_prevSibling;` -/
def unlinkNext (w : World) (this : Nat) : Outcome Unit :=
  match w.heap this with
  | none => .abort .danglingDeref w
  | some nd =>
    match nd.m_nextSibling with
    | none => .done () w
    | some n => w.assign (some n) (fun x => { x with m_prevSibling := nd.m_prevSibling })

/-- Fourth statement of the unlink block (lines 112-115 and 177-180):
`if (m_prevSibling) m_prevSibling->NextSibling() = m_nextSibling;` -/
def unlinkPrev (w : World) (this : Nat) : Outcome Unit :=
  match w.heap this with
  | none => .abort .danglingDeref w
  | some nd =>
    match nd.m_prevSibling with
    | none => .done () w
    | some q => w.assign (some q) (fun x => { x with m_nextSibling := nd.m_nextSibling })

/-- The two flag bits of the node stored at `j`, when a node is stored there. -/
def flagsOf (h : Heap) (j : Nat) : Option (Bool × Bool) :=
  (h j).map (fun x => (x.isInitialized, x.isAttached))

/-- The children in a sibling list, left to right, each with its own child list. -/
def Forest.roots : Forest → List (Nat × Forest)
  | .nil => []
  | .cons i kids rest => (i, kids) :: rest.roots

/-- What the preview driver computes on a child given together with its child list:
the handler it returns and the nodes whose preview hook ran. -/
def childResult (pv : Nat → Bool) (c : Nat × Forest) : Ptr × List Nat :=
  previewNode pv c.1 c.2

/-- The host sequence of `main` on a root (lines 311, 312, 320, 321): `Create`,
`Attach`, `Detach`, `Destroy`, each run in the world the previous call returned. -/
def hostSequence (fuel : Nat) (w : World) (root : Ptr) : Outcome Unit :=
  (UiFactory.Create fuel w root).andThen fun w1 =>
    (UiFactory.Attach fuel w1 root).andThen fun w2 =>
      (UiFactory.Detach w2 root).andThen fun w3 => UiFactory.Destroy fuel w3 root

/-- The call pair `Create(root); Destroy(root);`. -/
def createDestroy (fuel : Nat) (w : World) (root : Ptr) : Outcome Unit :=
  (UiFactory.Create fuel w root).andThen fun w1 => UiFactory.Destroy fuel w1 root

/-! ## Call sequences of the host -/

/-- The invariant `attached ⟹ initialized`, for every node stored in the heap. -/
def FlagsOk (h : Heap) : Prop :=
  ∀ j x, h j = some x → x.isAttached = true → x.isInitialized = true

/-- From `h` to `h1` no node appeared, no attached flag was set and no initialized
flag was cleared. -/
def Safe (h h1 : Heap) : Prop :=
  ∀ j x1, h1 j = some x1 → ∃ x, h j = some x ∧
    (x1.isAttached = true → x.isAttached = true) ∧
    (x.isInitialized = true → x1.isInitialized = true)

/-- A call of the host on the node interface. -/
inductive Call where
  | Add (parent : Nat) (child : Ptr)
  | Remove (parent : Nat) (child : Ptr)
  | Create (root : Ptr)
  | Destroy (root : Ptr)
  | Attach (root : Ptr)
  | Detach (root : Ptr)

/-- Running one call of the host. -/
def Call.run (fuel : Nat) (w : World) : Call → Outcome Unit
  | .Add p c => UiElement.Add w p c
  | .Remove p c => UiElement.Remove w p c
  | .Create r => UiFactory.Create fuel w r
  | .Destroy r => UiFactory.Destroy fuel w r
  | .Attach r => UiFactory.Attach fuel w r
  | .Detach r => UiFactory.Detach w r

/-- The discipline of the host for a call that took the world `w` to `w1`: `Attach`
ran the attach hook only on nodes that were initialized, and `Destroy` was called
on a root that was not attached. The other calls are free. -/
def Call.Guard (w w1 : World) : Call → Prop
  | .Attach _ =>
    ∀ c ∈ w1.log.drop w.log.length, c.1 = Hook.OnAttach →
      (flagsOf w.heap c.2).map Prod.fst = some true
  | .Destroy root =>
    match root with
    | none => True
    | some r => (flagsOf w.heap r).map Prod.snd = some false
  | _ => True

/-- Deciding `Call.Guard`. -/
instance decGuard (w w1 : World) : (c : Call) → Decidable (c.Guard w w1)
  | .Attach _ => by unfold Call.Guard; infer_instance
  | .Destroy none => by unfold Call.Guard; infer_instance
  | .Destroy (some _) => by unfold Call.Guard; infer_instance
  | .Add _ _ => by unfold Call.Guard; infer_instance
  | .Remove _ _ => by unfold Call.Guard; infer_instance
  | .Create _ => by unfold Call.Guard; infer_instance
  | .Detach _ => by unfold Call.Guard; infer_instance

/-- What an `Attach` call may do from `w` to `w1`: it logs attach calls only, adds no
node, changes no initialized flag, and sets the attached flag only of nodes whose
attach hook it logged. -/
def AttachEffect (w w1 : World) : Prop :=
  ∃ l, w1.log = w.log ++ calls .OnAttach l ∧
    ∀ j x1, w1.heap j = some x1 → ∃ x, w.heap j = some x ∧
      x1.isInitialized = x.isInitialized ∧
        (x1.isAttached = true → x.isAttached = true ∨ j ∈ l)

/-- The world after a list of host calls run one after the other. -/
def runAll (fuel : Nat) : List Call → World → World
  | [], w => w
  | c :: cs, w => runAll fuel cs (c.run fuel w).world

/-- Every call of the list returns and keeps the discipline `Call.Guard`. -/
def AllGuarded (fuel : Nat) : List Call → World → Prop
  | [], _ => True
  | c :: cs, w =>
    (c.run fuel w).fault? = none ∧ c.Guard w (c.run fuel w).world ∧
      AllGuarded fuel cs (c.run fuel w).world

/-- Deciding `AllGuarded` by running the calls. -/
instance decAllGuarded (fuel : Nat) : (cs : List Call) → (w : World) →
    Decidable (AllGuarded fuel cs w)
  | [], _ => by unfold AllGuarded; infer_instance
  | c :: cs, w => by
    have := decAllGuarded fuel cs (c.run fuel w).world
    unfold AllGuarded; infer_instance

/-- The host calls of `main` on the root 0 with one child 1. -/
def hostCalls : List Call :=
  [.Add 0 (some 1), .Create (some 0), .Attach (some 0), .Detach (some 0), .Destroy (some 0)]

/-- The worlds reachable from freshly constructed nodes by calls of the host that
return. -/
inductive Reachable : World → Prop where
  | fresh (w : World) (h : ∀ j x, w.heap j = some x → x = {}) : Reachable w
  | step (w w1 : World) (fuel : Nat) (c : Call) (hw : Reachable w)
      (hrun : c.run fuel w = .done () w1) : Reachable w1

/-- The worlds reachable from freshly constructed nodes by calls of the host that
return and keep the discipline `Call.Guard`. -/
inductive GuardedReachable : World → Prop where
  | fresh (w : World) (h : ∀ j x, w.heap j = some x → x = {}) : GuardedReachable w
  | step (w w1 : World) (fuel : Nat) (c : Call) (hw : GuardedReachable w)
      (hrun : c.run fuel w = .done () w1) (hg : c.Guard w w1) : GuardedReachable w1

/-! ## Building a whole tree with `Add` -/

/-- One sibling list followed by another. -/
def Forest.append : Forest → Forest → Forest
  | .nil, g => g
  | .cons i kids rest, g => .cons i kids (rest.append g)

/-- The last node of a sibling list, null for the empty list. -/
def Forest.lastRoot : Forest → Ptr
  | .nil => none
  | .cons i _ rest =>
    match rest.lastRoot with
    | none => some i
    | some l => some l

/-- The `Add` calls that hang the sibling list `f` under the parent `p`: for each
child in order, first the calls that build the child list of the child, then
`p.Add(child)`. -/
def AddForest (p : Nat) : Forest → World → Outcome Unit
  | .nil, w => .done () w
  | .cons c kids rest, w =>
    (AddForest c kids w).andThen fun w1 =>
      (UiElement.Add w1 p (some c)).andThen fun w2 => AddForest p rest w2

/-- Host calls after which node 1 is attached while its next sibling, node 2, is
freed: node 1 is detached from the root 0 before the root is destroyed, and attached
again afterwards. -/
def danglingSiblingCalls : List Call :=
  [.Add 0 (some 1), .Add 0 (some 2), .Create (some 0), .Attach (some 0), .Detach (some 1),
    .Detach (some 0), .Destroy (some 0), .Attach (some 1)]

/-- Host calls after which node 0 is attached, its own parent and its own last
child: node 0 is added to itself, and its first child 1 is then given the new
parent 2 and the next sibling 3. -/
def selfParentCalls : List Call :=
  [.Add 0 (some 1), .Add 0 (some 0), .Add 2 (some 1), .Add 2 (some 3), .Create (some 0),
    .Attach (some 0)]

/-! ## Basic facts -/

open UiElement

@[simp] theorem World.call_heap (w : World) (k : Hook) (i : Nat) :
    (w.call k i).heap = w.heap := rfl

@[simp] theorem World.call_log (w : World) (k : Hook) (i : Nat) :
    (w.call k i).log = w.log ++ [(k, i)] := rfl

@[simp] theorem calls_nil (k : Hook) : calls k [] = [] := rfl

@[simp] theorem calls_cons (k : Hook) (i : Nat) (l : List Nat) :
    calls k (i :: l) = (k, i) :: calls k l := rfl

@[simp] theorem calls_append (k : Hook) (l m : List Nat) :
    calls k (l ++ m) = calls k l ++ calls k m := by simp [calls]

@[simp] theorem calls_length (k : Hook) (l : List Nat) : (calls k l).length = l.length := by
  simp [calls]

/-! ## The preview pass -/

/-- The preview pass leaves the heap as it is and appends only preview calls to the
log, whatever the heap and the fuel. -/
theorem preview_world (hk : Hooks) (e : UiEventBase) (fuel : Nat) :
    (∀ w this, ∃ l, (OnPreviewEventBase hk e fuel w this).world =
        { w with log := w.log ++ calls .OnPreviewEvent l }) ∧
    (∀ w c hd, ∃ l, (OnPreviewEventBase_loop hk e fuel w c hd).world =
        { w with log := w.log ++ calls .OnPreviewEvent l }) := by
  induction fuel with
  | zero =>
    constructor
    · intro w this
      exact ⟨[], by simp [OnPreviewEventBase, Outcome.world]⟩
    · intro w c hd
      cases c <;> exact ⟨[], by simp [OnPreviewEventBase_loop, Outcome.world]⟩
  | succ n ih =>
    obtain ⟨ih1, ih2⟩ := ih
    constructor
    · intro w this
      rw [OnPreviewEventBase]
      cases hth : w.heap this with
      | none => exact ⟨[], by simp [Outcome.world]⟩
      | some nd =>
        by_cases hp : hk.OnPreviewEvent w.heap this e = true
        · exact ⟨[this], by simp [hp, Outcome.world, World.call]⟩
        · obtain ⟨l, hl⟩ := ih2 (w.call .OnPreviewEvent this) nd.m_firstChild none
          refine ⟨this :: l, ?_⟩
          simp only [if_neg hp]
          rw [hl]
          simp
    · intro w c hd
      cases c with
      | none => exact ⟨[], by simp [OnPreviewEventBase_loop, Outcome.world]⟩
      | some c =>
        rw [OnPreviewEventBase_loop]
        obtain ⟨l, hl⟩ := ih1 w c
        cases hr : OnPreviewEventBase hk e n w c with
        | abort f w1 =>
          rw [hr] at hl
          exact ⟨l, by simpa [Outcome.world] using hl⟩
        | done v w1 =>
          rw [hr] at hl
          simp only [Outcome.world] at hl
          cases v with
          | none => exact ⟨l, by simpa [Outcome.world] using hl⟩
          | some x =>
            simp only
            cases hc : w1.heap c with
            | none => exact ⟨l, by simpa [Outcome.world] using hl⟩
            | some cn =>
              obtain ⟨l2, hl2⟩ := ih2 w1 cn.m_nextSibling (some x)
              refine ⟨l ++ l2, ?_⟩
              rw [hl2, hl]
              simp

/-- C1, the code at a failing input. On the tree of `main` (root 0 with the leaf
children 1, 2, 3, every node a `Panel`) and a mouse-button-down event, the
preview hook of node 1 returns true, yet the preview pass goes on to invoke the
preview hooks of its siblings 2 and 3, and the handler returned by the pass
started at the root is node 3, not node 1. -/
theorem preview_goes_on_after_volunteer :
    Panel.hooks.OnPreviewEvent flatWorld.heap 1 sampleEvent = true ∧
    (OnPreviewEventBase Panel.hooks sampleEvent 8 flatWorld 0).log =
      calls .OnPreviewEvent [0, 1, 2, 3] ∧
    (OnPreviewEventBase Panel.hooks sampleEvent 8 flatWorld 0).value? = some (some 3) := by
  decide

/-- C2. When the preview hook of the root returns false and the first child of the
root is a leaf whose preview hook returns false, the preview pass invokes the
preview hooks of the root and of that first child, in this order, and of no other
node; it returns null, and `DispatchEvent` ends there with no further hook. -/
theorem preview_aborts_at_first_leaf (hk : Hooks) (e : UiEventBase) (w : World)
    (r a : Nat) (rn an : UiNode) (fuel : Nat)
    (hr : w.heap r = some rn) (hfirst : rn.m_firstChild = some a)
    (ha : w.heap a = some an) (hleaf : an.m_firstChild = none)
    (hpr : hk.OnPreviewEvent w.heap r e = false)
    (hpa : hk.OnPreviewEvent w.heap a e = false)
    (hfuel : 3 ≤ fuel) :
    OnPreviewEventBase hk e fuel w r =
        .done none { w with log := w.log ++ calls .OnPreviewEvent [r, a] } ∧
    UiFactory.DispatchEvent hk fuel w (some r) e =
        .done () { w with log := w.log ++ calls .OnPreviewEvent [r, a] } := by
  obtain ⟨k, rfl⟩ : ∃ k, fuel = k + 3 := ⟨fuel - 3, by omega⟩
  have h1 : OnPreviewEventBase hk e (k + 3) w r =
      .done none { w with log := w.log ++ calls .OnPreviewEvent [r, a] } := by
    simp [OnPreviewEventBase, OnPreviewEventBase_loop, hr, hfirst, ha, hleaf, hpr, hpa,
      World.call]
  exact ⟨h1, by simp [UiFactory.DispatchEvent, h1]⟩

/-- C2 at the flat tree of the claim: root 0 with the children 1, 2, 3, where only
the preview hook of node 3 returns true. -/
theorem preview_aborts_at_first_leaf_witness :
    onlyThird.OnPreviewEvent flatWorld.heap 3 sampleEvent = true ∧
    walkNext flatWorld.heap 3 (firstChildOf flatWorld.heap 0) = some [1, 2, 3] ∧
    OnPreviewEventBase onlyThird sampleEvent 3 flatWorld 0 =
        .done none { flatWorld with log := flatWorld.log ++ calls .OnPreviewEvent [0, 1] } ∧
    UiFactory.DispatchEvent onlyThird 3 flatWorld (some 0) sampleEvent =
        .done () { flatWorld with log := flatWorld.log ++ calls .OnPreviewEvent [0, 1] } :=
  ⟨by decide, by decide,
    preview_aborts_at_first_leaf onlyThird sampleEvent flatWorld 0 1
      { m_firstChild := some 1, m_lastChild := some 3 }
      { m_parent := some 0, m_nextSibling := some 2 } 3
      (by decide) rfl (by decide) rfl rfl rfl (by decide)⟩

/-! ## The bubble pass -/

theorem parentOf_eq_some {h : Heap} {n m : Nat} (hp : parentOf h n = some m) :
    ∃ nd, h n = some nd ∧ nd.m_parent = some m := by
  simpa [parentOf, Option.bind_eq_some] using hp

/-- The bubble pass started at the bottom of a parent chain whose last node is the
first to consume the event invokes the own-event hook of every node of the chain,
bottom up, and returns true. -/
theorem bubble_climbs (hk : Hooks) (e : UiEventBase) (nk : Nat) :
    ∀ (init : List Nat) (n0 : Nat) (w : World) (fuel : Nat),
      (init ++ [nk]).head? = some n0 →
      ParentChain w.heap (init ++ [nk]) →
      (∀ n ∈ init, hk.OnEvent w.heap n e = false) →
      hk.OnEvent w.heap nk e = true →
      init.length + 1 ≤ fuel →
      OnEventBase hk e fuel w n0 =
        .done true { w with log := w.log ++ calls .OnEvent (init ++ [nk]) } := by
  intro init
  induction init with
  | nil =>
    intro n0 w fuel hhead hchain _ htrue hfuel
    obtain ⟨k, rfl⟩ : ∃ k, fuel = k + 1 := ⟨fuel - 1, by omega⟩
    simp at hhead
    subst hhead
    simp only [List.nil_append, ParentChain, Option.isSome_iff_exists] at hchain
    obtain ⟨nd, hnd⟩ := hchain
    simp [OnEventBase, hnd, htrue, World.call]
  | cons a init ih =>
    intro n0 w fuel hhead hchain hfalse htrue hfuel
    obtain ⟨k, rfl⟩ : ∃ k, fuel = k + 1 := ⟨fuel - 1, by simp at hfuel; omega⟩
    simp at hhead
    subst hhead
    obtain ⟨m, hm⟩ : ∃ m, (init ++ [nk]).head? = some m := by
      cases init <;> simp
    obtain ⟨rest, hrest⟩ : ∃ rest, init ++ [nk] = m :: rest := by
      cases hi : init ++ [nk] with
      | nil => simp at hi
      | cons x rest => rw [hi] at hm; simp at hm; exact ⟨rest, by rw [hm]⟩
    have hchain2 : parentOf w.heap a = some m ∧ ParentChain w.heap (init ++ [nk]) := by
      have := hchain
      rw [List.cons_append, hrest] at this
      rw [hrest]
      simpa [ParentChain] using this
    obtain ⟨nd, hnd, hpar⟩ := parentOf_eq_some hchain2.1
    have hfa : hk.OnEvent w.heap a e = false := hfalse a (by simp)
    have step := ih m (w.call .OnEvent a) k hm (by simpa using hchain2.2)
      (by intro n hn; simpa using hfalse n (by simp [hn])) (by simpa using htrue)
      (by simp at hfuel; omega)
    rw [OnEventBase]
    simp only [hnd, hfa, hpar, Bool.false_eq_true, if_false]
    rw [step]
    simp

/-- C3. Let the preview pass started at the root return the handler `n0`, and let
`n0, n1, ..., nk` follow the parent links, the own-event hooks of `n0 .. n(k-1)`
returning false and that of `nk` returning true. Then the bubble pass returns true
(the event is consumed), and `DispatchEvent` invokes, after the preview calls, the
own-event hooks of exactly `n0, n1, ..., nk` in this order: `k + 1` invocations. -/
theorem dispatch_bubbles_to_consumer (hk : Hooks) (e : UiEventBase) (w w1 : World)
    (r n0 nk : Nat) (init : List Nat) (fuel : Nat)
    (hprev : OnPreviewEventBase hk e fuel w r = .done (some n0) w1)
    (hhead : (init ++ [nk]).head? = some n0)
    (hchain : ParentChain w.heap (init ++ [nk]))
    (hfalse : ∀ n ∈ init, hk.OnEvent w.heap n e = false)
    (htrue : hk.OnEvent w.heap nk e = true)
    (hfuel : init.length + 1 ≤ fuel) :
    (∃ visited, w1 = { w with log := w.log ++ calls .OnPreviewEvent visited }) ∧
    OnEventBase hk e fuel w1 n0 =
        .done true { w1 with log := w1.log ++ calls .OnEvent (init ++ [nk]) } ∧
    UiFactory.DispatchEvent hk fuel w (some r) e =
        .done () { w1 with log := w1.log ++ calls .OnEvent (init ++ [nk]) } ∧
    (calls .OnEvent (init ++ [nk])).length = init.length + 1 := by
  obtain ⟨l, hl⟩ := (preview_world hk e fuel).1 w r
  rw [hprev] at hl
  simp only [Outcome.world] at hl
  have hheap : w1.heap = w.heap := by rw [hl]
  have hb := bubble_climbs hk e nk init n0 w1 fuel hhead (by rw [hheap]; exact hchain)
    (by rw [hheap]; exact hfalse) (by rw [hheap]; exact htrue) hfuel
  refine ⟨⟨l, hl⟩, hb, ?_, by simp⟩
  simp [UiFactory.DispatchEvent, hprev, hb]

/-- C3 at the tree of the claim: root 0 with the leaf 1, where the leaf volunteers
in the preview pass and declines the event, and the root consumes it. Two own-event
invocations, leaf then root. -/
theorem dispatch_bubbles_to_consumer_witness :
    OnPreviewEventBase leafThenRoot sampleEvent 4 pairWorld 0 =
        .done (some 1) { pairWorld with log := calls .OnPreviewEvent [0, 1] } ∧
    OnEventBase leafThenRoot sampleEvent 4
        { pairWorld with log := calls .OnPreviewEvent [0, 1] } 1 =
        .done true { pairWorld with
          log := calls .OnPreviewEvent [0, 1] ++ calls .OnEvent [1, 0] } ∧
    UiFactory.DispatchEvent leafThenRoot 4 pairWorld (some 0) sampleEvent =
        .done () { pairWorld with
          log := calls .OnPreviewEvent [0, 1] ++ calls .OnEvent [1, 0] } :=
  have hprev : OnPreviewEventBase leafThenRoot sampleEvent 4 pairWorld 0 =
      .done (some 1) { pairWorld with log := calls .OnPreviewEvent [0, 1] } := by
    have h0 : pairWorld.heap 0 = some { m_firstChild := some 1, m_lastChild := some 1 } := by
      decide
    have h1 : pairWorld.heap 1 = some { m_parent := some 0 } := by decide
    have hlog : pairWorld.log = [] := rfl
    simp [OnPreviewEventBase, OnPreviewEventBase_loop, leafThenRoot, World.call, h0, h1, hlog]
  have h := dispatch_bubbles_to_consumer leafThenRoot sampleEvent pairWorld _ 0 1 0 [1] 4
    hprev rfl (by decide) (by decide) (by decide) (by decide)
  ⟨hprev, h.2.1, h.2.2.1⟩

/-- C4, the code at a failing input. On the tree root 0 with leaf 1, where the leaf
volunteers in the preview pass and the own-event hooks of the leaf and of the root
both return false, `DispatchEvent` invokes the own-event hooks of the leaf and of
the root and then calls `OnEventBase` through the null parent of the root: the run
stops with a null dereference instead of ending with the event unhandled. -/
theorem bubble_runs_past_root :
    parentOf pairWorld.heap 0 = none ∧
    (UiFactory.DispatchEvent nobodyConsumes 8 pairWorld (some 0) sampleEvent).log =
      calls .OnPreviewEvent [0, 1] ++ calls .OnEvent [1, 0] ∧
    (UiFactory.DispatchEvent nobodyConsumes 8 pairWorld (some 0) sampleEvent).fault? =
      some .nullDeref := by
  decide

/-! ## The preview pass on a well-formed tree -/

theorem previewScan_cons (pv : Nat → Bool) (i : Nat) (kids rest : Forest) (hd : Ptr) :
    previewScan pv (.cons i kids rest) hd =
      match (previewNode pv i kids).1 with
      | none => (none, (previewNode pv i kids).2)
      | some x => ((previewScan pv rest (some x)).1,
          (previewNode pv i kids).2 ++ (previewScan pv rest (some x)).2) := rfl

@[simp] theorem World.log_append_nil (w : World) : { w with log := w.log ++ [] } = w := by
  cases w; simp

/-- The preview driver on a node, from what the loop does on the node's children. -/
theorem preview_node_step (hk : Hooks) (e : UiEventBase) (w : World) (i : Nat) (nd : UiNode)
    (kids : Forest) (fuel : Nat) (hi : w.heap i = some nd)
    (hloop : ∀ w1 : World, w1.heap = w.heap →
      OnPreviewEventBase_loop hk e fuel w1 nd.m_firstChild none =
        .done (previewScan (hk.previewOn w.heap e) kids none).1
          { w1 with
            log := w1.log ++
              calls .OnPreviewEvent (previewScan (hk.previewOn w.heap e) kids none).2 }) :
    OnPreviewEventBase hk e (fuel + 1) w i =
      .done (previewNode (hk.previewOn w.heap e) i kids).1
        { w with
          log := w.log ++
            calls .OnPreviewEvent (previewNode (hk.previewOn w.heap e) i kids).2 } := by
  have hpv : hk.previewOn w.heap e i = hk.OnPreviewEvent w.heap i e := rfl
  rw [OnPreviewEventBase]
  by_cases hp : hk.OnPreviewEvent w.heap i e = true
  · simp [hi, hp, hpv, previewNode, World.call]
  · simp only [hi, if_neg hp, hpv, previewNode]
    rw [hloop]
    · simp
    · rfl

/-- The preview loop over a sibling list held in the heap computes `previewScan`. -/
theorem preview_loop_scan (hk : Hooks) (e : UiEventBase) (h : Heap) :
    ∀ (f : Forest) (par start hd : Ptr) (w : World) (fuel : Nat),
      w.heap = h → Linked h par f start → 2 * f.size ≤ fuel →
      OnPreviewEventBase_loop hk e fuel w start hd =
        .done (previewScan (hk.previewOn h e) f hd).1
          { w with log := w.log ++
                            calls .OnPreviewEvent (previewScan (hk.previewOn h e) f hd).2 } := by
  intro f
  induction f with
  | nil =>
    intro par start hd w fuel _ hl _
    simp only [Linked] at hl
    subst hl
    simp [OnPreviewEventBase_loop, previewScan]
  | cons i kids rest ihk ihr =>
    intro par start hd w fuel hw hl hfuel
    simp only [Linked] at hl
    obtain ⟨rfl, nd, hnd, -, hkids, hrest⟩ := hl
    simp only [Forest.size] at hfuel
    obtain ⟨k, rfl⟩ : ∃ k, fuel = k + 2 := ⟨fuel - 2, by omega⟩
    subst hw
    have hnode := preview_node_step hk e w i nd kids k hnd
      (fun w1 hw1 => ihk (some i) nd.m_firstChild none w1 k hw1 hkids (by omega))
    rw [OnPreviewEventBase_loop, hnode, previewScan_cons]
    cases hown : (previewNode (hk.previewOn w.heap e) i kids).1 with
    | none => simp
    | some x =>
      simp only [hnd]
      have hr := fun w1 hw1 =>
        ihr par nd.m_nextSibling (some x) w1 (k + 1) hw1 hrest (by omega)
      rw [hr]
      · simp
      · rfl

/-- The preview driver on the root of a tree held in the heap computes `previewNode`. -/
theorem preview_tree_scan (hk : Hooks) (e : UiEventBase) (w : World) (r : Nat)
    (kids : Forest) (fuel : Nat) (ht : IsTree w.heap r kids) (hfuel : 2 * kids.size + 1 ≤ fuel) :
    OnPreviewEventBase hk e fuel w r =
      .done (previewNode (hk.previewOn w.heap e) r kids).1
        { w with
          log := w.log ++
            calls .OnPreviewEvent (previewNode (hk.previewOn w.heap e) r kids).2 } := by
  obtain ⟨hl, -⟩ := ht
  simp only [Linked] at hl
  obtain ⟨-, nd, hnd, -, hkids, -⟩ := hl
  obtain ⟨k, rfl⟩ : ∃ k, fuel = k + 1 := ⟨fuel - 1, by omega⟩
  exact preview_node_step hk e w r nd kids k hnd
    (fun w1 hw1 => preview_loop_scan hk e w.heap kids (some r) nd.m_firstChild none w1 k hw1
      hkids (by omega))

theorem previewScan_none_of_all_false (pv : Nat → Bool) :
    ∀ f : Forest, (∀ i ∈ f.ids, pv i = false) → (previewScan pv f none).1 = none := by
  intro f
  induction f with
  | nil => intro _; rfl
  | cons i kids rest ihk _ =>
    intro hall
    have hi : pv i = false := hall i (by simp [Forest.ids])
    have hk : (previewScan pv kids none).1 = none :=
      ihk (fun j hj => hall j (by simp [Forest.ids, hj]))
    simp [previewScan_cons, previewNode, hi, hk]

/-- C5. On a well-formed tree in which the preview hook of no node returns true,
the preview pass started at the root returns null, and `DispatchEvent` returns
having appended to the log nothing but the preview calls of that pass: no
own-event hook is invoked on any node. -/
theorem dispatch_without_volunteer (hk : Hooks) (e : UiEventBase) (w : World) (r : Nat)
    (kids : Forest) (fuel : Nat) (ht : IsTree w.heap r kids)
    (hno : ∀ i ∈ (Forest.cons r kids .nil).ids, hk.OnPreviewEvent w.heap i e = false)
    (hfuel : 2 * kids.size + 1 ≤ fuel) :
    ∃ visited : List Nat,
      OnPreviewEventBase hk e fuel w r =
        .done none { w with log := w.log ++ calls .OnPreviewEvent visited } ∧
      UiFactory.DispatchEvent hk fuel w (some r) e =
        .done () { w with log := w.log ++ calls .OnPreviewEvent visited } ∧
      ∀ n, (Hook.OnEvent, n) ∉ calls .OnPreviewEvent visited := by
  have hscan := preview_tree_scan hk e w r kids fuel ht hfuel
  have hr : hk.previewOn w.heap e r = false := hno r (by simp [Forest.ids])
  have hkids : (previewScan (hk.previewOn w.heap e) kids none).1 = none :=
    previewScan_none_of_all_false _ kids (fun j hj => hno j (by simp [Forest.ids, hj]))
  have hnone : (previewNode (hk.previewOn w.heap e) r kids).1 = none := by
    simp [previewNode, hr, hkids]
  rw [hnone] at hscan
  refine ⟨_, hscan, ?_, ?_⟩
  · simp [UiFactory.DispatchEvent, hscan]
  · intro n hn
    simp [calls] at hn

/-- C5 at the tree of `main` (root 0 with the children 1, 2, 3) when no node
volunteers. -/
theorem dispatch_without_volunteer_witness :
    ∃ visited : List Nat,
      OnPreviewEventBase nobodyVolunteers sampleEvent 7 flatWorld 0 =
        .done none { flatWorld with log := flatWorld.log ++ calls .OnPreviewEvent visited } ∧
      UiFactory.DispatchEvent nobodyVolunteers 7 flatWorld (some 0) sampleEvent =
        .done () { flatWorld with log := flatWorld.log ++ calls .OnPreviewEvent visited } ∧
      ∀ n, (Hook.OnEvent, n) ∉ calls .OnPreviewEvent visited :=
  dispatch_without_volunteer nobodyVolunteers sampleEvent flatWorld 0
    (.cons 1 .nil (.cons 2 .nil (.cons 3 .nil .nil))) 7 (by decide)
    (by intro i _; rfl) (by decide)

/-! ## Building a child list with `Add` -/

@[simp] theorem Heap.set_same (h : Heap) (i : Nat) (nd : UiNode) : h.set i nd i = some nd := by
  simp [Heap.set]

theorem Heap.set_other {h : Heap} {i j : Nat} {nd : UiNode} (hij : j ≠ i) :
    h.set i nd j = h j := by
  simp [Heap.set, hij]

/-- The call `Add` on a parent without children. -/
theorem add_first (w : World) (p c : Nat) (pn cn : UiNode) (hp : w.heap p = some pn)
    (hinit : pn.isInitialized = false) (hatt : pn.isAttached = false)
    (hfirst : pn.m_firstChild = none) (hlast : pn.m_lastChild = none)
    (hc : w.heap c = some cn) (hcp : c ≠ p) :
    UiElement.Add w p (some c) = .done ()
      { w with
        heap := (w.heap.set p { pn with m_firstChild := some c, m_lastChild := some c }).set c
          { cn with m_parent := some p } } := by
  simp [UiElement.Add, World.assign, hp, hinit, hatt, hfirst, hlast, hc, Heap.set_other hcp]

/-- The call `Add` on a parent whose last child is `l`. -/
theorem add_next (w : World) (p l c : Nat) (pn ln cn : UiNode) (hp : w.heap p = some pn)
    (hinit : pn.isInitialized = false) (hatt : pn.isAttached = false)
    (hlast : pn.m_lastChild = some l) (hl : w.heap l = some ln)
    (hc : w.heap c = some cn) (hlp : l ≠ p) (hcp : c ≠ p) (hcl : c ≠ l) :
    UiElement.Add w p (some c) = .done ()
      { w with
        heap := ((w.heap.set l { ln with m_nextSibling := some c }).set p
          { pn with m_lastChild := some c }).set c { cn with m_parent := some p } } := by
  simp [UiElement.Add, World.assign, hp, hinit, hatt, hlast, hl, hc, Heap.set_other hcp,
    Heap.set_other hcl, Heap.set_other (Ne.symm hlp)]

theorem NextChain_congr {h h1 : Heap} :
    ∀ (l : List Nat) (start : Ptr),
      (∀ j ∈ l, ∀ nd, h j = some nd →
        ∃ nd1, h1 j = some nd1 ∧ nd1.m_nextSibling = nd.m_nextSibling) →
      NextChain h start l → NextChain h1 start l := by
  intro l
  induction l with
  | nil => intro start _ hc; simpa [NextChain] using hc
  | cons a l ih =>
    intro start hsame hc
    simp only [NextChain] at hc ⊢
    obtain ⟨hs, nd, hnd, hrest⟩ := hc
    obtain ⟨nd1, hnd1, hnext⟩ := hsame a (by simp) nd hnd
    refine ⟨hs, nd1, hnd1, ?_⟩
    rw [hnext]
    exact ih _ (fun j hj => hsame j (by simp [hj])) hrest

theorem NextChain_snoc (h : Heap) (l c : Nat) (ln cn : UiNode)
    (hc : h c = some cn) (hnext : cn.m_nextSibling = none) :
    ∀ (init : List Nat) (start : Ptr),
      (init ++ [l]).Nodup → c ∉ init ++ [l] → NextChain h start (init ++ [l]) →
      NextChain (h.set l { ln with m_nextSibling := some c }) start (init ++ [l] ++ [c]) := by
  intro init
  induction init with
  | nil =>
    intro start _ hcl hch
    simp only [List.nil_append, NextChain] at hch ⊢
    simp only [List.nil_append, List.mem_singleton] at hcl
    obtain ⟨hs, -⟩ := hch
    refine ⟨hs, _, Heap.set_same _ _ _, ?_⟩
    simp only [List.singleton_append, NextChain]
    refine ⟨trivial, cn, ?_, hnext⟩
    rw [Heap.set_other hcl]
    exact hc
  | cons a init ih =>
    intro start hnd hcl hch
    simp only [List.cons_append, NextChain] at hch ⊢
    obtain ⟨hs, nd, ha, hrest⟩ := hch
    have hal : a ≠ l := by
      intro hf
      simp [hf] at hnd
    refine ⟨hs, nd, by rw [Heap.set_other hal]; exact ha, ?_⟩
    have := ih nd.m_nextSibling (List.Nodup.of_cons (by simpa using hnd))
      (fun hm => hcl (by simp at hm ⊢; tauto)) hrest
    simpa using this

theorem NextChain_alloc {h : Heap} :
    ∀ (l : List Nat) (start : Ptr), NextChain h start l →
      ∀ j ∈ l, ∃ nd, h j = some nd := by
  intro l
  induction l with
  | nil => intro _ _ j hj; simp at hj
  | cons a l ih =>
    intro start hc j hj
    simp only [NextChain] at hc
    obtain ⟨-, nd, hnd, hrest⟩ := hc
    rcases List.mem_cons.mp hj with rfl | hj
    · exact ⟨nd, hnd⟩
    · exact ih _ hrest j hj

theorem NextChain_walk {h : Heap} :
    ∀ (l : List Nat) (start : Ptr) (fuel : Nat), NextChain h start l → l.length ≤ fuel →
      walkNext h fuel start = some l := by
  intro l
  induction l with
  | nil =>
    intro start fuel hc _
    simp only [NextChain] at hc
    subst hc
    cases fuel <;> rfl
  | cons a l ih =>
    intro start fuel hc hfuel
    simp only [NextChain] at hc
    obtain ⟨rfl, nd, hnd, hrest⟩ := hc
    obtain ⟨k, rfl⟩ : ∃ k, fuel = k + 1 := ⟨fuel - 1, by simp at hfuel; omega⟩
    simp [walkNext, hnd, ih _ k hrest (by simp at hfuel; omega)]

theorem parentOf_set_other {h : Heap} {i j : Nat} {nd : UiNode} (hij : j ≠ i) :
    parentOf (h.set i nd) j = parentOf h j := by
  simp [parentOf, Heap.set_other hij]

/-- One `Add` extends the child list built so far by the new child and touches no
node besides the parent, the old last child and the new child. -/
theorem add_step (w : World) (p c : Nat) (pre : List Nat) (cn : UiNode)
    (hb : Built w.heap p pre) (hnd : pre.Nodup) (hp : p ∉ pre) (hc : c ∉ pre) (hcp : c ≠ p)
    (hcn : w.heap c = some cn) (hnext : cn.m_nextSibling = none) :
    ∃ w1, UiElement.Add w p (some c) = .done () w1 ∧ Built w1.heap p (pre ++ [c]) ∧
      (∀ j, j ≠ p → j ∉ pre → j ≠ c → w1.heap j = w.heap j) ∧ w1.log = w.log := by
  obtain ⟨pn, hpn, hinit, hatt, hfirst, hlast, hchain, hpar⟩ := hb
  rcases List.eq_nil_or_concat pre with rfl | ⟨init, l, hpre⟩
  · simp only [List.head?_nil, List.getLast?_nil] at hfirst hlast
    refine ⟨_, add_first w p c pn cn hpn hinit hatt hfirst hlast hcn hcp, ?_, ?_, rfl⟩
    · refine ⟨{ pn with m_firstChild := some c, m_lastChild := some c }, ?_, hinit, hatt,
        ?_, ?_, ?_, ?_⟩
      · simp only
        rw [Heap.set_other (Ne.symm hcp)]
        exact Heap.set_same _ _ _
      · simp
      · simp
      · simp [NextChain, hnext]
      · intro x hx
        simp only [List.nil_append, List.mem_singleton] at hx
        subst hx
        simp [parentOf]
    · intro j hjp _ hjc
      simp only
      rw [Heap.set_other hjc, Heap.set_other hjp]
  · rw [List.concat_eq_append] at hpre
    subst hpre
    have hl_mem : l ∈ init ++ [l] := by simp
    have hlp : l ≠ p := fun hf => hp (hf ▸ hl_mem)
    have hcl : c ≠ l := fun hf => hc (hf ▸ hl_mem)
    obtain ⟨ln, hln⟩ := NextChain_alloc _ _ hchain l hl_mem
    have hlast1 : pn.m_lastChild = some l := by simpa using hlast
    refine ⟨_, add_next w p l c pn ln cn hpn hinit hatt hlast1 hln hcn hlp hcp hcl, ?_, ?_, rfl⟩
    · refine ⟨{ pn with m_lastChild := some c }, ?_, hinit, hatt, ?_, ?_, ?_, ?_⟩
      · simp only
        rw [Heap.set_other (Ne.symm hcp)]
        exact Heap.set_same _ _ _
      · simp only
        rw [hfirst]
        cases init <;> simp
      · simp
      · have hhead : (init ++ [l] ++ [c]).head? = (init ++ [l]).head? := by
          cases init <;> simp
        rw [hhead]
        have h1 := NextChain_snoc w.heap l c ln cn hcn hnext init _ hnd hc hchain
        refine NextChain_congr _ _ ?_ h1
        intro j hj nd hjnd
        by_cases hjc : j = c
        · subst hjc
          refine ⟨_, Heap.set_same _ _ _, ?_⟩
          rw [Heap.set_other hcl, hcn] at hjnd
          cases hjnd
          rfl
        · have hjp : j ≠ p := by
            intro hf
            subst hf
            simp only [List.mem_append, List.mem_singleton] at hj
            rcases hj with hj | hj
            · exact hp (by simpa using hj)
            · exact hjc hj
          exact ⟨nd, by simp only; rw [Heap.set_other hjc, Heap.set_other hjp]; exact hjnd, rfl⟩
      · intro x hx
        simp only
        rcases List.mem_append.mp hx with hx | hx
        · have hxc : x ≠ c := fun hf => hc (hf ▸ hx)
          have hxp : x ≠ p := fun hf => hp (hf ▸ hx)
          rw [parentOf_set_other hxc, parentOf_set_other hxp]
          by_cases hxl : x = l
          · subst hxl
            have := hpar x hx
            simp only [parentOf, hln, Option.some_bind] at this
            simp [parentOf, this]
          · rw [parentOf_set_other hxl]
            exact hpar x hx
        · simp only [List.mem_singleton] at hx
          subst hx
          simp [parentOf]
    · intro j hjp hjpre hjc
      have hjl : j ≠ l := fun hf => hjpre (hf ▸ hl_mem)
      simp only
      rw [Heap.set_other hjc, Heap.set_other hjp, Heap.set_other hjl]

/-- A sequence of `Add` calls extends the child list built so far by the new
children, in order. -/
theorem addAll_built (p : Nat) :
    ∀ (cs pre : List Nat) (w : World),
      Built w.heap p pre → (pre ++ cs).Nodup → p ∉ pre ++ cs →
      (∀ c ∈ cs, ∃ cn, w.heap c = some cn ∧ cn.m_nextSibling = none) →
      ∃ w1, AddAll p cs w = .done () w1 ∧ Built w1.heap p (pre ++ cs) ∧ w1.log = w.log := by
  intro cs
  induction cs with
  | nil =>
    intro pre w hb _ _ _
    exact ⟨w, rfl, by simpa using hb, rfl⟩
  | cons c cs ih =>
    intro pre w hb hnd hp hfresh
    obtain ⟨cn, hcn, hnext⟩ := hfresh c (by simp)
    have hnd1 : pre.Nodup ∧ c ∉ pre ∧ c ∉ cs ∧ cs.Nodup ∧ ∀ x ∈ pre, x ∉ cs := by
      rw [List.nodup_append] at hnd
      obtain ⟨h1, h2, h3⟩ := hnd
      rw [List.nodup_cons] at h2
      refine ⟨h1, fun hf => h3 hf (by simp), h2.1, h2.2, fun x hx hf => h3 hx (by simp [hf])⟩
    obtain ⟨hpre, hcpre, hccs, -, hdisj⟩ := hnd1
    have hp1 : p ∉ pre ∧ c ≠ p ∧ p ∉ cs := by
      simp only [List.mem_append, List.mem_cons, not_or] at hp
      exact ⟨hp.1, fun hf => hp.2.1 hf.symm, hp.2.2⟩
    obtain ⟨w1, hadd, hb1, hframe, hlog⟩ :=
      add_step w p c pre cn hb hpre hp1.1 hcpre hp1.2.1 hcn hnext
    obtain ⟨w2, hall, hb2, hlog2⟩ := ih (pre ++ [c]) w1 hb1 (by simpa using hnd)
      (by simpa using hp)
      (by
        intro x hx
        obtain ⟨xn, hxn, hxnext⟩ := hfresh x (by simp [hx])
        refine ⟨xn, ?_, hxnext⟩
        rw [hframe x (fun hf => hp1.2.2 (hf ▸ hx)) (fun hf => hdisj x hf hx)
          (fun hf => hccs (hf ▸ hx))]
        exact hxn)
    refine ⟨w2, ?_, by simpa using hb2, by rw [hlog2, hlog]⟩
    simp [AddAll, hadd, hall]

/-- C6. Let `p` be an uninitialized, unattached node without children and
`c1 .. cn` distinct freshly constructed nodes other than `p`. The calls
`p.Add(c1); ...; p.Add(cn)` all return, and afterwards the walk from
`p.firstChild` along `nextSibling` visits exactly `c1, ..., cn` in this order and
ends at null, `p.lastChild` is `cn` (null when there is no child), and the parent
link of every `ci` is `p`. -/
theorem add_sequence_forward (w : World) (p : Nat) (pn : UiNode) (cs : List Nat)
    (hp : w.heap p = some pn) (hinit : pn.isInitialized = false)
    (hatt : pn.isAttached = false) (hfirst : pn.m_firstChild = none)
    (hlast : pn.m_lastChild = none)
    (hfresh : ∀ c ∈ cs, ∃ cn, w.heap c = some cn ∧ cn.linksNull)
    (hdistinct : cs.Nodup) (hpc : p ∉ cs) :
    ∃ w1, AddAll p cs w = .done () w1 ∧
      (∀ fuel, cs.length ≤ fuel →
        walkNext w1.heap fuel (firstChildOf w1.heap p) = some cs) ∧
      lastChildOf w1.heap p = cs.getLast? ∧
      ∀ c ∈ cs, parentOf w1.heap c = some p := by
  have hb : Built w.heap p [] :=
    ⟨pn, hp, hinit, hatt, by simpa using hfirst, by simpa using hlast, by simp [NextChain],
      by simp⟩
  obtain ⟨w1, hall, ⟨pn1, hpn1, -, -, hf1, hl1, hchain, hpar⟩, -⟩ :=
    addAll_built p cs [] w hb (by simpa using hdistinct) (by simpa using hpc)
      (fun c hc => by
        obtain ⟨cn, hcn, hnull⟩ := hfresh c hc
        exact ⟨cn, hcn, hnull.2.1⟩)
  simp only [List.nil_append] at hf1 hl1 hchain hpar
  refine ⟨w1, hall, ?_, ?_, hpar⟩
  · intro fuel hfuel
    have : firstChildOf w1.heap p = cs.head? := by simp [firstChildOf, hpn1, hf1]
    rw [this]
    exact NextChain_walk cs _ fuel hchain hfuel
  · simp [lastChildOf, hpn1, hl1]

/-- C6 on the tree of `main`: three fresh nodes added to the fresh node 0. -/
theorem add_sequence_forward_witness :
    ∃ w1, AddAll 0 [1, 2, 3] freshWorld = .done () w1 ∧
      (∀ fuel, [1, 2, 3].length ≤ fuel →
        walkNext w1.heap fuel (firstChildOf w1.heap 0) = some [1, 2, 3]) ∧
      lastChildOf w1.heap 0 = [1, 2, 3].getLast? ∧
      ∀ c ∈ [1, 2, 3], parentOf w1.heap c = some 0 :=
  add_sequence_forward freshWorld 0 {} [1, 2, 3] (by decide) rfl rfl rfl rfl
    (by
      intro c hc
      refine ⟨{}, ?_, by simp [UiNode.linksNull]⟩
      simp only [List.mem_cons, List.mem_singleton, List.not_mem_nil, or_false] at hc
      rcases hc with rfl | rfl | rfl <;> decide)
    (by decide) (by decide)

/-! ## Walking backwards, and the guards of `Add` and `Remove` -/

/-- C7, the code at a failing input. After `p.Add(c1); p.Add(c2)` on fresh nodes
(p = 0, c1 = 1, c2 = 2) the forward walk from `p.firstChild` visits 1, 2, but
`Add` never writes `m_prevSibling`: the backward walk from `p.lastChild` visits
node 2 only and does not reach the first child, so it is not the reverse of the
forward walk. -/
theorem backward_walk_stops_at_last :
    walkNext twoWorld.heap 4 (firstChildOf twoWorld.heap 0) = some [1, 2] ∧
    walkPrev twoWorld.heap 4 (lastChildOf twoWorld.heap 0) = some [2] ∧
    walkPrev twoWorld.heap 4 (lastChildOf twoWorld.heap 0) ≠ some [1, 2].reverse := by
  decide

/-- C8, counterexample. Node 1 is initialized and attached, node 0 is fresh:
`Add(0, 1)` raises no contract violation and links node 1 as the child of node 0. -/
theorem add_accepts_live_child :
    (liveChildWorld.heap 1).map (fun nd => (nd.isInitialized, nd.isAttached)) =
      some (true, true) ∧
    (UiElement.Add liveChildWorld 0 (some 1)).fault? = none ∧
    firstChildOf (UiElement.Add liveChildWorld 0 (some 1)).world.heap 0 = some 1 ∧
    parentOf (UiElement.Add liveChildWorld 0 (some 1)).world.heap 1 = some 0 := by
  decide

/-- C8, amended. `Add(parent, child)` fails with a contract violation and leaves the
world as it was, linking nothing, whenever the parent is initialized or attached,
whatever the child. -/
theorem add_rejects_live_parent (w : World) (this : Nat) (child : Ptr) (nd : UiNode)
    (hthis : w.heap this = some nd)
    (hlive : nd.isInitialized = true ∨ nd.isAttached = true) :
    UiElement.Add w this child = .abort .assertFailed w := by
  rcases hlive with h | h <;> simp [UiElement.Add, hthis, h]

/-- C8 amended, at a parent that was created before the `Add`. -/
theorem add_rejects_live_parent_witness :
    UiElement.Add liveParentWorld 0 (some 1) = .abort .assertFailed liveParentWorld :=
  add_rejects_live_parent liveParentWorld 0 (some 1) { isInitialized := true } (by decide)
    (Or.inl rfl)

/-- C9, the code at a failing input. On the parent 0 with the children 1, 2 built
by `Add`, `Remove(0, 1)` passes its assertion and returns, but its body edits the
links around `this` (node 0), not around the child: node 1 is still the first
child of node 0 and the forward walk still visits 1, 2. -/
theorem remove_leaves_child_linked :
    parentOf twoWorld.heap 1 = some 0 ∧
    (UiElement.Remove twoWorld 0 (some 1)).fault? = none ∧
    firstChildOf (UiElement.Remove twoWorld 0 (some 1)).world.heap 0 = some 1 ∧
    walkNext (UiElement.Remove twoWorld 0 (some 1)).world.heap 4
      (firstChildOf (UiElement.Remove twoWorld 0 (some 1)).world.heap 0) = some [1, 2] := by
  decide

/-! ## Destroy -/

theorem Linked_congr {h h1 : Heap} :
    ∀ (f : Forest) (par start : Ptr), (∀ j ∈ f.ids, h1 j = h j) →
      Linked h par f start → Linked h1 par f start := by
  intro f
  induction f with
  | nil => intro par start _ hl; simpa [Linked] using hl
  | cons i kids rest ihk ihr =>
    intro par start hsame hl
    simp only [Linked] at hl ⊢
    obtain ⟨hs, nd, hnd, hpar, hkids, hrest⟩ := hl
    refine ⟨hs, nd, ?_, hpar, ?_, ?_⟩
    · rw [hsame i (by simp [Forest.ids])]
      exact hnd
    · exact ihk _ _ (fun j hj => hsame j (by simp [Forest.ids, hj])) hkids
    · exact ihr _ _ (fun j hj => hsame j (by simp [Forest.ids, hj])) hrest

theorem postorder_perm : ∀ f : Forest, f.postorder.Perm f.ids := by
  intro f
  induction f with
  | nil => exact List.Perm.refl _
  | cons i kids rest ihk ihr =>
    simp only [Forest.postorder, Forest.ids, List.append_assoc, List.singleton_append]
    exact List.perm_middle.trans (List.Perm.cons _ (ihk.append ihr))

/-- The destroy driver on a node, from what the loop does on the node's children. -/
theorem destroy_node_step (w : World) (i : Nat) (nd : UiNode) (kids : Forest) (fuel : Nat)
    (hi : w.heap i = some nd) (hinit : nd.isInitialized = true) (hnotin : i ∉ kids.ids)
    (hloop : ∃ w1, OnDestroyBase_loop fuel w nd.m_firstChild = .done () w1 ∧
      w1.log = w.log ++ calls .OnDestroy kids.postorder ∧
      (∀ j, j ∉ kids.ids → w1.heap j = w.heap j) ∧ (∀ j ∈ kids.ids, w1.heap j = none)) :
    ∃ w2, OnDestroyBase (fuel + 1) w i = .done () w2 ∧
      w2.log = w.log ++ calls .OnDestroy (kids.postorder ++ [i]) ∧
      (∀ j, j ≠ i → j ∉ kids.ids → w2.heap j = w.heap j) ∧
      w2.heap i = some { nd with isInitialized := false } ∧
      (∀ j ∈ kids.ids, w2.heap j = none) := by
  obtain ⟨w1, hrun, hlog, hframe, hfreed⟩ := hloop
  have hi1 : w1.heap i = some nd := by rw [hframe i hnotin]; exact hi
  refine ⟨{ heap := w1.heap.set i { nd with isInitialized := false },
            log := w1.log ++ [(.OnDestroy, i)] }, ?_, ?_, ?_, ?_, ?_⟩
  · rw [OnDestroyBase]
    simp [hi, hinit, hrun, World.assign, World.call, hi1]
  · simp [hlog]
  · intro j hji hjk
    simp only
    rw [Heap.set_other hji]
    exact hframe j hjk
  · simp
  · intro j hj
    have hji : j ≠ i := fun hf => hnotin (hf ▸ hj)
    simp only
    rw [Heap.set_other hji]
    exact hfreed j hj

/-- The destroy loop over a sibling list held in the heap runs the destroy hooks in
post-order, frees every node of the list, and touches nothing else. -/
theorem destroy_loop_postorder :
    ∀ (f : Forest) (par start : Ptr) (w : World) (fuel : Nat),
      Linked w.heap par f start → f.ids.Nodup →
      (∀ j ∈ f.ids, ∃ nd, w.heap j = some nd ∧ nd.isInitialized = true) →
      2 * f.size ≤ fuel →
      ∃ w1, OnDestroyBase_loop fuel w start = .done () w1 ∧
        w1.log = w.log ++ calls .OnDestroy f.postorder ∧
        (∀ j, j ∉ f.ids → w1.heap j = w.heap j) ∧ (∀ j ∈ f.ids, w1.heap j = none) := by
  intro f
  induction f with
  | nil =>
    intro par start w fuel hl _ _ _
    simp only [Linked] at hl
    subst hl
    exact ⟨w, by simp [OnDestroyBase_loop], by simp [Forest.postorder], fun _ _ => rfl,
      by simp [Forest.ids]⟩
  | cons i kids rest ihk ihr =>
    intro par start w fuel hl hnd hinit hfuel
    simp only [Linked] at hl
    obtain ⟨rfl, nd, hnd_i, -, hkids, hrest⟩ := hl
    simp only [Forest.size] at hfuel
    obtain ⟨k, rfl⟩ : ∃ k, fuel = k + 2 := ⟨fuel - 2, by omega⟩
    simp only [Forest.ids, List.nodup_cons, List.mem_append, not_or, List.nodup_append]
      at hnd
    obtain ⟨⟨hik, hir⟩, hkn, hrn, hdisj⟩ := hnd
    obtain ⟨nd0, hnd0, hinit_i⟩ := hinit i (by simp [Forest.ids])
    rw [hnd_i] at hnd0
    cases hnd0
    obtain ⟨w2, hrun2, hlog2, hframe2, hself2, hfreed2⟩ :=
      destroy_node_step w i nd kids k hnd_i hinit_i hik
        (ihk (some i) nd.m_firstChild w k hkids hkn
          (fun j hj => hinit j (by simp [Forest.ids, hj])) (by omega))
    have hsame : ∀ j ∈ rest.ids, (w2.heap.free i) j = w.heap j := by
      intro j hj
      have hji : j ≠ i := fun hf => hir (hf ▸ hj)
      have hjk : j ∉ kids.ids := fun hf => hdisj hf hj
      simp only [Heap.free, if_neg hji]
      exact hframe2 j hji hjk
    obtain ⟨w4, hrun4, hlog4, hframe4, hfreed4⟩ :=
      ihr par nd.m_nextSibling { w2 with heap := w2.heap.free i } (k + 1)
        (Linked_congr rest _ _ hsame hrest) hrn
        (fun j hj => by
          obtain ⟨x, hx, hxi⟩ := hinit j (by simp [Forest.ids, hj])
          exact ⟨x, (hsame j hj).trans hx, hxi⟩)
        (by omega)
    refine ⟨w4, ?_, ?_, ?_, ?_⟩
    · rw [OnDestroyBase_loop]
      simp [hnd_i, hrun2, hself2, hrun4]
    · rw [hlog4]
      simp [hlog2, Forest.postorder]
    · intro j hj
      simp only [Forest.ids, List.mem_cons, List.mem_append, not_or] at hj
      rw [hframe4 j hj.2.2]
      simp only [Heap.free, if_neg hj.1]
      exact hframe2 j hj.1 hj.2.1
    · intro j hj
      by_cases hjr : j ∈ rest.ids
      · exact hfreed4 j hjr
      · rw [hframe4 j hjr]
        by_cases hji : j = i
        · simp [Heap.free, hji]
        · simp only [Heap.free, if_neg hji]
          simp only [Forest.ids, List.mem_cons, List.mem_append] at hj
          rcases hj with hj | hj | hj
          · exact absurd hj hji
          · exact hfreed2 j hj
          · exact absurd hj hjr

/-- C10. On a well-formed tree whose nodes are all initialized, `Destroy` on the
root returns, and the destroy hooks it invokes are those of the nodes of the tree
in depth-first post-order (the subtrees of a node's children left to right, then
the node itself); every node of the tree occurs in that order exactly once. -/
theorem destroy_runs_postorder (w : World) (r : Nat) (kids : Forest) (fuel : Nat)
    (ht : IsTree w.heap r kids)
    (hinit : ∀ j ∈ (Forest.cons r kids .nil).ids,
      ∃ nd, w.heap j = some nd ∧ nd.isInitialized = true)
    (hfuel : 2 * kids.size + 1 ≤ fuel) :
    ∃ w1, UiFactory.Destroy fuel w (some r) = .done () w1 ∧
      w1.log = w.log ++ calls .OnDestroy (Forest.cons r kids .nil).postorder ∧
      (Forest.cons r kids .nil).postorder.Nodup ∧
      ∀ j, j ∈ (Forest.cons r kids .nil).postorder ↔ j ∈ (Forest.cons r kids .nil).ids := by
  obtain ⟨hl, hnd⟩ := ht
  simp only [Linked] at hl
  obtain ⟨-, nd, hnd_r, -, hkids, -⟩ := hl
  obtain ⟨k, rfl⟩ : ∃ k, fuel = k + 1 := ⟨fuel - 1, by omega⟩
  have hnd1 : r ∉ kids.ids ∧ kids.ids.Nodup := by
    simpa [Forest.ids] using hnd
  obtain ⟨nd0, hnd0, hinit_r⟩ := hinit r (by simp [Forest.ids])
  rw [hnd_r] at hnd0
  cases hnd0
  obtain ⟨w2, hrun2, hlog2, -, -, -⟩ :=
    destroy_node_step w r nd kids k hnd_r hinit_r hnd1.1
      (destroy_loop_postorder kids (some r) nd.m_firstChild w k hkids hnd1.2
        (fun j hj => hinit j (by simp [Forest.ids, hj])) (by omega))
  have hperm := postorder_perm (Forest.cons r kids .nil)
  refine ⟨w2, by simpa [UiFactory.Destroy] using hrun2, ?_, hperm.nodup_iff.mpr hnd,
    fun j => hperm.mem_iff⟩
  rw [hlog2]
  simp [Forest.postorder]

/-- C10 at the tree of the claim: root 0 with the children A = 1 and B = 2, A with
the child A1 = 3. The destroy hooks run in the order A1, A, B, root. -/
theorem destroy_runs_postorder_witness :
    ∃ w1, UiFactory.Destroy 7 nestedWorld (some 0) = .done () w1 ∧
      w1.log = nestedWorld.log ++ calls .OnDestroy [3, 1, 2, 0] ∧
      [3, 1, 2, 0].Nodup ∧ ∀ j, j ∈ [3, 1, 2, 0] ↔ j ∈ [0, 1, 3, 2] :=
  destroy_runs_postorder nestedWorld 0 (.cons 1 (.cons 3 .nil .nil) (.cons 2 .nil .nil)) 7
    (by decide)
    (by
      intro j hj
      simp only [Forest.ids, List.mem_cons, List.append_nil, List.nil_append,
        List.cons_append, List.not_mem_nil, or_false] at hj
      rcases hj with rfl | rfl | rfl | rfl
      · exact ⟨_, rfl, rfl⟩
      · exact ⟨_, rfl, rfl⟩
      · exact ⟨_, rfl, rfl⟩
      · exact ⟨_, rfl, rfl⟩)
    (by decide)

/-! ## Contract violations of the lifecycle drivers -/

/-- C13. A lifecycle driver called on a node that violates its precondition (Create
on an initialized node, Destroy on an uninitialized node, Attach on an attached
node, Detach on an unattached node) stops with a failed assertion and leaves the
world exactly as it was: no hook call is logged and no flag or link of any node
is changed. -/
theorem drivers_reject_bad_state (w : World) (this : Nat) (nd : UiNode) (fuel : Nat)
    (hthis : w.heap this = some nd) (hfuel : 1 ≤ fuel) :
    (nd.isInitialized = true → OnCreateBase fuel w this = .abort .assertFailed w) ∧
    (nd.isInitialized = false → OnDestroyBase fuel w this = .abort .assertFailed w) ∧
    (nd.isAttached = true → OnAttachBase fuel w this = .abort .assertFailed w) ∧
    (nd.isAttached = false → OnDetachBase w this = .abort .assertFailed w) := by
  obtain ⟨k, rfl⟩ : ∃ k, fuel = k + 1 := ⟨fuel - 1, by omega⟩
  refine ⟨?_, ?_, ?_, ?_⟩ <;> intro h
  · simp [OnCreateBase, hthis, h]
  · simp [OnDestroyBase, hthis, h]
  · simp [OnAttachBase, hthis, h]
  · simp [OnDetachBase, hthis, h]

/-- C13 at node 1 of a world where it is created and attached (double create,
attach while attached) and at the fresh node 0 (destroy while uninitialized,
detach while unattached). -/
theorem drivers_reject_bad_state_witness :
    OnCreateBase 2 liveChildWorld 1 = .abort .assertFailed liveChildWorld ∧
    OnAttachBase 2 liveChildWorld 1 = .abort .assertFailed liveChildWorld ∧
    OnDestroyBase 2 liveChildWorld 0 = .abort .assertFailed liveChildWorld ∧
    OnDetachBase liveChildWorld 0 = .abort .assertFailed liveChildWorld :=
  have h1 := drivers_reject_bad_state liveChildWorld 1
    { isInitialized := true, isAttached := true } 2 (by decide) (by decide)
  have h0 := drivers_reject_bad_state liveChildWorld 0 {} 2 (by decide) (by decide)
  ⟨h1.1 rfl, h1.2.2.1 rfl, h0.2.1 rfl, h0.2.2.2 rfl⟩

/-! ## Create -/

/-- The create driver on a node, from what the loop does on the node's children. -/
theorem create_node_step (w : World) (i : Nat) (nd : UiNode) (kids : Forest) (fuel : Nat)
    (hi : w.heap i = some nd) (huninit : nd.isInitialized = false) (hnotin : i ∉ kids.ids)
    (hloop : ∃ w1, OnCreateBase_loop fuel (w.call .OnCreate i) nd.m_firstChild = .done () w1 ∧
      w1.log = (w.call .OnCreate i).log ++ calls .OnCreate kids.ids ∧
      (∀ j, j ∉ kids.ids → w1.heap j = w.heap j) ∧
      (∀ j ∈ kids.ids,
        w1.heap j = (w.heap j).map (fun x => { x with isInitialized := true }))) :
    ∃ w2, OnCreateBase (fuel + 1) w i = .done () w2 ∧
      w2.log = w.log ++ calls .OnCreate (i :: kids.ids) ∧
      (∀ j, j ≠ i → j ∉ kids.ids → w2.heap j = w.heap j) ∧
      w2.heap i = some { nd with isInitialized := true } ∧
      (∀ j ∈ kids.ids,
        w2.heap j = (w.heap j).map (fun x => { x with isInitialized := true })) := by
  obtain ⟨w1, hrun, hlog, hframe, hset⟩ := hloop
  have hi1 : w1.heap i = some nd := by rw [hframe i hnotin]; exact hi
  refine ⟨{ w1 with heap := w1.heap.set i { nd with isInitialized := true } },
    ?_, ?_, ?_, ?_, ?_⟩
  · rw [OnCreateBase]
    simp [hi, huninit, hrun, World.assign, hi1]
  · simp [hlog]
  · intro j hji hjk
    simp only
    rw [Heap.set_other hji]
    exact hframe j hjk
  · simp
  · intro j hj
    have hji : j ≠ i := fun hf => hnotin (hf ▸ hj)
    simp only
    rw [Heap.set_other hji]
    exact hset j hj

/-- The create loop over a sibling list held in the heap runs the create hooks in
pre-order, sets the initialized flag of every node of the list, and changes
nothing else. -/
theorem create_loop_preorder :
    ∀ (f : Forest) (par start : Ptr) (w : World) (fuel : Nat),
      Linked w.heap par f start → f.ids.Nodup →
      (∀ j ∈ f.ids, ∀ nd, w.heap j = some nd → nd.isInitialized = false) →
      2 * f.size ≤ fuel →
      ∃ w1, OnCreateBase_loop fuel w start = .done () w1 ∧
        w1.log = w.log ++ calls .OnCreate f.ids ∧
        (∀ j, j ∉ f.ids → w1.heap j = w.heap j) ∧
        (∀ j ∈ f.ids,
          w1.heap j = (w.heap j).map (fun x => { x with isInitialized := true })) := by
  intro f
  induction f with
  | nil =>
    intro par start w fuel hl _ _ _
    simp only [Linked] at hl
    subst hl
    exact ⟨w, by simp [OnCreateBase_loop], by simp [Forest.ids], fun _ _ => rfl,
      by simp [Forest.ids]⟩
  | cons i kids rest ihk ihr =>
    intro par start w fuel hl hnd huninit hfuel
    simp only [Linked] at hl
    obtain ⟨rfl, nd, hnd_i, -, hkids, hrest⟩ := hl
    simp only [Forest.size] at hfuel
    obtain ⟨k, rfl⟩ : ∃ k, fuel = k + 2 := ⟨fuel - 2, by omega⟩
    simp only [Forest.ids, List.nodup_cons, List.mem_append, not_or, List.nodup_append]
      at hnd
    obtain ⟨⟨hik, hir⟩, hkn, hrn, hdisj⟩ := hnd
    obtain ⟨w2, hrun2, hlog2, hframe2, hself2, hset2⟩ :=
      create_node_step w i nd kids k hnd_i (huninit i (by simp [Forest.ids]) nd hnd_i) hik
        (ihk (some i) nd.m_firstChild (w.call .OnCreate i) k hkids hkn
          (fun j hj => huninit j (by simp [Forest.ids, hj])) (by omega))
    have hsame : ∀ j ∈ rest.ids, w2.heap j = w.heap j := fun j hj =>
      hframe2 j (fun hf => hir (hf ▸ hj)) (fun hf => hdisj hf hj)
    obtain ⟨w4, hrun4, hlog4, hframe4, hset4⟩ :=
      ihr par nd.m_nextSibling w2 (k + 1) (Linked_congr rest _ _ hsame hrest) hrn
        (fun j hj x hx => huninit j (by simp [Forest.ids, hj]) x (by rw [← hsame j hj]; exact hx))
        (by omega)
    refine ⟨w4, ?_, ?_, ?_, ?_⟩
    · rw [OnCreateBase_loop]
      simp [hrun2, hself2, hrun4]
    · rw [hlog4]
      simp [hlog2, Forest.ids]
    · intro j hj
      simp only [Forest.ids, List.mem_cons, List.mem_append, not_or] at hj
      rw [hframe4 j hj.2.2]
      exact hframe2 j hj.1 hj.2.1
    · intro j hj
      by_cases hjr : j ∈ rest.ids
      · rw [hset4 j hjr, hsame j hjr]
      · rw [hframe4 j hjr]
        simp only [Forest.ids, List.mem_cons, List.mem_append] at hj
        rcases hj with hj | hj | hj
        · subst hj
          rw [hself2, hnd_i]
          rfl
        · exact hset2 j hj
        · exact absurd hj hjr

/-- The create driver on the root of a tree held in the heap: the create hooks run
in pre-order, every node of the tree gets its initialized flag set, and nothing
else changes. -/
theorem create_tree (w : World) (r : Nat) (kids : Forest) (fuel : Nat)
    (ht : IsTree w.heap r kids)
    (huninit : ∀ j ∈ (Forest.cons r kids .nil).ids,
      ∀ nd, w.heap j = some nd → nd.isInitialized = false)
    (hfuel : 2 * kids.size + 1 ≤ fuel) :
    ∃ w1, OnCreateBase fuel w r = .done () w1 ∧
      w1.log = w.log ++ calls .OnCreate (Forest.cons r kids .nil).ids ∧
      (∀ j, j ∉ (Forest.cons r kids .nil).ids → w1.heap j = w.heap j) ∧
      (∀ j ∈ (Forest.cons r kids .nil).ids,
        w1.heap j = (w.heap j).map (fun x => { x with isInitialized := true })) := by
  obtain ⟨hl, hnd⟩ := ht
  simp only [Linked] at hl
  obtain ⟨-, nd, hnd_r, -, hkids, -⟩ := hl
  obtain ⟨k, rfl⟩ : ∃ k, fuel = k + 1 := ⟨fuel - 1, by omega⟩
  have hnd1 : r ∉ kids.ids ∧ kids.ids.Nodup := by
    simpa [Forest.ids] using hnd
  obtain ⟨w2, hrun2, hlog2, hframe2, hself2, hset2⟩ :=
    create_node_step w r nd kids k hnd_r (huninit r (by simp [Forest.ids]) nd hnd_r) hnd1.1
      (create_loop_preorder kids (some r) nd.m_firstChild (w.call .OnCreate r) k hkids hnd1.2
        (fun j hj => huninit j (by simp [Forest.ids, hj])) (by omega))
  refine ⟨w2, hrun2, by simpa [Forest.ids] using hlog2, ?_, ?_⟩
  · intro j hj
    simp only [Forest.ids, List.mem_cons, List.append_nil, not_or] at hj
    exact hframe2 j hj.1 hj.2
  · intro j hj
    simp only [Forest.ids, List.mem_cons, List.append_nil] at hj
    rcases hj with hj | hj
    · subst hj
      rw [hself2, hnd_r]
      rfl
    · exact hset2 j hj

theorem Linked_alloc {h : Heap} :
    ∀ (f : Forest) (par start : Ptr), Linked h par f start →
      ∀ j ∈ f.ids, ∃ nd, h j = some nd := by
  intro f
  induction f with
  | nil => intro _ _ _ j hj; simp [Forest.ids] at hj
  | cons i kids rest ihk ihr =>
    intro par start hl j hj
    simp only [Linked] at hl
    obtain ⟨-, nd, hnd, -, hkids, hrest⟩ := hl
    simp only [Forest.ids, List.mem_cons, List.mem_append] at hj
    rcases hj with rfl | hj | hj
    · exact ⟨nd, hnd⟩
    · exact ihk _ _ hkids j hj
    · exact ihr _ _ hrest j hj

/-- C11. On a well-formed tree whose nodes are all uninitialized, `Create` on the
root returns; the create hooks it invokes are those of the nodes of the tree in
depth-first pre-order (a node, then the subtrees of its children left to right),
every node exactly once; afterwards every node of the tree is initialized. -/
theorem create_runs_preorder (w : World) (r : Nat) (kids : Forest) (fuel : Nat)
    (ht : IsTree w.heap r kids)
    (huninit : ∀ j ∈ (Forest.cons r kids .nil).ids,
      ∀ nd, w.heap j = some nd → nd.isInitialized = false)
    (hfuel : 2 * kids.size + 1 ≤ fuel) :
    ∃ w1, UiFactory.Create fuel w (some r) = .done () w1 ∧
      w1.log = w.log ++ calls .OnCreate (Forest.cons r kids .nil).ids ∧
      (Forest.cons r kids .nil).ids.Nodup ∧
      ∀ j ∈ (Forest.cons r kids .nil).ids,
        ∃ nd, w1.heap j = some nd ∧ nd.isInitialized = true := by
  obtain ⟨w1, hrun, hlog, -, hset⟩ := create_tree w r kids fuel ht huninit hfuel
  refine ⟨w1, by simpa [UiFactory.Create] using hrun, hlog, ht.2, ?_⟩
  intro j hj
  obtain ⟨nd, hnd⟩ := Linked_alloc _ _ _ ht.1 j hj
  exact ⟨{ nd with isInitialized := true }, by rw [hset j hj, hnd]; rfl, rfl⟩

/-- C11 on the tree of `main`: root 0 with the children 1, 2, 3, all fresh. -/
theorem create_runs_preorder_witness :
    ∃ w1, UiFactory.Create 7 flatWorld (some 0) = .done () w1 ∧
      w1.log = flatWorld.log ++ calls .OnCreate [0, 1, 2, 3] ∧
      [0, 1, 2, 3].Nodup ∧
      ∀ j ∈ [0, 1, 2, 3], ∃ nd, w1.heap j = some nd ∧ nd.isInitialized = true :=
  create_runs_preorder flatWorld 0 (.cons 1 .nil (.cons 2 .nil (.cons 3 .nil .nil))) 7
    (by decide)
    (by
      intro j hj nd hnd
      simp only [Forest.ids, List.mem_cons, List.append_nil, List.nil_append,
        List.not_mem_nil, or_false] at hj
      rcases hj with rfl | rfl | rfl | rfl
      · have h0 : flatWorld.heap 0 = some { m_firstChild := some 1, m_lastChild := some 3 } := by
          decide
        rw [h0] at hnd; cases hnd; rfl
      · have h1 : flatWorld.heap 1 = some { m_parent := some 0, m_nextSibling := some 2 } := by
          decide
        rw [h1] at hnd; cases hnd; rfl
      · have h2 : flatWorld.heap 2 = some { m_parent := some 0, m_nextSibling := some 3 } := by
          decide
        rw [h2] at hnd; cases hnd; rfl
      · have h3 : flatWorld.heap 3 = some { m_parent := some 0 } := by decide
        rw [h3] at hnd; cases hnd; rfl)
    (by decide)

/-! ## Attach -/

/-- The attach driver on a node, from what the loop does on the node's children. -/
theorem attach_node_step (w : World) (i : Nat) (nd : UiNode) (kids : Forest) (fuel : Nat)
    (hi : w.heap i = some nd) (hunatt : nd.isAttached = false) (hnotin : i ∉ kids.ids)
    (hloop : ∃ w2,
      OnAttachBase_loop fuel
        { heap := w.heap.set i { nd with isAttached := true },
          log := w.log ++ [(.OnAttach, i)] } nd.m_firstChild = .done () w2 ∧
      w2.log = (w.log ++ [(.OnAttach, i)]) ++ calls .OnAttach kids.ids ∧
      (∀ j, j ∉ kids.ids → w2.heap j = (w.heap.set i { nd with isAttached := true }) j) ∧
      (∀ j ∈ kids.ids,
        w2.heap j = (w.heap j).map (fun x => { x with isAttached := true }))) :
    ∃ w2, OnAttachBase (fuel + 1) w i = .done () w2 ∧
      w2.log = w.log ++ calls .OnAttach (i :: kids.ids) ∧
      (∀ j, j ≠ i → j ∉ kids.ids → w2.heap j = w.heap j) ∧
      w2.heap i = some { nd with isAttached := true } ∧
      (∀ j ∈ kids.ids,
        w2.heap j = (w.heap j).map (fun x => { x with isAttached := true })) := by
  obtain ⟨w2, hrun, hlog, hframe, hset⟩ := hloop
  refine ⟨w2, ?_, ?_, ?_, ?_, hset⟩
  · rw [OnAttachBase]
    simp [hi, hunatt, World.assign, World.call, hrun]
  · simp [hlog]
  · intro j hji hjk
    rw [hframe j hjk, Heap.set_other hji]
  · rw [hframe i hnotin]
    simp

/-- The attach loop over a sibling list held in the heap runs the attach hooks in
pre-order, sets the attached flag of every node of the list, and changes nothing
else. -/
theorem attach_loop_preorder :
    ∀ (f : Forest) (par start : Ptr) (w : World) (fuel : Nat),
      Linked w.heap par f start → f.ids.Nodup →
      (∀ j ∈ f.ids, ∀ nd, w.heap j = some nd → nd.isAttached = false) →
      2 * f.size ≤ fuel →
      ∃ w1, OnAttachBase_loop fuel w start = .done () w1 ∧
        w1.log = w.log ++ calls .OnAttach f.ids ∧
        (∀ j, j ∉ f.ids → w1.heap j = w.heap j) ∧
        (∀ j ∈ f.ids,
          w1.heap j = (w.heap j).map (fun x => { x with isAttached := true })) := by
  intro f
  induction f with
  | nil =>
    intro par start w fuel hl _ _ _
    simp only [Linked] at hl
    subst hl
    exact ⟨w, by simp [OnAttachBase_loop], by simp [Forest.ids], fun _ _ => rfl,
      by simp [Forest.ids]⟩
  | cons i kids rest ihk ihr =>
    intro par start w fuel hl hnd hunatt hfuel
    simp only [Linked] at hl
    obtain ⟨rfl, nd, hnd_i, -, hkids, hrest⟩ := hl
    simp only [Forest.size] at hfuel
    obtain ⟨k, rfl⟩ : ∃ k, fuel = k + 2 := ⟨fuel - 2, by omega⟩
    simp only [Forest.ids, List.nodup_cons, List.mem_append, not_or, List.nodup_append]
      at hnd
    obtain ⟨⟨hik, hir⟩, hkn, hrn, hdisj⟩ := hnd
    have hsame1 : ∀ j ∈ kids.ids, (w.heap.set i { nd with isAttached := true }) j = w.heap j :=
      fun j hj => Heap.set_other (fun hf => hik (hf ▸ hj))
    obtain ⟨w1, hrun1, hlog1, hframe1, hset1⟩ :=
      ihk (some i) nd.m_firstChild
        { heap := w.heap.set i { nd with isAttached := true },
          log := w.log ++ [(.OnAttach, i)] } k
        (Linked_congr kids _ _ hsame1 hkids) hkn
        (fun j hj x hx => hunatt j (by simp [Forest.ids, hj]) x
          ((hsame1 j hj).symm.trans hx))
        (by omega)
    obtain ⟨w2, hrun2, hlog2, hframe2, hself2, hset2⟩ :=
      attach_node_step w i nd kids k hnd_i (hunatt i (by simp [Forest.ids]) nd hnd_i) hik
        ⟨w1, hrun1, hlog1, hframe1, fun j hj => (hset1 j hj).trans (congrArg _ (hsame1 j hj))⟩
    have hsame : ∀ j ∈ rest.ids, w2.heap j = w.heap j := fun j hj =>
      hframe2 j (fun hf => hir (hf ▸ hj)) (fun hf => hdisj hf hj)
    obtain ⟨w4, hrun4, hlog4, hframe4, hset4⟩ :=
      ihr par nd.m_nextSibling w2 (k + 1) (Linked_congr rest _ _ hsame hrest) hrn
        (fun j hj x hx => hunatt j (by simp [Forest.ids, hj]) x (by rw [← hsame j hj]; exact hx))
        (by omega)
    refine ⟨w4, ?_, ?_, ?_, ?_⟩
    · rw [OnAttachBase_loop]
      simp [hrun2, hself2, hrun4]
    · rw [hlog4]
      simp [hlog2, Forest.ids]
    · intro j hj
      simp only [Forest.ids, List.mem_cons, List.mem_append, not_or] at hj
      rw [hframe4 j hj.2.2]
      exact hframe2 j hj.1 hj.2.1
    · intro j hj
      by_cases hjr : j ∈ rest.ids
      · rw [hset4 j hjr, hsame j hjr]
      · rw [hframe4 j hjr]
        simp only [Forest.ids, List.mem_cons, List.mem_append] at hj
        rcases hj with hj | hj | hj
        · subst hj
          rw [hself2, hnd_i]
          rfl
        · exact hset2 j hj
        · exact absurd hj hjr

/-- The attach driver on the root of a tree held in the heap: the attach hooks run
in pre-order, every node of the tree gets its attached flag set, and nothing else
changes. -/
theorem attach_tree (w : World) (r : Nat) (kids : Forest) (fuel : Nat)
    (ht : IsTree w.heap r kids)
    (hunatt : ∀ j ∈ (Forest.cons r kids .nil).ids,
      ∀ nd, w.heap j = some nd → nd.isAttached = false)
    (hfuel : 2 * kids.size + 1 ≤ fuel) :
    ∃ w1, OnAttachBase fuel w r = .done () w1 ∧
      w1.log = w.log ++ calls .OnAttach (Forest.cons r kids .nil).ids ∧
      (∀ j, j ∉ (Forest.cons r kids .nil).ids → w1.heap j = w.heap j) ∧
      (∀ j ∈ (Forest.cons r kids .nil).ids,
        w1.heap j = (w.heap j).map (fun x => { x with isAttached := true })) := by
  obtain ⟨hl, hnd⟩ := ht
  simp only [Linked] at hl
  obtain ⟨-, nd, hnd_r, -, hkids, -⟩ := hl
  obtain ⟨k, rfl⟩ : ∃ k, fuel = k + 1 := ⟨fuel - 1, by omega⟩
  have hnd1 : r ∉ kids.ids ∧ kids.ids.Nodup := by
    simpa [Forest.ids] using hnd
  have hsame1 : ∀ j ∈ kids.ids, (w.heap.set r { nd with isAttached := true }) j = w.heap j :=
    fun j hj => Heap.set_other (fun hf => hnd1.1 (hf ▸ hj))
  obtain ⟨w1, hrun1, hlog1, hframe1, hset1⟩ :=
    attach_loop_preorder kids (some r) nd.m_firstChild
      { heap := w.heap.set r { nd with isAttached := true },
        log := w.log ++ [(.OnAttach, r)] } k
      (Linked_congr kids _ _ hsame1 hkids) hnd1.2
      (fun j hj x hx => hunatt j (by simp [Forest.ids, hj]) x
        ((hsame1 j hj).symm.trans hx))
      (by omega)
  obtain ⟨w2, hrun2, hlog2, hframe2, hself2, hset2⟩ :=
    attach_node_step w r nd kids k hnd_r (hunatt r (by simp [Forest.ids]) nd hnd_r) hnd1.1
      ⟨w1, hrun1, hlog1, hframe1, fun j hj => (hset1 j hj).trans (congrArg _ (hsame1 j hj))⟩
  refine ⟨w2, hrun2, by simpa [Forest.ids] using hlog2, ?_, ?_⟩
  · intro j hj
    simp only [Forest.ids, List.mem_cons, List.append_nil, not_or] at hj
    exact hframe2 j hj.1 hj.2
  · intro j hj
    simp only [Forest.ids, List.mem_cons, List.append_nil] at hj
    rcases hj with hj | hj
    · subst hj
      rw [hself2, hnd_r]
      rfl
    · exact hset2 j hj

/-- C12. On a well-formed tree whose nodes are all unattached, `Attach` on the root
returns; the attach hooks it invokes are those of the nodes of the tree in
depth-first pre-order, every node exactly once; afterwards every node of the tree
is attached, and the parent, first-child, last-child, next-sibling and
previous-sibling links of every node in the heap are what they were. -/
theorem attach_runs_preorder (w : World) (r : Nat) (kids : Forest) (fuel : Nat)
    (ht : IsTree w.heap r kids)
    (hunatt : ∀ j ∈ (Forest.cons r kids .nil).ids,
      ∀ nd, w.heap j = some nd → nd.isAttached = false)
    (hfuel : 2 * kids.size + 1 ≤ fuel) :
    ∃ w1, UiFactory.Attach fuel w (some r) = .done () w1 ∧
      w1.log = w.log ++ calls .OnAttach (Forest.cons r kids .nil).ids ∧
      (Forest.cons r kids .nil).ids.Nodup ∧
      (∀ j ∈ (Forest.cons r kids .nil).ids,
        ∃ nd, w1.heap j = some nd ∧ nd.isAttached = true) ∧
      ∀ j nd, w.heap j = some nd →
        ∃ nd1, w1.heap j = some nd1 ∧ nd1.m_parent = nd.m_parent ∧
          nd1.m_firstChild = nd.m_firstChild ∧ nd1.m_lastChild = nd.m_lastChild ∧
          nd1.m_nextSibling = nd.m_nextSibling ∧ nd1.m_prevSibling = nd.m_prevSibling := by
  obtain ⟨w1, hrun, hlog, hframe, hset⟩ := attach_tree w r kids fuel ht hunatt hfuel
  refine ⟨w1, by simpa [UiFactory.Attach] using hrun, hlog, ht.2, ?_, ?_⟩
  · intro j hj
    obtain ⟨nd, hnd⟩ := Linked_alloc _ _ _ ht.1 j hj
    exact ⟨{ nd with isAttached := true }, by rw [hset j hj, hnd]; rfl, rfl⟩
  · intro j nd hnd
    by_cases hj : j ∈ (Forest.cons r kids .nil).ids
    · exact ⟨{ nd with isAttached := true }, by rw [hset j hj, hnd]; rfl, rfl, rfl, rfl,
        rfl, rfl⟩
    · exact ⟨nd, by rw [hframe j hj]; exact hnd, rfl, rfl, rfl, rfl, rfl⟩

/-- C12 on the tree of `main` after `Create`: root 0 with the children 1, 2, 3. -/
theorem attach_runs_preorder_witness :
    ∃ w1, UiFactory.Attach 7 createdFlatWorld (some 0) = .done () w1 ∧
      w1.log = createdFlatWorld.log ++ calls .OnAttach [0, 1, 2, 3] ∧
      [0, 1, 2, 3].Nodup ∧
      (∀ j ∈ [0, 1, 2, 3], ∃ nd, w1.heap j = some nd ∧ nd.isAttached = true) ∧
      ∀ j nd, createdFlatWorld.heap j = some nd →
        ∃ nd1, w1.heap j = some nd1 ∧ nd1.m_parent = nd.m_parent ∧
          nd1.m_firstChild = nd.m_firstChild ∧ nd1.m_lastChild = nd.m_lastChild ∧
          nd1.m_nextSibling = nd.m_nextSibling ∧ nd1.m_prevSibling = nd.m_prevSibling :=
  attach_runs_preorder createdFlatWorld 0 (.cons 1 .nil (.cons 2 .nil (.cons 3 .nil .nil))) 7
    (by decide)
    (by
      intro j hj nd hnd
      simp only [Forest.ids, List.mem_cons, List.append_nil, List.nil_append,
        List.not_mem_nil, or_false] at hj
      rcases hj with rfl | rfl | rfl | rfl
      · have h0 : createdFlatWorld.heap 0 =
            some { isInitialized := true, m_firstChild := some 1, m_lastChild := some 3 } := by
          decide
        rw [h0] at hnd; cases hnd; rfl
      · have h1 : createdFlatWorld.heap 1 =
            some { isInitialized := true, m_parent := some 0, m_nextSibling := some 2 } := by
          decide
        rw [h1] at hnd; cases hnd; rfl
      · have h2 : createdFlatWorld.heap 2 =
            some { isInitialized := true, m_parent := some 0, m_nextSibling := some 3 } := by
          decide
        rw [h2] at hnd; cases hnd; rfl
      · have h3 : createdFlatWorld.heap 3 =
            some { isInitialized := true, m_parent := some 0 } := by decide
        rw [h3] at hnd; cases hnd; rfl)
    (by decide)

/-! ## Detach inside a child list built by `Add` -/

/-- C14, the code at a failing input. Root 0 gets the children 1, 2, 3 by `Add`,
then `Create` and `Attach` run on the root. `Detach` on the middle child 2 returns,
but since `Add` left every `m_prevSibling` null the previous sibling is not
relinked: the forward walk from the first child of the root still visits 1, 2, 3,
so node 2 is still reachable. -/
theorem detach_leaves_middle_child_linked :
    parentOf liveFlatWorld.heap 2 = some 0 ∧
    (liveFlatWorld.heap 2).map (fun nd => nd.isAttached) = some true ∧
    (UiFactory.Detach liveFlatWorld (some 2)).fault? = none ∧
    walkNext (UiFactory.Detach liveFlatWorld (some 2)).world.heap 5
      (firstChildOf (UiFactory.Detach liveFlatWorld (some 2)).world.heap 0) =
        some [1, 2, 3] := by
  decide

/-- C16, the code at a failing input. Root 0 gets the children 1, 2 by `Add`, then
`Create` and `Attach` run on the root. `Detach` on the last child 2 returns and sets
the last-child link of the root to the null `m_prevSibling` of node 2, while the
first-child link of the root still points to node 1. -/
theorem detach_last_child_breaks_ends :
    (UiFactory.Detach liveTwoWorld (some 2)).fault? = none ∧
    firstChildOf (UiFactory.Detach liveTwoWorld (some 2)).world.heap 0 = some 1 ∧
    lastChildOf (UiFactory.Detach liveTwoWorld (some 2)).world.heap 0 = none ∧
    ((UiFactory.Detach liveTwoWorld (some 2)).world.heap 0).isSome = true := by
  decide

/-! ## Detach -/

/-- The unlink block is its four statements in sequence. -/
theorem unlinkThis_eq (w : World) (this : Nat) :
    unlinkThis w this =
      (unlinkFirst w this).andThen fun w1 =>
        (unlinkLast w1 this).andThen fun w2 =>
          (unlinkNext w2 this).andThen fun w3 => unlinkPrev w3 this := by
  unfold unlinkThis unlinkFirst
  cases h0 : w.heap this with
  | none => rfl
  | some nd =>
    simp only
    generalize (match nd.m_parent with
      | none => Outcome.done () w
      | some p =>
        match w.heap p with
        | none => Outcome.abort Fault.danglingDeref w
        | some pn =>
          if pn.m_firstChild = some this then
            w.assign (some p) (fun x => { x with m_firstChild := nd.m_nextSibling })
          else Outcome.done () w) = o1
    cases o1 with
    | abort f w1 => rfl
    | done u w1 =>
      simp only [Outcome.andThen]
      unfold unlinkLast
      cases h1 : w1.heap this with
      | none => rfl
      | some nd1 =>
        simp only
        generalize (match nd1.m_parent with
          | none => Outcome.done () w1
          | some p =>
            match w1.heap p with
            | none => Outcome.abort Fault.danglingDeref w1
            | some pn =>
              if pn.m_lastChild = some this then
                w1.assign (some p) (fun x => { x with m_lastChild := nd1.m_prevSibling })
              else Outcome.done () w1) = o2
        cases o2 with
        | abort f w2 => rfl
        | done u w2 =>
          simp only
          unfold unlinkNext
          cases h2 : w2.heap this with
          | none => rfl
          | some nd2 =>
            simp only
            generalize (match nd2.m_nextSibling with
              | none => Outcome.done () w2
              | some n =>
                w2.assign (some n) (fun x => { x with m_prevSibling := nd2.m_prevSibling })) = o3
            cases o3 with
            | abort f w3 => rfl
            | done u w3 => rfl

/-- An assignment through a pointer that rewrites links only keeps the call log and
the flags of every node. -/
theorem assign_keeps_flags (w : World) (p : Ptr) (f : UiNode → UiNode)
    (hf : ∀ x, (f x).isInitialized = x.isInitialized ∧ (f x).isAttached = x.isAttached) :
    (w.assign p f).world.log = w.log ∧
      ∀ j, flagsOf (w.assign p f).world.heap j = flagsOf w.heap j := by
  cases p with
  | none => exact ⟨rfl, fun _ => rfl⟩
  | some i =>
    cases hi : w.heap i with
    | none => simp [World.assign, hi, Outcome.world]
    | some nd =>
      simp only [World.assign, hi, Outcome.world, true_and]
      intro j
      simp only [flagsOf, Heap.set]
      by_cases hji : j = i
      · subst hji
        simp [hi, hf nd]
      · simp [hji]

theorem unlinkFirst_keeps_flags (w : World) (this : Nat) :
    (unlinkFirst w this).world.log = w.log ∧
      ∀ j, flagsOf (unlinkFirst w this).world.heap j = flagsOf w.heap j := by
  unfold unlinkFirst
  repeat' split
  all_goals first
    | exact ⟨rfl, fun _ => rfl⟩
    | exact assign_keeps_flags _ _ _ (fun _ => ⟨rfl, rfl⟩)

theorem unlinkLast_keeps_flags (w : World) (this : Nat) :
    (unlinkLast w this).world.log = w.log ∧
      ∀ j, flagsOf (unlinkLast w this).world.heap j = flagsOf w.heap j := by
  unfold unlinkLast
  repeat' split
  all_goals first
    | exact ⟨rfl, fun _ => rfl⟩
    | exact assign_keeps_flags _ _ _ (fun _ => ⟨rfl, rfl⟩)

theorem unlinkNext_keeps_flags (w : World) (this : Nat) :
    (unlinkNext w this).world.log = w.log ∧
      ∀ j, flagsOf (unlinkNext w this).world.heap j = flagsOf w.heap j := by
  unfold unlinkNext
  repeat' split
  all_goals first
    | exact ⟨rfl, fun _ => rfl⟩
    | exact assign_keeps_flags _ _ _ (fun _ => ⟨rfl, rfl⟩)

theorem unlinkPrev_keeps_flags (w : World) (this : Nat) :
    (unlinkPrev w this).world.log = w.log ∧
      ∀ j, flagsOf (unlinkPrev w this).world.heap j = flagsOf w.heap j := by
  unfold unlinkPrev
  repeat' split
  all_goals first
    | exact ⟨rfl, fun _ => rfl⟩
    | exact assign_keeps_flags _ _ _ (fun _ => ⟨rfl, rfl⟩)

theorem andThen_keeps_flags (w : World) (o : Outcome Unit) (k : World → Outcome Unit)
    (ho : o.world.log = w.log ∧ ∀ j, flagsOf o.world.heap j = flagsOf w.heap j)
    (hk : ∀ w1, (k w1).world.log = w1.log ∧
      ∀ j, flagsOf (k w1).world.heap j = flagsOf w1.heap j) :
    (o.andThen k).world.log = w.log ∧
      ∀ j, flagsOf (o.andThen k).world.heap j = flagsOf w.heap j := by
  cases o with
  | abort f w1 => exact ho
  | done u w1 =>
    simp only [Outcome.andThen, Outcome.world] at ho ⊢
    exact ⟨(hk w1).1.trans ho.1, fun j => ((hk w1).2 j).trans (ho.2 j)⟩

/-- The unlink block keeps the call log and the flags of every node, on any heap,
whether it returns or stops. -/
theorem unlinkThis_keeps_flags (w : World) (this : Nat) :
    (unlinkThis w this).world.log = w.log ∧
      ∀ j, flagsOf (unlinkThis w this).world.heap j = flagsOf w.heap j := by
  rw [unlinkThis_eq]
  refine andThen_keeps_flags w _ _ (unlinkFirst_keeps_flags w this) (fun w1 => ?_)
  refine andThen_keeps_flags w1 _ _ (unlinkLast_keeps_flags w1 this) (fun w2 => ?_)
  exact andThen_keeps_flags w2 _ _ (unlinkNext_keeps_flags w2 this)
    (fun w3 => unlinkPrev_keeps_flags w3 this)
theorem assign_done (w : World) (q : Nat) (f : UiNode → UiNode) (x : UiNode)
    (hq : w.heap q = some x) :
    w.assign (some q) f = .done () { w with heap := w.heap.set q (f x) } := by
  simp [World.assign, hq]

theorem isSome_set {h : Heap} {q : Nat} {x : UiNode} (j : Nat) (hj : (h j).isSome) :
    ((h.set q x) j).isSome := by
  by_cases hjq : j = q
  · subst hjq; simp
  · rw [Heap.set_other hjq]; exact hj

/-- On a node whose parent link is not dangling and that is not at once its own
parent and its own first child, the first statement of the unlink block returns
and leaves the node itself as it was. -/
theorem unlinkFirst_done (w : World) (this : Nat) (nd : UiNode) (hthis : w.heap this = some nd)
    (hpar : nd.m_parent = some this → nd.m_firstChild ≠ some this)
    (hp : ∀ p, nd.m_parent = some p → (w.heap p).isSome) :
    ∃ w1, unlinkFirst w this = .done () w1 ∧ w1.heap this = some nd ∧
      ∀ q, (w.heap q).isSome → (w1.heap q).isSome := by
  unfold unlinkFirst
  simp only [hthis]
  cases hpp : nd.m_parent with
  | none => exact ⟨w, rfl, hthis, fun _ h => h⟩
  | some p =>
    obtain ⟨pn, hpn⟩ := Option.isSome_iff_exists.mp (hp p hpp)
    simp only [hpn]
    by_cases hf : pn.m_firstChild = some this
    · have hne : this ≠ p := by
        intro hh
        subst hh
        rw [hthis] at hpn
        cases hpn
        exact hpar hpp hf
      rw [if_pos hf, assign_done w p _ pn hpn]
      exact ⟨_, rfl, by simp only; rw [Heap.set_other hne]; exact hthis,
        fun q hq => isSome_set q hq⟩
    · rw [if_neg hf]
      exact ⟨w, rfl, hthis, fun _ h => h⟩

/-- The same for the second statement of the unlink block. -/
theorem unlinkLast_done (w : World) (this : Nat) (nd : UiNode) (hthis : w.heap this = some nd)
    (hpar : nd.m_parent = some this → nd.m_lastChild ≠ some this)
    (hp : ∀ p, nd.m_parent = some p → (w.heap p).isSome) :
    ∃ w1, unlinkLast w this = .done () w1 ∧ w1.heap this = some nd ∧
      ∀ q, (w.heap q).isSome → (w1.heap q).isSome := by
  unfold unlinkLast
  simp only [hthis]
  cases hpp : nd.m_parent with
  | none => exact ⟨w, rfl, hthis, fun _ h => h⟩
  | some p =>
    obtain ⟨pn, hpn⟩ := Option.isSome_iff_exists.mp (hp p hpp)
    simp only [hpn]
    by_cases hf : pn.m_lastChild = some this
    · have hne : this ≠ p := by
        intro hh
        subst hh
        rw [hthis] at hpn
        cases hpn
        exact hpar hpp hf
      rw [if_pos hf, assign_done w p _ pn hpn]
      exact ⟨_, rfl, by simp only; rw [Heap.set_other hne]; exact hthis,
        fun q hq => isSome_set q hq⟩
    · rw [if_neg hf]
      exact ⟨w, rfl, hthis, fun _ h => h⟩

/-- On a node whose next-sibling link is not dangling, the third statement of the
unlink block returns and leaves the node itself as it was. -/
theorem unlinkNext_done (w : World) (this : Nat) (nd : UiNode) (hthis : w.heap this = some nd)
    (hn : ∀ n, nd.m_nextSibling = some n → (w.heap n).isSome) :
    ∃ w1, unlinkNext w this = .done () w1 ∧ w1.heap this = some nd ∧
      ∀ q, (w.heap q).isSome → (w1.heap q).isSome := by
  unfold unlinkNext
  simp only [hthis]
  cases hnn : nd.m_nextSibling with
  | none => exact ⟨w, rfl, hthis, fun _ h => h⟩
  | some n =>
    obtain ⟨x, hx⟩ := Option.isSome_iff_exists.mp (hn n hnn)
    simp only
    rw [assign_done w n _ x hx]
    refine ⟨_, rfl, ?_, fun q hq => isSome_set q hq⟩
    simp only
    by_cases hne : this = n
    · subst hne
      rw [hthis] at hx
      cases hx
      simp
    · rw [Heap.set_other hne]
      exact hthis

/-- The same for the fourth statement of the unlink block. -/
theorem unlinkPrev_done (w : World) (this : Nat) (nd : UiNode) (hthis : w.heap this = some nd)
    (hn : ∀ n, nd.m_prevSibling = some n → (w.heap n).isSome) :
    ∃ w1, unlinkPrev w this = .done () w1 ∧ w1.heap this = some nd ∧
      ∀ q, (w.heap q).isSome → (w1.heap q).isSome := by
  unfold unlinkPrev
  simp only [hthis]
  cases hnn : nd.m_prevSibling with
  | none => exact ⟨w, rfl, hthis, fun _ h => h⟩
  | some n =>
    obtain ⟨x, hx⟩ := Option.isSome_iff_exists.mp (hn n hnn)
    simp only
    rw [assign_done w n _ x hx]
    refine ⟨_, rfl, ?_, fun q hq => isSome_set q hq⟩
    simp only
    by_cases hne : this = n
    · subst hne
      rw [hthis] at hx
      cases hx
      simp
    · rw [Heap.set_other hne]
      exact hthis

/-- On a node none of whose parent, next-sibling and previous-sibling links is
dangling, and that is not at once its own parent and its own first or last child,
the unlink block returns and leaves the node itself, the flags of every node and
the call log as they were. -/
theorem unlinkThis_done (w : World) (this : Nat) (nd : UiNode) (hthis : w.heap this = some nd)
    (hpar : nd.m_parent = some this →
      nd.m_firstChild ≠ some this ∧ nd.m_lastChild ≠ some this)
    (hlinks : ∀ q, nd.m_parent = some q ∨ nd.m_nextSibling = some q ∨
      nd.m_prevSibling = some q → (w.heap q).isSome) :
    ∃ w1, unlinkThis w this = .done () w1 ∧ w1.heap this = some nd ∧ w1.log = w.log ∧
      ∀ j, flagsOf w1.heap j = flagsOf w.heap j := by
  have hkeep := unlinkThis_keeps_flags w this
  obtain ⟨w1, h1, hs1, ha1⟩ := unlinkFirst_done w this nd hthis (fun h => (hpar h).1)
    (fun p hp => hlinks p (Or.inl hp))
  obtain ⟨w2, h2, hs2, ha2⟩ := unlinkLast_done w1 this nd hs1 (fun h => (hpar h).2)
    (fun p hp => ha1 p (hlinks p (Or.inl hp)))
  obtain ⟨w3, h3, hs3, ha3⟩ := unlinkNext_done w2 this nd hs2
    (fun n hn => ha2 n (ha1 n (hlinks n (Or.inr (Or.inl hn)))))
  obtain ⟨w4, h4, hs4, -⟩ := unlinkPrev_done w3 this nd hs3
    (fun n hn => ha3 n (ha2 n (ha1 n (hlinks n (Or.inr (Or.inr hn))))))
  have hrun : unlinkThis w this = .done () w4 := by
    rw [unlinkThis_eq, h1]
    simp only [Outcome.andThen]
    rw [h2]
    simp only
    rw [h3]
    simp only
    exact h4
  rw [hrun] at hkeep
  exact ⟨w4, hrun, hs4, hkeep.1, hkeep.2⟩

/-- C18, counterexample. Two worlds reached from fresh nodes by calls that all
return and keep the discipline of the host. In the first, node 1 is attached and
its next sibling is freed: `Detach` on node 1 stops at the freed sibling and
invokes no hook. In the second, node 0 is attached, its own parent and its own
last child: `Detach` on node 0 returns but changes the node's own last-child
link from node 0 to null. -/
theorem detach_off_tree :
    (AllGuarded 8 danglingSiblingCalls freshWorld ∧
      flagsOf (runAll 8 danglingSiblingCalls freshWorld).heap 1 = some (true, true) ∧
      (UiFactory.Detach (runAll 8 danglingSiblingCalls freshWorld) (some 1)).fault? =
        some .danglingDeref ∧
      (UiFactory.Detach (runAll 8 danglingSiblingCalls freshWorld) (some 1)).log =
        (runAll 8 danglingSiblingCalls freshWorld).log) ∧
    (AllGuarded 8 selfParentCalls freshWorld ∧
      flagsOf (runAll 8 selfParentCalls freshWorld).heap 0 = some (true, true) ∧
      parentOf (runAll 8 selfParentCalls freshWorld).heap 0 = some 0 ∧
      lastChildOf (runAll 8 selfParentCalls freshWorld).heap 0 = some 0 ∧
      (UiFactory.Detach (runAll 8 selfParentCalls freshWorld) (some 0)).fault? = none ∧
      lastChildOf
        (UiFactory.Detach (runAll 8 selfParentCalls freshWorld) (some 0)).world.heap 0 =
          none) := by
  decide

/-- C18, amended. `Detach` on an attached node whose parent, next-sibling and
previous-sibling links are not dangling, and that is not at once its own parent
and its own first or last child, returns having invoked exactly one hook, the
detach hook of that node; afterwards the node is what it was except that its
attached flag is false, so its parent, next-sibling, previous-sibling, first-child
and last-child links and its initialized flag are unchanged; and the attached and
initialized flags of every other node, its descendants among them, are unchanged. -/
theorem detach_clears_one_flag (w : World) (this : Nat) (nd : UiNode)
    (hthis : w.heap this = some nd) (hatt : nd.isAttached = true)
    (hpar : nd.m_parent = some this →
      nd.m_firstChild ≠ some this ∧ nd.m_lastChild ≠ some this)
    (hlinks : ∀ q, nd.m_parent = some q ∨ nd.m_nextSibling = some q ∨
      nd.m_prevSibling = some q → (w.heap q).isSome) :
    ∃ w1, UiFactory.Detach w (some this) = .done () w1 ∧
      w1.log = w.log ++ [(.OnDetach, this)] ∧
      w1.heap this = some { nd with isAttached := false } ∧
      ∀ j, j ≠ this → flagsOf w1.heap j = flagsOf w.heap j := by
  obtain ⟨w1, hrun, hself, hlog, hflags⟩ := unlinkThis_done w this nd hthis hpar hlinks
  refine ⟨{ heap := w1.heap.set this { nd with isAttached := false },
            log := w1.log ++ [(.OnDetach, this)] }, ?_, by simp [hlog], by simp, ?_⟩
  · simp [UiFactory.Detach, OnDetachBase, hthis, hatt, hrun, World.assign, World.call, hself]
  · intro j hj
    simp only [flagsOf]
    rw [Heap.set_other hj]
    exact hflags j

/-- C18 amended, on the tree of `main` after `Create` and `Attach`: `Detach` on the
root 0 logs one detach call, and the children 1, 2, 3 are still attached. -/
theorem detach_clears_one_flag_witness :
    ∃ w1, UiFactory.Detach liveFlatWorld (some 0) = .done () w1 ∧
      w1.log = liveFlatWorld.log ++ [(.OnDetach, 0)] ∧
      w1.heap 0 = some
        { isInitialized := true, isAttached := false, m_firstChild := some 1,
          m_lastChild := some 3 } ∧
      (∀ j, j ≠ 0 → flagsOf w1.heap j = flagsOf liveFlatWorld.heap j) ∧
      flagsOf liveFlatWorld.heap 1 = some (true, true) ∧
      flagsOf liveFlatWorld.heap 2 = some (true, true) ∧
      flagsOf liveFlatWorld.heap 3 = some (true, true) :=
  have h := detach_clears_one_flag liveFlatWorld 0
    { isInitialized := true, isAttached := true, m_firstChild := some 1, m_lastChild := some 3 }
    (by decide) rfl (by decide) (by intro q hq; simp at hq)
  h.imp fun _ hw => ⟨hw.1, hw.2.1, hw.2.2.1, hw.2.2.2, by decide, by decide, by decide⟩

/-! ## The preview driver and the results of the children -/

/-- When every child returns a handler, the loop scans all children and ends with the
handler of the last child. -/
theorem previewScan_all (pv : Nat → Bool) :
    ∀ (f : Forest) (hd : Ptr), (∀ c ∈ f.roots, (childResult pv c).1 ≠ none) →
      previewScan pv f hd =
        ((f.roots.getLast?.map (fun c => (childResult pv c).1)).getD hd,
          f.roots.flatMap (fun c => (childResult pv c).2)) := by
  intro f
  induction f with
  | nil => intro hd _; rfl
  | cons i kids rest _ ihr =>
    intro hd hall
    have hi : (previewNode pv i kids).1 ≠ none := hall (i, kids) (by simp [Forest.roots])
    obtain ⟨x, hx⟩ := Option.ne_none_iff_exists'.mp hi
    rw [previewScan_cons]
    simp only [hx]
    rw [ihr (some x) (fun c hc => hall c (by simp [Forest.roots, hc]))]
    simp only [Forest.roots, List.flatMap_cons, childResult, List.getLast?_cons]
    cases rest.roots.getLast? with
    | none => simp [hx]
    | some b => simp

/-- When some child returns null, the loop stops right after the first such child and
the result is null. -/
theorem previewScan_stop (pv : Nat → Bool) :
    ∀ (f : Forest) (hd : Ptr) (pre : List (Nat × Forest)) (c : Nat × Forest)
      (post : List (Nat × Forest)),
      f.roots = pre ++ c :: post → (∀ x ∈ pre, (childResult pv x).1 ≠ none) →
      (childResult pv c).1 = none →
      previewScan pv f hd = (none, (pre ++ [c]).flatMap (fun c => (childResult pv c).2)) := by
  intro f
  induction f with
  | nil =>
    intro hd pre c post hroots _ _
    simp [Forest.roots] at hroots
  | cons i kids rest _ ihr =>
    intro hd pre c post hroots hpre hc
    rw [previewScan_cons]
    cases pre with
    | nil =>
      simp only [Forest.roots, List.nil_append, List.cons.injEq] at hroots
      obtain ⟨rfl, -⟩ := hroots
      simp only [childResult] at hc
      simp [hc, childResult]
    | cons a pre =>
      simp only [Forest.roots, List.cons_append, List.cons.injEq] at hroots
      obtain ⟨rfl, hrest⟩ := hroots
      have ha : (previewNode pv i kids).1 ≠ none := hpre (i, kids) (by simp)
      obtain ⟨x, hx⟩ := Option.ne_none_iff_exists'.mp ha
      simp only [hx]
      rw [ihr (some x) pre c post hrest (fun y hy => hpre y (by simp [hy])) hc]
      simp [childResult]

theorem exists_first_null (pv : Nat → Bool) :
    ∀ l : List (Nat × Forest), (∃ c ∈ l, (childResult pv c).1 = none) →
      ∃ pre c post, l = pre ++ c :: post ∧ (childResult pv c).1 = none ∧
        ∀ x ∈ pre, (childResult pv x).1 ≠ none := by
  intro l
  induction l with
  | nil => rintro ⟨c, hc, -⟩; simp at hc
  | cons a l ih =>
    rintro ⟨c, hc, hn⟩
    by_cases ha : (childResult pv a).1 = none
    · exact ⟨[], a, l, rfl, ha, by simp⟩
    · have hcl : c ∈ l := by
        rcases List.mem_cons.mp hc with rfl | h
        · exact absurd hn ha
        · exact h
      obtain ⟨pre, d, post, hsplit, hd, hpre⟩ := ih ⟨c, hcl, hn⟩
      refine ⟨a :: pre, d, post, by rw [hsplit]; rfl, hd, ?_⟩
      intro x hx
      rcases List.mem_cons.mp hx with rfl | h
      · exact ha
      · exact hpre x h

theorem Linked_roots {h : Heap} :
    ∀ (f : Forest) (par start : Ptr), Linked h par f start →
      ∀ c ∈ f.roots, ∃ cn, h c.1 = some cn ∧ Linked h (some c.1) c.2 cn.m_firstChild ∧
        c.2.size < f.size := by
  intro f
  induction f with
  | nil => intro _ _ _ c hc; simp [Forest.roots] at hc
  | cons i kids rest _ ihr =>
    intro par start hl c hc
    simp only [Linked] at hl
    obtain ⟨-, nd, hnd, -, hkids, hrest⟩ := hl
    simp only [Forest.roots, List.mem_cons] at hc
    rcases hc with rfl | hc
    · exact ⟨nd, hnd, hkids, by simp only [Forest.size]; omega⟩
    · obtain ⟨cn, h1, h2, h3⟩ := ihr _ _ hrest c hc
      exact ⟨cn, h1, h2, by simp only [Forest.size]; omega⟩

/-- The preview driver on any node whose child list is held in the heap computes
`previewNode`. -/
theorem preview_subtree_scan (hk : Hooks) (e : UiEventBase) (w : World) (i : Nat)
    (nd : UiNode) (kids : Forest) (fuel : Nat) (hi : w.heap i = some nd)
    (hlink : Linked w.heap (some i) kids nd.m_firstChild) (hfuel : 2 * kids.size + 1 ≤ fuel) :
    OnPreviewEventBase hk e fuel w i =
      .done (previewNode (hk.previewOn w.heap e) i kids).1
        { w with
          log := w.log ++
            calls .OnPreviewEvent (previewNode (hk.previewOn w.heap e) i kids).2 } := by
  obtain ⟨k, rfl⟩ : ∃ k, fuel = k + 1 := ⟨fuel - 1, by omega⟩
  exact preview_node_step hk e w i nd kids k hi
    (fun w1 hw1 => preview_loop_scan hk e w.heap kids (some i) nd.m_firstChild none w1 k hw1
      hlink (by omega))

/-- C19. Take a node of a well-formed tree whose own preview hook returns false.
The preview driver on it returns; it returns a non-null handler exactly when the
node has at least one child and the driver returns non-null on every child. In
that case the subtree of every child is scanned and the handler is the one the
last child returned; otherwise the scan stops right after the first child whose
result is null. -/
theorem preview_handler_iff (hk : Hooks) (e : UiEventBase) (w : World) (i : Nat)
    (nd : UiNode) (kids : Forest) (fuel : Nat) (hi : w.heap i = some nd)
    (hlink : Linked w.heap (some i) kids nd.m_firstChild)
    (hown : hk.OnPreviewEvent w.heap i e = false) (hfuel : 2 * kids.size + 1 ≤ fuel) :
    (∀ c ∈ kids.roots, OnPreviewEventBase hk e fuel w c.1 =
      .done (childResult (hk.previewOn w.heap e) c).1
        { w with
          log := w.log ++ calls .OnPreviewEvent (childResult (hk.previewOn w.heap e) c).2 }) ∧
    ∃ handler visited,
      OnPreviewEventBase hk e fuel w i =
        .done handler { w with log := w.log ++ calls .OnPreviewEvent (i :: visited) } ∧
      (handler ≠ none ↔
        kids.roots ≠ [] ∧
          ∀ c ∈ kids.roots, (childResult (hk.previewOn w.heap e) c).1 ≠ none) ∧
      ((∀ c ∈ kids.roots, (childResult (hk.previewOn w.heap e) c).1 ≠ none) →
        handler = (kids.roots.getLast?.map
          (fun c => (childResult (hk.previewOn w.heap e) c).1)).getD none ∧
        visited = kids.roots.flatMap (fun c => (childResult (hk.previewOn w.heap e) c).2)) ∧
      ∀ pre c post, kids.roots = pre ++ c :: post →
        (∀ x ∈ pre, (childResult (hk.previewOn w.heap e) x).1 ≠ none) →
        (childResult (hk.previewOn w.heap e) c).1 = none →
        visited = (pre ++ [c]).flatMap (fun c => (childResult (hk.previewOn w.heap e) c).2) := by
  have hpv : hk.previewOn w.heap e i = false := hown
  have hnode : previewNode (hk.previewOn w.heap e) i kids =
      ((previewScan (hk.previewOn w.heap e) kids none).1,
        i :: (previewScan (hk.previewOn w.heap e) kids none).2) := by
    simp [previewNode, hpv]
  refine ⟨?_, (previewScan (hk.previewOn w.heap e) kids none).1,
    (previewScan (hk.previewOn w.heap e) kids none).2, ?_, ?_, ?_, ?_⟩
  · intro c hc
    obtain ⟨cn, hcn, hcl, hsz⟩ := Linked_roots kids _ _ hlink c hc
    exact preview_subtree_scan hk e w c.1 cn c.2 fuel hcn hcl (by omega)
  · have := preview_subtree_scan hk e w i nd kids fuel hi hlink hfuel
    rw [hnode] at this
    exact this
  · constructor
    · intro hne
      by_cases hall : ∀ c ∈ kids.roots, (childResult (hk.previewOn w.heap e) c).1 ≠ none
      · refine ⟨?_, hall⟩
        intro hnil
        rw [previewScan_all _ kids none hall, hnil] at hne
        simp at hne
      · exfalso
        have hex : ∃ c ∈ kids.roots, (childResult (hk.previewOn w.heap e) c).1 = none := by
          by_contra hcon
          exact hall (fun c hc hf => hcon ⟨c, hc, hf⟩)
        obtain ⟨pre, c, post, hsplit, hc, hpre⟩ := exists_first_null _ kids.roots hex
        rw [previewScan_stop _ kids none pre c post hsplit hpre hc] at hne
        exact hne rfl
    · rintro ⟨hnil, hall⟩
      rw [previewScan_all _ kids none hall]
      obtain ⟨b, hb⟩ : ∃ b, kids.roots.getLast? = some b := by
        cases hl : kids.roots.getLast? with
        | none => exact absurd (List.getLast?_eq_none_iff.mp hl) hnil
        | some b => exact ⟨b, rfl⟩
      simp only [hb, Option.map_some', Option.getD_some]
      exact hall b (List.mem_of_getLast?_eq_some hb)
  · intro hall
    rw [previewScan_all _ kids none hall]
    exact ⟨rfl, rfl⟩
  · intro pre c post hsplit hpre hc
    rw [previewScan_stop _ kids none pre c post hsplit hpre hc]

/-- C19 on the tree of `main` (root 0 with the leaf children 1, 2, 3, every node a
`Panel`) and a mouse-button-down event: the hook of the root returns false, every
child returns itself, all three children are scanned, and the handler is the one
of the last child, node 3. -/
theorem preview_handler_iff_witness :
    ∃ handler visited,
      OnPreviewEventBase Panel.hooks sampleEvent 7 flatWorld 0 =
        .done handler
          { flatWorld with log := flatWorld.log ++ calls .OnPreviewEvent (0 :: visited) } ∧
      handler = some 3 ∧ visited = [1, 2, 3] := by
  obtain ⟨-, handler, visited, hrun, -, hall, -⟩ :=
    preview_handler_iff Panel.hooks sampleEvent flatWorld 0
      { m_firstChild := some 1, m_lastChild := some 3 }
      (.cons 1 .nil (.cons 2 .nil (.cons 3 .nil .nil))) 7 (by decide) (by decide) (by decide)
      (by decide)
  have h := hall (by decide)
  exact ⟨handler, visited, hrun, h.1.trans (by decide), h.2.trans (by decide)⟩

/-! ## The host sequence -/

/-- A heap whose nodes carry the same parent, first-child and next-sibling links
holds the same sibling lists. -/
theorem Linked_same_links {h h1 : Heap} :
    ∀ (f : Forest) (par start : Ptr),
      (∀ j ∈ f.ids, ∀ nd, h j = some nd → ∃ nd1, h1 j = some nd1 ∧
        nd1.m_parent = nd.m_parent ∧ nd1.m_firstChild = nd.m_firstChild ∧
        nd1.m_nextSibling = nd.m_nextSibling) →
      Linked h par f start → Linked h1 par f start := by
  intro f
  induction f with
  | nil => intro par start _ hl; simpa [Linked] using hl
  | cons i kids rest ihk ihr =>
    intro par start hsame hl
    simp only [Linked] at hl ⊢
    obtain ⟨hs, nd, hnd, hpar, hkids, hrest⟩ := hl
    obtain ⟨nd1, hnd1, hp1, hf1, hn1⟩ := hsame i (by simp [Forest.ids]) nd hnd
    refine ⟨hs, nd1, hnd1, hp1.trans hpar, ?_, ?_⟩
    · rw [hf1]
      exact ihk _ _ (fun j hj => hsame j (by simp [Forest.ids, hj])) hkids
    · rw [hn1]
      exact ihr _ _ (fun j hj => hsame j (by simp [Forest.ids, hj])) hrest

/-- Rewriting the flags of the nodes of a sibling list keeps the list. -/
theorem Linked_map_flags {h h1 : Heap} (g : UiNode → UiNode)
    (hg : ∀ x, (g x).m_parent = x.m_parent ∧ (g x).m_firstChild = x.m_firstChild ∧
      (g x).m_nextSibling = x.m_nextSibling)
    (f : Forest) (par start : Ptr) (hmap : ∀ j ∈ f.ids, h1 j = (h j).map g)
    (hl : Linked h par f start) : Linked h1 par f start := by
  refine Linked_same_links f par start ?_ hl
  intro j hj nd hnd
  exact ⟨g nd, by rw [hmap j hj, hnd]; rfl, (hg nd).1, (hg nd).2.1, (hg nd).2.2⟩

/-- On a node without parent and siblings the unlink block changes nothing. -/
theorem unlinkThis_root (w : World) (this : Nat) (nd : UiNode) (hthis : w.heap this = some nd)
    (hpar : nd.m_parent = none) (hnext : nd.m_nextSibling = none)
    (hprev : nd.m_prevSibling = none) : unlinkThis w this = .done () w := by
  simp [unlinkThis, hthis, hpar, hnext, hprev]

/-- The destroy driver on the root of a tree held in the heap: the destroy hooks run
in post-order, the root loses its initialized flag, every other node of the tree
is freed, and nothing else changes. -/
theorem destroy_tree (w : World) (r : Nat) (nd : UiNode) (kids : Forest) (fuel : Nat)
    (ht : IsTree w.heap r kids) (hr : w.heap r = some nd)
    (hinit : ∀ j ∈ (Forest.cons r kids .nil).ids,
      ∀ x, w.heap j = some x → x.isInitialized = true)
    (hfuel : 2 * kids.size + 1 ≤ fuel) :
    ∃ w1, OnDestroyBase fuel w r = .done () w1 ∧
      w1.log = w.log ++ calls .OnDestroy (Forest.cons r kids .nil).postorder ∧
      (∀ j, j ∉ (Forest.cons r kids .nil).ids → w1.heap j = w.heap j) ∧
      w1.heap r = some { nd with isInitialized := false } ∧
      (∀ j ∈ kids.ids, w1.heap j = none) := by
  obtain ⟨hl, hnd⟩ := ht
  have halloc := Linked_alloc _ _ _ hl
  simp only [Linked] at hl
  obtain ⟨-, nd0, hnd_r, -, hkids, -⟩ := hl
  rw [hr] at hnd_r
  cases hnd_r
  obtain ⟨k, rfl⟩ : ∃ k, fuel = k + 1 := ⟨fuel - 1, by omega⟩
  have hnd1 : r ∉ kids.ids ∧ kids.ids.Nodup := by
    simpa [Forest.ids] using hnd
  have hinit1 : ∀ j ∈ (Forest.cons r kids .nil).ids,
      ∃ x, w.heap j = some x ∧ x.isInitialized = true := by
    intro j hj
    obtain ⟨x, hx⟩ := halloc j hj
    exact ⟨x, hx, hinit j hj x hx⟩
  obtain ⟨w2, hrun2, hlog2, hframe2, hself2, hfreed2⟩ :=
    destroy_node_step w r nd kids k hr (hinit r (by simp [Forest.ids]) nd hr) hnd1.1
      (destroy_loop_postorder kids (some r) nd.m_firstChild w k hkids hnd1.2
        (fun j hj => hinit1 j (by simp [Forest.ids, hj])) (by omega))
  refine ⟨w2, hrun2, by rw [hlog2]; simp [Forest.postorder], ?_, hself2, hfreed2⟩
  intro j hj
  simp only [Forest.ids, List.mem_cons, List.append_nil, not_or] at hj
  exact hframe2 j hj.1 hj.2
/-- The host sequence on any well-formed tree of fresh nodes (uninitialized,
unattached, the root without previous sibling): `Create(root); Attach(root);
Detach(root); Destroy(root)` returns. The create and attach hooks run on every
node of the tree in pre-order, the detach hook on the root, and the destroy hooks
on every node of the tree in post-order. -/
theorem host_sequence_on_tree (w : World) (r : Nat) (kids : Forest) (fuel : Nat)
    (ht : IsTree w.heap r kids)
    (hfresh : ∀ j ∈ (Forest.cons r kids .nil).ids,
      ∀ nd, w.heap j = some nd → nd.isInitialized = false ∧ nd.isAttached = false)
    (hprev : ∀ nd, w.heap r = some nd → nd.m_prevSibling = none)
    (hfuel : 2 * kids.size + 1 ≤ fuel) :
    ∃ w4, hostSequence fuel w (some r) = .done () w4 ∧
      w4.log = w.log ++ calls .OnCreate (Forest.cons r kids .nil).ids ++
        calls .OnAttach (Forest.cons r kids .nil).ids ++ [(.OnDetach, r)] ++
        calls .OnDestroy (Forest.cons r kids .nil).postorder := by
  have hrmem : r ∈ (Forest.cons r kids .nil).ids := by simp [Forest.ids]
  -- the root node
  have hl := ht.1
  simp only [Linked] at hl
  obtain ⟨-, nd, hnd_r, hpar, -, hnext⟩ := hl
  have hprev_r := hprev nd hnd_r
  -- Create
  obtain ⟨w1, hrun1, hlog1, -, hset1⟩ :=
    create_tree w r kids fuel ht (fun j hj x hx => (hfresh j hj x hx).1) hfuel
  have ht1 : IsTree w1.heap r kids :=
    ⟨Linked_map_flags (fun x => { x with isInitialized := true })
      (fun _ => ⟨rfl, rfl, rfl⟩) _ _ _ hset1 ht.1, ht.2⟩
  have hun1 : ∀ j ∈ (Forest.cons r kids .nil).ids,
      ∀ x, w1.heap j = some x → x.isInitialized = true ∧ x.isAttached = false := by
    intro j hj x hx
    rw [hset1 j hj] at hx
    cases hw : w.heap j with
    | none => rw [hw] at hx; simp at hx
    | some y =>
      rw [hw] at hx
      simp only [Option.map_some', Option.some.injEq] at hx
      subst hx
      exact ⟨rfl, (hfresh j hj y hw).2⟩
  -- Attach
  obtain ⟨w2, hrun2, hlog2, -, hset2⟩ :=
    attach_tree w1 r kids fuel ht1 (fun j hj x hx => (hun1 j hj x hx).2) hfuel
  have ht2 : IsTree w2.heap r kids :=
    ⟨Linked_map_flags (fun x => { x with isAttached := true })
      (fun _ => ⟨rfl, rfl, rfl⟩) _ _ _ hset2 ht1.1, ht1.2⟩
  have hlive2 : ∀ j ∈ (Forest.cons r kids .nil).ids,
      ∀ x, w2.heap j = some x → x.isInitialized = true ∧ x.isAttached = true := by
    intro j hj x hx
    rw [hset2 j hj] at hx
    cases hw : w1.heap j with
    | none => rw [hw] at hx; simp at hx
    | some y =>
      rw [hw] at hx
      simp only [Option.map_some', Option.some.injEq] at hx
      subst hx
      exact ⟨(hun1 j hj y hw).1, rfl⟩
  have hr2 : w2.heap r =
      some { nd with isInitialized := true, isAttached := true } := by
    rw [hset2 r hrmem, hset1 r hrmem, hnd_r]
    rfl
  -- Detach
  have hrun3 : OnDetachBase w2 r = .done ()
      { heap := w2.heap.set r { nd with isInitialized := true, isAttached := false },
        log := w2.log ++ [(.OnDetach, r)] } := by
    have hu := unlinkThis_root w2 r _ hr2 hpar (by simpa [Linked] using hnext) hprev_r
    simp [OnDetachBase, hr2, hu, World.assign, World.call]
  have ht3 : IsTree (w2.heap.set r { nd with isInitialized := true, isAttached := false })
      r kids := by
    refine ⟨Linked_same_links _ _ _ ?_ ht2.1, ht2.2⟩
    intro j _ x hx
    by_cases hjr : j = r
    · subst hjr
      rw [hr2] at hx
      cases hx
      exact ⟨_, Heap.set_same _ _ _, rfl, rfl, rfl⟩
    · exact ⟨x, by rw [Heap.set_other hjr]; exact hx, rfl, rfl, rfl⟩
  have hinit3 : ∀ j ∈ (Forest.cons r kids .nil).ids,
      ∀ x, (w2.heap.set r { nd with isInitialized := true, isAttached := false }) j = some x →
        x.isInitialized = true := by
    intro j hj x hx
    by_cases hjr : j = r
    · subst hjr
      rw [Heap.set_same] at hx
      cases hx
      rfl
    · rw [Heap.set_other hjr] at hx
      exact (hlive2 j hj x hx).1
  -- Destroy
  obtain ⟨w4, hrun4, hlog4, -, -, -⟩ :=
    destroy_tree
      { heap := w2.heap.set r { nd with isInitialized := true, isAttached := false },
        log := w2.log ++ [(.OnDetach, r)] }
      r _ kids fuel ht3 (Heap.set_same _ _ _) hinit3 hfuel
  refine ⟨w4, ?_, ?_⟩
  · simp [hostSequence, UiFactory.Create, UiFactory.Attach, UiFactory.Detach,
      UiFactory.Destroy, Outcome.andThen, hrun1, hrun2, hrun3, hrun4]
  · rw [hlog4]
    simp only [hlog2, hlog1]

/-! ## Create followed by Destroy -/

/-- C17, counterexample. On the tree root 0 with the child 1 built by `Add`, the
first `Create(root); Destroy(root)` returns and frees the child, while the
first-child link of the root still points to it. The second `Create(root)` then
stops at the freed child after a single create call, so the second pair neither
runs to its end nor repeats the hook calls of the first pair. -/
theorem second_create_meets_freed_child :
    (createDestroy 8 pairWorld (some 0)).fault? = none ∧
    (createDestroy 8 pairWorld (some 0)).log =
      pairWorld.log ++ calls .OnCreate [0, 1] ++ calls .OnDestroy [1, 0] ∧
    (createDestroy 8 pairWorld (some 0)).world.heap 1 = none ∧
    firstChildOf (createDestroy 8 pairWorld (some 0)).world.heap 0 = some 1 ∧
    (UiFactory.Create 8 (createDestroy 8 pairWorld (some 0)).world (some 0)).fault? =
      some .danglingDeref ∧
    (UiFactory.Create 8 (createDestroy 8 pairWorld (some 0)).world (some 0)).log =
      (createDestroy 8 pairWorld (some 0)).log ++ calls .OnCreate [0] := by
  decide

/-- The pair `Create(root); Destroy(root)` on a tree held in the heap: it returns,
the hooks run in pre-order and then in post-order, the root ends uninitialized
and otherwise as it was, and every other node of the tree is freed. -/
theorem create_destroy_tree (w : World) (r : Nat) (nd : UiNode) (kids : Forest) (fuel : Nat)
    (ht : IsTree w.heap r kids) (hr : w.heap r = some nd)
    (huninit : ∀ j ∈ (Forest.cons r kids .nil).ids,
      ∀ x, w.heap j = some x → x.isInitialized = false)
    (hfuel : 2 * kids.size + 1 ≤ fuel) :
    ∃ w2, createDestroy fuel w (some r) = .done () w2 ∧
      w2.log = w.log ++ calls .OnCreate (Forest.cons r kids .nil).ids ++
        calls .OnDestroy (Forest.cons r kids .nil).postorder ∧
      (∀ j, j ∉ (Forest.cons r kids .nil).ids → w2.heap j = w.heap j) ∧
      w2.heap r = some { nd with isInitialized := false } ∧
      (∀ j ∈ kids.ids, w2.heap j = none) := by
  have hrmem : r ∈ (Forest.cons r kids .nil).ids := by simp [Forest.ids]
  obtain ⟨w1, hrun1, hlog1, hframe1, hset1⟩ := create_tree w r kids fuel ht huninit hfuel
  have ht1 : IsTree w1.heap r kids :=
    ⟨Linked_map_flags (fun x => { x with isInitialized := true })
      (fun _ => ⟨rfl, rfl, rfl⟩) _ _ _ hset1 ht.1, ht.2⟩
  have hinit1 : ∀ j ∈ (Forest.cons r kids .nil).ids,
      ∀ x, w1.heap j = some x → x.isInitialized = true := by
    intro j hj x hx
    rw [hset1 j hj] at hx
    cases hw : w.heap j with
    | none => rw [hw] at hx; simp at hx
    | some y =>
      rw [hw] at hx
      simp only [Option.map_some', Option.some.injEq] at hx
      subst hx
      rfl
  have hr1 : w1.heap r = some { nd with isInitialized := true } := by
    rw [hset1 r hrmem, hr]
    rfl
  obtain ⟨w2, hrun2, hlog2, hframe2, hself2, hfreed2⟩ :=
    destroy_tree w1 r _ kids fuel ht1 hr1 hinit1 hfuel
  refine ⟨w2, ?_, by rw [hlog2, hlog1], ?_, hself2, hfreed2⟩
  · simp [createDestroy, UiFactory.Create, UiFactory.Destroy, Outcome.andThen, hrun1, hrun2]
  · intro j hj
    rw [hframe2 j hj, hframe1 j hj]

/-- The pair `Create(root); Destroy(root)` on any well-formed tree of uninitialized
nodes returns, leaves the root uninitialized and frees every other node of the
tree. For a root without children the pair can be repeated: create, destroy,
create, destroy returns and the hook calls of the second pair are those of the
first. -/
theorem create_destroy_on_tree (w : World) (r : Nat) (kids : Forest) (fuel : Nat)
    (ht : IsTree w.heap r kids)
    (huninit : ∀ j ∈ (Forest.cons r kids .nil).ids,
      ∀ x, w.heap j = some x → x.isInitialized = false)
    (hfuel : 2 * kids.size + 1 ≤ fuel) :
    (∃ w2, createDestroy fuel w (some r) = .done () w2 ∧
      w2.log = w.log ++ calls .OnCreate (Forest.cons r kids .nil).ids ++
        calls .OnDestroy (Forest.cons r kids .nil).postorder ∧
      (∃ x, w2.heap r = some x ∧ x.isInitialized = false) ∧
      ∀ j ∈ kids.ids, w2.heap j = none) ∧
    (kids = .nil →
      ∃ w4, ((createDestroy fuel w (some r)).andThen
          fun w2 => createDestroy fuel w2 (some r)) = .done () w4 ∧
        w4.log = w.log ++ [(.OnCreate, r), (.OnDestroy, r)] ++
          [(.OnCreate, r), (.OnDestroy, r)]) := by
  have hl := ht.1
  simp only [Linked] at hl
  obtain ⟨-, nd, hnd_r, hpar, hfirst, hnext⟩ := hl
  obtain ⟨w2, hrun2, hlog2, -, hself2, hfreed2⟩ :=
    create_destroy_tree w r nd kids fuel ht hnd_r huninit hfuel
  refine ⟨⟨w2, hrun2, hlog2, ⟨_, hself2, rfl⟩, hfreed2⟩, ?_⟩
  intro hk
  subst hk
  have ht2 : IsTree w2.heap r .nil := by
    refine ⟨?_, ht.2⟩
    simp only [Linked] at hfirst hnext ⊢
    exact ⟨trivial, _, hself2, hpar, hfirst, hnext⟩
  obtain ⟨w4, hrun4, hlog4, -, -, -⟩ :=
    create_destroy_tree w2 r _ .nil fuel ht2 hself2
      (by
        intro j hj x hx
        simp only [Forest.ids, List.append_nil, List.mem_singleton] at hj
        subst hj
        rw [hself2] at hx
        cases hx
        rfl)
      hfuel
  refine ⟨w4, ?_, ?_⟩
  · rw [hrun2]
    simpa [Outcome.andThen] using hrun4
  · rw [hlog4, hlog2]
    simp [Forest.ids, Forest.postorder]

/-! ## The flags along call sequences -/

theorem safe_refl (h : Heap) : Safe h h := fun _ x1 hx => ⟨x1, hx, id, id⟩

theorem safe_trans {h h1 h2 : Heap} (h01 : Safe h h1) (h12 : Safe h1 h2) : Safe h h2 := by
  intro j x2 hx2
  obtain ⟨x1, hx1, ha, hi⟩ := h12 j x2 hx2
  obtain ⟨x, hx, ha0, hi0⟩ := h01 j x1 hx1
  exact ⟨x, hx, fun h => ha0 (ha h), fun h => hi (hi0 h)⟩

theorem FlagsOk.of_safe {h h1 : Heap} (hok : FlagsOk h) (hs : Safe h h1) : FlagsOk h1 := by
  intro j x1 hx1 hatt
  obtain ⟨x, hx, ha, hi⟩ := hs j x1 hx1
  exact hi (hok j x hx (ha hatt))

theorem Safe.of_flags {h h1 : Heap} (hf : ∀ j, flagsOf h1 j = flagsOf h j) : Safe h h1 := by
  intro j x1 hx1
  have := hf j
  simp only [flagsOf, hx1, Option.map_some'] at this
  cases hx : h j with
  | none => rw [hx] at this; simp at this
  | some x =>
    rw [hx] at this
    simp only [Option.map_some', Option.some.injEq, Prod.mk.injEq] at this
    exact ⟨x, rfl, fun h => by rw [← this.2]; exact h, fun h => by rw [this.1]; exact h⟩

/-- An assignment through a pointer that sets no attached flag and clears no
initialized flag is safe, whether it returns or stops. -/
theorem assign_safe (w : World) (p : Ptr) (f : UiNode → UiNode)
    (hf : ∀ x, ((f x).isAttached = true → x.isAttached = true) ∧
      (x.isInitialized = true → (f x).isInitialized = true)) :
    Safe w.heap (w.assign p f).world.heap := by
  cases p with
  | none => exact safe_refl _
  | some i =>
    cases hi : w.heap i with
    | none => simpa [World.assign, hi, Outcome.world] using safe_refl w.heap
    | some nd =>
      simp only [World.assign, hi, Outcome.world]
      intro j x1 hx1
      by_cases hji : j = i
      · subst hji
        rw [Heap.set_same] at hx1
        cases hx1
        exact ⟨nd, hi, (hf nd).1, (hf nd).2⟩
      · rw [Heap.set_other hji] at hx1
        exact ⟨x1, hx1, id, id⟩

/-- The create driver and its loop are safe on every heap, whether they return or
stop. -/
theorem create_safe (fuel : Nat) :
    (∀ w r, Safe w.heap (OnCreateBase fuel w r).world.heap) ∧
    (∀ w c, Safe w.heap (OnCreateBase_loop fuel w c).world.heap) := by
  induction fuel with
  | zero =>
    constructor
    · intro w r
      simpa [OnCreateBase, Outcome.world] using safe_refl w.heap
    · intro w c
      cases c <;> simpa [OnCreateBase_loop, Outcome.world] using safe_refl w.heap
  | succ n ih =>
    obtain ⟨ih1, ih2⟩ := ih
    constructor
    · intro w r
      rw [OnCreateBase]
      cases hr : w.heap r with
      | none => exact safe_refl _
      | some nd =>
        simp only
        split
        · exact safe_refl _
        · have hloop := ih2 (w.call .OnCreate r) nd.m_firstChild
          cases ho : OnCreateBase_loop n (w.call .OnCreate r) nd.m_firstChild with
          | abort f w1 =>
            rw [ho] at hloop
            exact hloop
          | done u w1 =>
            rw [ho] at hloop
            simp only
            refine safe_trans hloop (assign_safe w1 (some r) _ ?_)
            exact fun x => ⟨fun h => h, fun _ => rfl⟩
    · intro w c
      cases c with
      | none => simpa [OnCreateBase_loop, Outcome.world] using safe_refl w.heap
      | some c =>
        rw [OnCreateBase_loop]
        have h1 := ih1 w c
        cases ho : OnCreateBase n w c with
        | abort f w1 =>
          rw [ho] at h1
          exact h1
        | done u w1 =>
          rw [ho] at h1
          simp only
          cases hc : w1.heap c with
          | none => exact h1
          | some cn => exact safe_trans h1 (ih2 w1 cn.m_nextSibling)
/-- The method `Add` keeps the flags of every node, on any heap, whether it returns
or stops. -/
theorem add_keeps_flags (w : World) (p : Nat) (c : Ptr) :
    ∀ j, flagsOf (UiElement.Add w p c).world.heap j = flagsOf w.heap j := by
  unfold UiElement.Add
  cases hp : w.heap p with
  | none => intro j; rfl
  | some nd =>
    simp only
    split
    · intro j; rfl
    · have hK : ∀ j, flagsOf (match nd.m_lastChild with
          | some l =>
            match w.assign (some l) (fun x => { x with m_nextSibling := c }) with
            | .abort f w1 => Outcome.abort f w1
            | .done _ w1 => w1.assign (some p) (fun x => { x with m_lastChild := c })
          | none =>
            if nd.m_firstChild.isSome then Outcome.abort Fault.assertFailed w
            else
              w.assign (some p)
                (fun x => { x with m_firstChild := c, m_lastChild := c })).world.heap j =
          flagsOf w.heap j := by
        intro j
        split
        · next l _ =>
          have h1 := assign_keeps_flags w (some l)
            (fun x => { x with m_nextSibling := c }) (fun _ => ⟨rfl, rfl⟩)
          split
          · next heq => rw [heq] at h1; exact h1.2 j
          · next w1 heq =>
            rw [heq] at h1
            refine Eq.trans ((assign_keeps_flags w1 (some p) _ ?_).2 j) (h1.2 j)
            exact fun _ => ⟨rfl, rfl⟩
        · split
          · rfl
          · refine (assign_keeps_flags w (some p) _ ?_).2 j
            exact fun _ => ⟨rfl, rfl⟩
      generalize (match nd.m_lastChild with
          | some l =>
            match w.assign (some l) (fun x => { x with m_nextSibling := c }) with
            | .abort f w1 => Outcome.abort f w1
            | .done _ w1 => w1.assign (some p) (fun x => { x with m_lastChild := c })
          | none =>
            if nd.m_firstChild.isSome then Outcome.abort Fault.assertFailed w
            else
              w.assign (some p)
                (fun x => { x with m_firstChild := c, m_lastChild := c })) = o at hK ⊢
      cases o with
      | abort f w2 => exact hK
      | done u w2 =>
        intro j
        simp only
        refine Eq.trans ((assign_keeps_flags w2 c _ ?_).2 j) (hK j)
        exact fun _ => ⟨rfl, rfl⟩

/-- The method `Remove` keeps the flags of every node, on any heap. -/
theorem remove_keeps_flags (w : World) (p : Nat) (c : Ptr) :
    ∀ j, flagsOf (UiElement.Remove w p c).world.heap j = flagsOf w.heap j := by
  unfold UiElement.Remove
  repeat' split
  all_goals first
    | exact fun _ => rfl
    | exact (unlinkThis_keeps_flags w p).2

/-- The detach driver is safe on every heap, whether it returns or stops. -/
theorem detach_safe (w : World) (r : Nat) : Safe w.heap (OnDetachBase w r).world.heap := by
  unfold OnDetachBase
  cases hr : w.heap r with
  | none => exact safe_refl _
  | some nd =>
    simp only
    split
    · exact safe_refl _
    · have hu := unlinkThis_keeps_flags w r
      cases ho : unlinkThis w r with
      | abort f w1 =>
        rw [ho] at hu
        exact Safe.of_flags hu.2
      | done u w1 =>
        rw [ho] at hu
        simp only
        refine safe_trans (Safe.of_flags hu.2)
          (assign_safe (w1.call .OnDetach r) (some r) _ ?_)
        exact fun x => ⟨fun h => by simp at h, fun h => h⟩
theorem attachEffect_refl (w : World) : AttachEffect w w :=
  ⟨[], by simp, fun _ x1 hx => ⟨x1, hx, rfl, fun h => Or.inl h⟩⟩

theorem attachEffect_trans {w w1 w2 : World} (h01 : AttachEffect w w1)
    (h12 : AttachEffect w1 w2) : AttachEffect w w2 := by
  obtain ⟨l1, hl1, he1⟩ := h01
  obtain ⟨l2, hl2, he2⟩ := h12
  refine ⟨l1 ++ l2, by rw [hl2, hl1]; simp, ?_⟩
  intro j x2 hx2
  obtain ⟨x1, hx1, hi1, ha1⟩ := he2 j x2 hx2
  obtain ⟨x, hx, hi, ha⟩ := he1 j x1 hx1
  refine ⟨x, hx, hi1.trans hi, fun h => ?_⟩
  rcases ha1 h with h1 | h1
  · rcases ha h1 with h0 | h0
    · exact Or.inl h0
    · exact Or.inr (List.mem_append_left _ h0)
  · exact Or.inr (List.mem_append_right _ h1)

/-- The hook call and the flag assignment at the head of the attach driver. -/
theorem attach_head_effect (w : World) (r : Nat) :
    AttachEffect w
      ((w.call .OnAttach r).assign (some r) (fun x => { x with isAttached := true })).world := by
  refine ⟨[r], ?_, ?_⟩
  · cases hr : w.heap r <;> simp [World.assign, World.call, hr, Outcome.world]
  · intro j x1 hx1
    cases hr : w.heap r with
    | none =>
      simp only [World.assign, World.call, hr, Outcome.world] at hx1
      exact ⟨x1, hx1, rfl, fun h => Or.inl h⟩
    | some nd =>
      simp only [World.assign, World.call, hr, Outcome.world] at hx1
      by_cases hjr : j = r
      · subst hjr
        rw [Heap.set_same] at hx1
        cases hx1
        exact ⟨nd, hr, rfl, fun _ => Or.inr (by simp)⟩
      · rw [Heap.set_other hjr] at hx1
        exact ⟨x1, hx1, rfl, fun h => Or.inl h⟩

/-- The attach driver and its loop, on every heap, whether they return or stop. -/
theorem attach_effect (fuel : Nat) :
    (∀ w r, AttachEffect w (OnAttachBase fuel w r).world) ∧
    (∀ w c, AttachEffect w (OnAttachBase_loop fuel w c).world) := by
  induction fuel with
  | zero =>
    constructor
    · intro w r
      simpa [OnAttachBase, Outcome.world] using attachEffect_refl w
    · intro w c
      cases c <;> simpa [OnAttachBase_loop, Outcome.world] using attachEffect_refl w
  | succ n ih =>
    obtain ⟨ih1, ih2⟩ := ih
    constructor
    · intro w r
      rw [OnAttachBase]
      cases hr : w.heap r with
      | none => exact attachEffect_refl _
      | some nd =>
        simp only
        split
        · exact attachEffect_refl _
        · have hhead := attach_head_effect w r
          cases ho : (w.call .OnAttach r).assign (some r)
              (fun x => { x with isAttached := true }) with
          | abort f w1 =>
            rw [ho] at hhead
            exact hhead
          | done u w1 =>
            rw [ho] at hhead
            simp only
            cases hr1 : w1.heap r with
            | none => exact hhead
            | some nd1 => exact attachEffect_trans hhead (ih2 w1 nd1.m_firstChild)
    · intro w c
      cases c with
      | none => simpa [OnAttachBase_loop, Outcome.world] using attachEffect_refl w
      | some c =>
        rw [OnAttachBase_loop]
        have h1 := ih1 w c
        cases ho : OnAttachBase n w c with
        | abort f w1 =>
          rw [ho] at h1
          exact h1
        | done u w1 =>
          rw [ho] at h1
          simp only
          cases hc : w1.heap c with
          | none => exact h1
          | some cn => exact attachEffect_trans h1 (ih2 w1 cn.m_nextSibling)

/-- What a `Destroy` that returns has done, on every heap: the node it was called
on lost its initialized flag and is otherwise as it was, and every other node is
as it was or freed. -/
theorem destroy_effect (fuel : Nat) :
    (∀ w r w1, OnDestroyBase fuel w r = .done () w1 →
      (∃ x, w.heap r = some x ∧ w1.heap r = some { x with isInitialized := false }) ∧
        ∀ j, j ≠ r → w1.heap j = w.heap j ∨ w1.heap j = none) ∧
    (∀ w c w1, OnDestroyBase_loop fuel w c = .done () w1 →
      ∀ j, w1.heap j = w.heap j ∨ w1.heap j = none) := by
  induction fuel with
  | zero =>
    constructor
    · intro w r w1 h
      simp [OnDestroyBase] at h
    · intro w c w1 h
      cases c with
      | none =>
        simp only [OnDestroyBase_loop, Outcome.done.injEq, true_and] at h
        subst h
        exact fun _ => Or.inl rfl
      | some c => simp [OnDestroyBase_loop] at h
  | succ n ih =>
    obtain ⟨ih1, ih2⟩ := ih
    constructor
    · intro w r w1 h
      rw [OnDestroyBase] at h
      cases hr : w.heap r with
      | none => simp [hr] at h
      | some nd =>
        simp only [hr] at h
        split at h
        · simp at h
        · cases ho : OnDestroyBase_loop n w nd.m_firstChild with
          | abort f wl => simp [ho] at h
          | done u wl =>
            simp only [ho] at h
            have hl := ih2 w nd.m_firstChild wl ho
            cases hrl : wl.heap r with
            | none => simp [World.assign, World.call, hrl] at h
            | some y =>
              simp only [World.assign, World.call, hrl, Outcome.done.injEq, true_and] at h
              subst h
              have hy : y = nd := by
                rcases hl r with h1 | h1
                · rw [hrl, hr] at h1
                  exact Option.some.inj h1
                · rw [hrl] at h1
                  cases h1
              subst hy
              refine ⟨⟨y, rfl, Heap.set_same _ _ _⟩, fun j hj => ?_⟩
              simp only
              rw [Heap.set_other hj]
              exact hl j
    · intro w c w1 h
      cases c with
      | none =>
        simp only [OnDestroyBase_loop, Outcome.done.injEq, true_and] at h
        subst h
        exact fun _ => Or.inl rfl
      | some c =>
        rw [OnDestroyBase_loop] at h
        cases hc : w.heap c with
        | none => simp [hc] at h
        | some cn =>
          simp only [hc] at h
          cases ho : OnDestroyBase n w c with
          | abort f wd => simp [ho] at h
          | done u wd =>
            simp only [ho] at h
            have hd := ih1 w c wd ho
            cases hcd : wd.heap c with
            | none => simp [hcd] at h
            | some y =>
              simp only [hcd] at h
              have hl := ih2 _ _ w1 h
              intro j
              rcases hl j with h1 | h1
              · by_cases hjc : j = c
                · right
                  rw [h1]
                  simp [Heap.free, hjc]
                · rw [h1]
                  simp only [Heap.free, if_neg hjc]
                  exact hd.2 j hjc
              · exact Or.inr h1
theorem Outcome.eq_done_of_fault_none (o : Outcome Unit) (h : o.fault? = none) :
    o = .done () o.world := by
  cases o with
  | abort f w => simp [Outcome.fault?] at h
  | done u w => rfl

theorem Outcome.world_of_done {o : Outcome Unit} {w1 : World} (h : o = .done () w1) :
    o.world = w1 := by
  rw [h]; rfl

theorem FlagsOk.of_fresh {h : Heap} (hf : ∀ j x, h j = some x → x = {}) : FlagsOk h := by
  intro j x hx hatt
  rw [hf j x hx] at hatt
  cases hatt

/-- One guarded call that returns keeps `attached ⟹ initialized`. -/
theorem guarded_call_flags_ok (fuel : Nat) (c : Call) (w w1 : World)
    (hok : FlagsOk w.heap) (hrun : c.run fuel w = .done () w1) (hg : c.Guard w w1) :
    FlagsOk w1.heap := by
  have hw1 := Outcome.world_of_done hrun
  cases c with
  | Add p ch =>
    have h := add_keeps_flags w p ch
    simp only [Call.run] at hw1
    rw [hw1] at h
    exact hok.of_safe (Safe.of_flags h)
  | Remove p ch =>
    have h := remove_keeps_flags w p ch
    simp only [Call.run] at hw1
    rw [hw1] at h
    exact hok.of_safe (Safe.of_flags h)
  | Create root =>
    cases root with
    | none => simp [Call.run, UiFactory.Create] at hrun
    | some r =>
      have h := (create_safe fuel).1 w r
      simp only [Call.run, UiFactory.Create] at hw1
      rw [hw1] at h
      exact hok.of_safe h
  | Detach root =>
    cases root with
    | none => simp [Call.run, UiFactory.Detach] at hrun
    | some r =>
      have h := detach_safe w r
      simp only [Call.run, UiFactory.Detach] at hw1
      rw [hw1] at h
      exact hok.of_safe h
  | Attach root =>
    cases root with
    | none => simp [Call.run, UiFactory.Attach] at hrun
    | some r =>
      have h := (attach_effect fuel).1 w r
      simp only [Call.run, UiFactory.Attach] at hw1
      rw [hw1] at h
      obtain ⟨l, hlog, heff⟩ := h
      simp only [Call.Guard, hlog, List.drop_left] at hg
      intro j x1 hx1 hatt
      obtain ⟨x, hx, hinit, ha⟩ := heff j x1 hx1
      rw [hinit]
      rcases ha hatt with h0 | h0
      · exact hok j x hx h0
      · have := hg (Hook.OnAttach, j) (by simp [calls, h0]) rfl
        simpa [flagsOf, hx] using this
  | Destroy root =>
    cases root with
    | none => simp [Call.run, UiFactory.Destroy] at hrun
    | some r =>
      simp only [Call.run, UiFactory.Destroy] at hrun
      obtain ⟨⟨x, hx, hx1⟩, hothers⟩ := (destroy_effect fuel).1 w r w1 hrun
      simp only [Call.Guard, flagsOf, hx, Option.map_some', Option.some.injEq] at hg
      intro j y hy hatt
      by_cases hjr : j = r
      · subst hjr
        rw [hx1] at hy
        cases hy
        simp only at hatt
        rw [hg] at hatt
        cases hatt
      · rcases hothers j hjr with h1 | h1
        · rw [h1] at hy
          exact hok j y hy hatt
        · rw [h1] at hy
          cases hy

/-- C15, counterexample. `Attach` on the fresh node 0 returns and leaves it attached
but not initialized; and `Create`, `Attach`, `Destroy` on the fresh node 0 all
return and leave it attached but not initialized. Both worlds are reachable from
fresh nodes by calls that do not fail. -/
theorem reachable_attached_uninitialized :
    (Reachable (runAll 2 [.Attach (some 0)] freshWorld) ∧
      flagsOf (runAll 2 [.Attach (some 0)] freshWorld).heap 0 = some (false, true)) ∧
    (Reachable (runAll 2 [.Create (some 0), .Attach (some 0), .Destroy (some 0)] freshWorld) ∧
      flagsOf (runAll 2 [.Create (some 0), .Attach (some 0), .Destroy (some 0)]
        freshWorld).heap 0 = some (false, true)) := by
  have hfresh : Reachable freshWorld := by
    refine Reachable.fresh _ ?_
    intro j x hx
    simp only [freshWorld] at hx
    split at hx
    · exact (Option.some.inj hx).symm
    · cases hx
  refine ⟨⟨?_, by decide⟩, ?_, by decide⟩
  · exact Reachable.step _ _ 2 (.Attach (some 0)) hfresh
      (Outcome.eq_done_of_fault_none _ (by decide))
  · have h1 := Reachable.step _ _ 2 (.Create (some 0)) hfresh
      (Outcome.eq_done_of_fault_none _ (by decide))
    have h2 := Reachable.step _ _ 2 (.Attach (some 0)) h1
      (Outcome.eq_done_of_fault_none _ (by decide))
    exact Reachable.step _ _ 2 (.Destroy (some 0)) h2
      (Outcome.eq_done_of_fault_none _ (by decide))

/-- C15, amended. `attached ⟹ initialized` holds for every node in every world
reachable from freshly constructed nodes by any sequence of calls of `Add`,
`Remove`, `Create`, `Destroy`, `Attach` and `Detach` that return, provided every
`Attach` runs the attach hook on initialized nodes only and every `Destroy` is
called on a root that is not attached. -/
theorem guarded_reachable_flags_ok (w : World) (hw : GuardedReachable w) :
    FlagsOk w.heap := by
  induction hw with
  | fresh w h => exact FlagsOk.of_fresh h
  | step w w1 fuel c _ hrun hg ih => exact guarded_call_flags_ok fuel c w w1 ih hrun hg

/-- A list of calls that all return and keep the discipline leads from a reachable
world to a reachable world. -/
theorem guarded_runAll (fuel : Nat) :
    ∀ (cs : List Call) (w : World), GuardedReachable w → AllGuarded fuel cs w →
      GuardedReachable (runAll fuel cs w) := by
  intro cs
  induction cs with
  | nil => intro w hw _; exact hw
  | cons c cs ih =>
    intro w hw hall
    obtain ⟨hf, hg, hrest⟩ := hall
    exact ih _ (GuardedReachable.step w _ fuel c hw (Outcome.eq_done_of_fault_none _ hf) hg)
      hrest

/-- C15 amended, after the host calls of `main` on the root 0 with the child 1:
`Add`, `Create`, `Attach`, `Detach`, `Destroy`. -/
theorem guarded_reachable_flags_ok_witness :
    AllGuarded 4 hostCalls freshWorld ∧ FlagsOk (runAll 4 hostCalls freshWorld).heap :=
  ⟨by decide,
    guarded_reachable_flags_ok (runAll 4 hostCalls freshWorld)
      (guarded_runAll 4 hostCalls freshWorld
        (GuardedReachable.fresh _ (by
          intro j x hx
          simp only [freshWorld] at hx
          split at hx
          · exact (Option.some.inj hx).symm
          · cases hx))
        (by decide))⟩

/-! ## Trees built by `Add` are well-formed -/

theorem forest_append_nil (f : Forest) : f.append .nil = f := by
  induction f with
  | nil => rfl
  | cons i kids rest _ ihr => simp [Forest.append, ihr]

theorem forest_append_assoc (f g k : Forest) : (f.append g).append k = f.append (g.append k) := by
  induction f with
  | nil => rfl
  | cons i kids rest _ ihr => simp [Forest.append, ihr]

theorem forest_ids_append (f g : Forest) : (f.append g).ids = f.ids ++ g.ids := by
  induction f with
  | nil => rfl
  | cons i kids rest _ ihr => simp [Forest.append, Forest.ids, ihr]

theorem lastRoot_append_cons (f : Forest) (c : Nat) (kids : Forest) :
    (f.append (.cons c kids .nil)).lastRoot = some c := by
  induction f with
  | nil => rfl
  | cons i ik rest _ ihr => simp [Forest.append, Forest.lastRoot, ihr]

theorem lastRoot_mem (f : Forest) (l : Nat) (h : f.lastRoot = some l) : l ∈ f.ids := by
  induction f with
  | nil => simp [Forest.lastRoot] at h
  | cons i ik rest _ ihr =>
    simp only [Forest.lastRoot] at h
    cases hr : rest.lastRoot with
    | none =>
      rw [hr] at h
      simp only [Option.some.injEq] at h
      simp [Forest.ids, h]
    | some m =>
      rw [hr] at h
      simp only [Option.some.injEq] at h
      subst h
      simp [Forest.ids, ihr hr]

theorem lastRoot_eq_none (f : Forest) (h : f.lastRoot = none) : f = .nil := by
  cases f with
  | nil => rfl
  | cons i ik rest =>
    simp only [Forest.lastRoot] at h
    cases hr : rest.lastRoot <;> simp [hr] at h

/-- Hanging a new last child `c`, with its child list `kids` already built, behind a
non-empty sibling list: the old last child gets `c` as next sibling, and the list
grows by `c`. -/
theorem Linked_snoc {h h1 : Heap} (par : Ptr) (c : Nat) (kids : Forest) (l : Nat)
    (cn1 : UiNode) (hc1 : h1 c = some cn1) (hcpar : cn1.m_parent = par)
    (hckids : Linked h1 (some c) kids cn1.m_firstChild) (hcnext : cn1.m_nextSibling = none) :
    ∀ (pre : Forest) (start : Ptr), pre.lastRoot = some l → pre.ids.Nodup →
      Linked h par pre start →
      (∀ j ∈ pre.ids, j ≠ l → h1 j = h j) →
      (∀ ln, h l = some ln → h1 l = some { ln with m_nextSibling := some c }) →
      Linked h1 par (pre.append (.cons c kids .nil)) start := by
  intro pre
  induction pre with
  | nil => intro start hl; simp [Forest.lastRoot] at hl
  | cons i ik rest _ ihr =>
    intro start hlast hnd hlink hsame hl
    simp only [Linked] at hlink
    obtain ⟨hs, nd, hnd_i, hpar, hik, hrest⟩ := hlink
    simp only [Forest.ids, List.nodup_cons, List.mem_append, not_or, List.nodup_append]
      at hnd
    obtain ⟨⟨hi_ik, hi_rest⟩, hikn, hrn, hdisj⟩ := hnd
    simp only [Forest.append, Linked]
    cases hr : rest.lastRoot with
    | none =>
      have hrest_nil := lastRoot_eq_none rest hr
      subst hrest_nil
      simp only [Forest.lastRoot, Option.some.injEq] at hlast
      subst hlast
      simp only [Linked] at hrest
      refine ⟨hs, _, hl nd hnd_i, hpar, ?_, ?_⟩
      · refine Linked_congr ik _ _ ?_ hik
        intro j hj
        exact hsame j (by simp [Forest.ids, hj]) (fun hf => hi_ik (hf ▸ hj))
      · simp only [Forest.append, Linked]
        exact ⟨trivial, cn1, hc1, hcpar, hckids, hcnext⟩
    | some m =>
      have hm : m = l := by
        simp only [Forest.lastRoot, hr, Option.some.injEq] at hlast
        exact hlast
      subst hm
      have hmem : m ∈ rest.ids := lastRoot_mem rest m hr
      have him : i ≠ m := fun hf => hi_rest (hf ▸ hmem)
      refine ⟨hs, nd, ?_, hpar, ?_, ?_⟩
      · rw [hsame i (by simp [Forest.ids]) him]
        exact hnd_i
      · refine Linked_congr ik _ _ ?_ hik
        intro j hj
        exact hsame j (by simp [Forest.ids, hj]) (fun hf => hdisj hj (hf ▸ hmem))
      · exact ihr nd.m_nextSibling hr hrn hrest
          (fun j hj hjm => hsame j (by simp [Forest.ids, hj]) hjm) hl


/-- One `Add` of a child whose own child list is already built extends the child
list of the parent by that child and touches no node besides the parent, the old
last child and the new child. -/
theorem add_child_linked (w : World) (p c : Nat) (pre kids : Forest) (pn cn : UiNode)
    (hp : w.heap p = some pn) (hinit : pn.isInitialized = false)
    (hatt : pn.isAttached = false) (hpre : Linked w.heap (some p) pre pn.m_firstChild)
    (hlast : pn.m_lastChild = pre.lastRoot) (hc : w.heap c = some cn)
    (hcnext : cn.m_nextSibling = none) (hckids : Linked w.heap (some c) kids cn.m_firstChild)
    (hnd : (p :: (pre.ids ++ c :: kids.ids)).Nodup) :
    ∃ w2 first, UiElement.Add w p (some c) = .done () w2 ∧
      w2.heap p = some { pn with m_firstChild := first, m_lastChild := some c } ∧
      Linked w2.heap (some p) (pre.append (.cons c kids .nil)) first ∧
      (∀ j, j ≠ p → j ∉ pre.ids → j ≠ c → w2.heap j = w.heap j) ∧
      w2.log = w.log := by
  simp only [List.nodup_cons, List.mem_append, List.mem_cons, not_or, List.nodup_append]
    at hnd
  obtain ⟨⟨hp_pre, hpc, hp_kids⟩, hpren, ⟨hc_kids, hkn⟩, hdisj⟩ := hnd
  have hc_pre : c ∉ pre.ids := fun hf => hdisj hf (by simp)
  have hcp : c ≠ p := fun hf => hpc hf.symm
  have hkids_other : ∀ j ∈ kids.ids, j ≠ p ∧ j ≠ c ∧ j ∉ pre.ids := fun j hj =>
    ⟨fun hf => hp_kids (hf ▸ hj), fun hf => hc_kids (hf ▸ hj),
      fun hf => hdisj hf (by simp [hj])⟩
  cases hlr : pre.lastRoot with
  | none =>
    have hnil := lastRoot_eq_none pre hlr
    subst hnil
    simp only [Linked] at hpre
    rw [hlr] at hlast
    refine ⟨_, some c, add_first w p c pn cn hp hinit hatt hpre hlast hc hcp, ?_, ?_, ?_, rfl⟩
    · simp only
      rw [Heap.set_other (Ne.symm hcp)]
      exact Heap.set_same _ _ _
    · simp only [Forest.append, Linked]
      refine ⟨trivial, _, Heap.set_same _ _ _, rfl, ?_, hcnext⟩
      refine Linked_congr kids _ _ ?_ hckids
      intro j hj
      obtain ⟨h1, h2, -⟩ := hkids_other j hj
      rw [Heap.set_other h2, Heap.set_other h1]
    · intro j hjp _ hjc
      simp only
      rw [Heap.set_other hjc, Heap.set_other hjp]
  | some l =>
    rw [hlr] at hlast
    have hl_mem : l ∈ pre.ids := lastRoot_mem pre l hlr
    have hlp : l ≠ p := fun hf => hp_pre (hf ▸ hl_mem)
    have hcl : c ≠ l := fun hf => hc_pre (hf ▸ hl_mem)
    obtain ⟨ln, hln⟩ := Linked_alloc _ _ _ hpre l hl_mem
    refine ⟨_, pn.m_firstChild,
      add_next w p l c pn ln cn hp hinit hatt hlast hln hc hlp hcp hcl, ?_, ?_, ?_, rfl⟩
    · simp only
      rw [Heap.set_other (Ne.symm hcp)]
      exact Heap.set_same _ _ _
    · refine Linked_snoc (some p) c kids l { cn with m_parent := some p }
        (Heap.set_same _ _ _) rfl ?_ hcnext pre _ hlr hpren hpre ?_ ?_
      · refine Linked_congr kids _ _ ?_ hckids
        intro j hj
        obtain ⟨h1, h2, h3⟩ := hkids_other j hj
        have hjl : j ≠ l := fun hf => h3 (hf ▸ hl_mem)
        rw [Heap.set_other h2, Heap.set_other h1, Heap.set_other hjl]
      · intro j hj hjl
        have hjc : j ≠ c := fun hf => hc_pre (hf ▸ hj)
        have hjp : j ≠ p := fun hf => hp_pre (hf ▸ hj)
        rw [Heap.set_other hjc, Heap.set_other hjp, Heap.set_other hjl]
      · intro ln1 hln1
        rw [hln] at hln1
        cases hln1
        rw [Heap.set_other (Ne.symm hcl), Heap.set_other hlp]
        exact Heap.set_same _ _ _
    · intro j hjp hjpre hjc
      have hjl : j ≠ l := fun hf => hjpre (hf ▸ hl_mem)
      simp only
      rw [Heap.set_other hjc, Heap.set_other hjp, Heap.set_other hjl]
theorem andThen_flags (w : World) (o : Outcome Unit) (k : World → Outcome Unit)
    (ho : ∀ j, flagsOf o.world.heap j = flagsOf w.heap j)
    (hk : ∀ w1 j, flagsOf (k w1).world.heap j = flagsOf w1.heap j) :
    ∀ j, flagsOf (o.andThen k).world.heap j = flagsOf w.heap j := by
  cases o with
  | abort f w1 => exact ho
  | done u w1 =>
    intro j
    simp only [Outcome.andThen, Outcome.world] at ho ⊢
    exact (hk w1 j).trans (ho j)

/-- The `Add` calls that build a forest keep the flags of every node. -/
theorem addForest_keeps_flags :
    ∀ (f : Forest) (p : Nat) (w : World) (j : Nat),
      flagsOf (AddForest p f w).world.heap j = flagsOf w.heap j := by
  intro f
  induction f with
  | nil => intro p w j; rfl
  | cons c kids rest ihk ihr =>
    intro p w
    rw [AddForest]
    refine andThen_flags w _ _ (ihk c w) (fun w1 => ?_)
    exact andThen_flags w1 _ _ (add_keeps_flags w1 p (some c)) (fun w2 => ihr p w2)

/-- The `Add` calls that hang the sibling list `f` under a parent holding the list
`pre` all return; afterwards the parent holds `pre` followed by `f`, and no node
besides the parent, the nodes of `pre` and the nodes of `f` has changed. -/
theorem addForest_grown :
    ∀ (f : Forest) (p : Nat) (pre : Forest) (w : World) (pn : UiNode),
      w.heap p = some pn → pn.isInitialized = false → pn.isAttached = false →
      Linked w.heap (some p) pre pn.m_firstChild → pn.m_lastChild = pre.lastRoot →
      (p :: (pre.ids ++ f.ids)).Nodup →
      (∀ c ∈ f.ids, w.heap c = some {}) →
      ∃ w1 first, AddForest p f w = .done () w1 ∧
        w1.heap p =
          some { pn with m_firstChild := first, m_lastChild := (pre.append f).lastRoot } ∧
        Linked w1.heap (some p) (pre.append f) first ∧
        (∀ j, j ≠ p → j ∉ pre.ids → j ∉ f.ids → w1.heap j = w.heap j) ∧
        w1.log = w.log := by
  intro f
  induction f with
  | nil =>
    intro p pre w pn hp _ _ hpre hlast _ _
    refine ⟨w, pn.m_firstChild, rfl, ?_, ?_, fun _ _ _ _ => rfl, rfl⟩
    · rw [hp, forest_append_nil, ← hlast]
    · rw [forest_append_nil]
      exact hpre
  | cons c kids rest ihk ihr =>
    intro p pre w pn hp hinit hatt hpre hlast hnd hfresh
    have hnd0 := hnd
    simp only [Forest.ids, List.nodup_cons, List.mem_append, List.mem_cons, not_or,
      List.nodup_append] at hnd
    obtain ⟨⟨hp_pre, hpc, hp_kids, hp_rest⟩, hpren,
      ⟨⟨hc_kids, hc_rest⟩, hkn, hrn, hkr⟩, hdisj⟩ := hnd
    have hc_pre : c ∉ pre.ids := fun hf => hdisj hf (by simp)
    have hcp : c ≠ p := fun hf => hpc hf.symm
    -- the child list of the new child
    obtain ⟨w1, first1, hrun1, hc1, hl1, hframe1, hlog1⟩ :=
      ihk c .nil w {} (hfresh c (by simp [Forest.ids])) rfl rfl (by simp [Linked]) rfl
        (by simpa [Forest.ids] using ⟨hc_kids, hkn⟩)
        (fun j hj => hfresh j (by simp [Forest.ids, hj]))
    simp only [Forest.append] at hc1 hl1
    have hsame1 : ∀ j, j ≠ c → j ∉ kids.ids → w1.heap j = w.heap j := fun j h1 h2 =>
      hframe1 j h1 (by simp [Forest.ids]) h2
    have hp1 : w1.heap p = some pn := by rw [hsame1 p (Ne.symm hcp) hp_kids]; exact hp
    have hpre1 : Linked w1.heap (some p) pre pn.m_firstChild := by
      refine Linked_congr pre _ _ ?_ hpre
      intro j hj
      exact hsame1 j (fun hf => hc_pre (hf ▸ hj)) (fun hf => hdisj hj (by simp [hf]))
    -- the `Add` of the new child
    obtain ⟨w2, first2, hrun2, hp2, hl2, hframe2, hlog2⟩ :=
      add_child_linked w1 p c pre kids pn _ hp1 hinit hatt hpre1 hlast hc1 rfl hl1
        (by
          simp only [List.nodup_cons, List.mem_append, List.mem_cons, not_or,
            List.nodup_append]
          refine ⟨⟨hp_pre, hpc, hp_kids⟩, hpren, ⟨hc_kids, hkn⟩, ?_⟩
          intro j hj hj2
          exact hdisj hj (by
            simp only [List.mem_cons, List.mem_append] at hj2 ⊢
            tauto))
    -- the later siblings
    obtain ⟨w3, first3, hrun3, hp3, hl3, hframe3, hlog3⟩ :=
      ihr p (pre.append (.cons c kids .nil)) w2 _ hp2 hinit hatt hl2
        (lastRoot_append_cons pre c kids).symm
        (by
          have : pre.ids ++ (c :: (kids.ids ++ [])) ++ rest.ids =
              pre.ids ++ (c :: (kids.ids ++ rest.ids)) := by simp
          rw [forest_ids_append]
          simp only [Forest.ids]
          rw [this]
          simpa [Forest.ids] using hnd0)
        (by
          intro j hj
          have hjp : j ≠ p := fun hf => hp_rest (hf ▸ hj)
          have hjc : j ≠ c := fun hf => hc_rest (hf ▸ hj)
          have hjk : j ∉ kids.ids := fun hf => hkr hf hj
          have hjpre : j ∉ pre.ids := fun hf => hdisj hf (by simp [hj])
          rw [hframe2 j hjp hjpre hjc, hsame1 j hjc hjk]
          exact hfresh j (by simp [Forest.ids, hj]))
    have hassoc :
        (pre.append (.cons c kids .nil)).append rest = pre.append (.cons c kids rest) := by
      rw [forest_append_assoc]
      rfl
    rw [hassoc] at hp3 hl3
    refine ⟨w3, first3, ?_, hp3, hl3, ?_, by rw [hlog3, hlog2, hlog1]⟩
    · rw [AddForest, hrun1]
      simp only [Outcome.andThen]
      rw [hrun2]
      exact hrun3
    · intro j hjp hjpre hjf
      simp only [Forest.ids, List.mem_cons, List.mem_append, not_or] at hjf
      obtain ⟨hjc, hjk, hjr⟩ := hjf
      rw [hframe3 j hjp (by
        rw [forest_ids_append]
        simp only [Forest.ids, List.mem_append, List.mem_cons, List.append_nil, not_or]
        exact ⟨hjpre, hjc, hjk⟩) hjr, hframe2 j hjp hjpre hjc, hsame1 j hjc hjk]

/-- A tree built by `Add` from distinct freshly constructed nodes is a well-formed
tree of uninitialized, unattached nodes whose root has no previous sibling. -/
theorem addForest_isTree (w : World) (r : Nat) (kids : Forest)
    (hfresh : ∀ j ∈ (Forest.cons r kids .nil).ids, w.heap j = some {})
    (hnd : (Forest.cons r kids .nil).ids.Nodup) :
    ∃ w1, AddForest r kids w = .done () w1 ∧ IsTree w1.heap r kids ∧
      (∀ j ∈ (Forest.cons r kids .nil).ids, ∀ nd, w1.heap j = some nd →
        nd.isInitialized = false ∧ nd.isAttached = false) ∧
      (∀ nd, w1.heap r = some nd → nd.m_prevSibling = none) ∧ w1.log = w.log := by
  obtain ⟨w1, first, hrun, hr1, hl1, -, hlog⟩ :=
    addForest_grown kids r .nil w {} (hfresh r (by simp [Forest.ids])) rfl rfl
      (by simp [Linked]) rfl (by simpa [Forest.ids] using hnd)
      (fun j hj => hfresh j (by simp [Forest.ids, hj]))
  simp only [Forest.append] at hr1 hl1
  refine ⟨w1, hrun, ⟨?_, hnd⟩, ?_, ?_, hlog⟩
  · simp only [Linked]
    exact ⟨trivial, _, hr1, rfl, hl1, rfl⟩
  · intro j hj nd hndj
    have hf := addForest_keeps_flags kids r w j
    rw [hrun] at hf
    simp only [Outcome.world, flagsOf, hndj, hfresh j hj, Option.map_some', Option.some.injEq,
      Prod.mk.injEq] at hf
    exact hf
  · intro nd hndr
    rw [hr1] at hndr
    cases hndr
    rfl
/-! ## The host sequence and the create/destroy pair on trees built by `Add` -/

/-- C20. Let a tree be built by `Add` calls from distinct freshly constructed nodes
(root `r`, child lists `kids`). The `Add` calls return, and then the host sequence
`Create(root); Attach(root); Detach(root); Destroy(root)` returns: no assertion of
the four drivers fails and no recursion runs out of fuel. The create and attach
hooks run on every node of the tree in pre-order, the detach hook on the root, and
the destroy hooks on every node of the tree in post-order. -/
theorem host_sequence_runs (w : World) (r : Nat) (kids : Forest) (fuel : Nat)
    (hfresh : ∀ j ∈ (Forest.cons r kids .nil).ids, w.heap j = some {})
    (hnd : (Forest.cons r kids .nil).ids.Nodup)
    (hfuel : 2 * kids.size + 1 ≤ fuel) :
    ∃ w0 w4, AddForest r kids w = .done () w0 ∧
      hostSequence fuel w0 (some r) = .done () w4 ∧
      w4.log = w.log ++ calls .OnCreate (Forest.cons r kids .nil).ids ++
        calls .OnAttach (Forest.cons r kids .nil).ids ++ [(.OnDetach, r)] ++
        calls .OnDestroy (Forest.cons r kids .nil).postorder := by
  obtain ⟨w0, hbuild, ht, hflags, hprev, hlog0⟩ := addForest_isTree w r kids hfresh hnd
  obtain ⟨w4, hrun, hlog⟩ := host_sequence_on_tree w0 r kids fuel ht hflags hprev hfuel
  exact ⟨w0, w4, hbuild, hrun, by rw [hlog, hlog0]⟩

/-- C20 on the fresh nodes 0 to 3: root 0 with the children 1 and 2, node 1 with the
child 3. -/
theorem host_sequence_runs_witness :
    ∃ w0 w4, AddForest 0 (.cons 1 (.cons 3 .nil .nil) (.cons 2 .nil .nil)) freshWorld =
        .done () w0 ∧
      hostSequence 7 w0 (some 0) = .done () w4 ∧
      w4.log = freshWorld.log ++ calls .OnCreate [0, 1, 3, 2] ++
        calls .OnAttach [0, 1, 3, 2] ++ [(.OnDetach, 0)] ++ calls .OnDestroy [3, 1, 2, 0] :=
  host_sequence_runs freshWorld 0 (.cons 1 (.cons 3 .nil .nil) (.cons 2 .nil .nil)) 7
    (by
      intro j hj
      simp only [Forest.ids, List.mem_cons, List.append_nil, List.nil_append,
        List.cons_append, List.not_mem_nil, or_false] at hj
      rcases hj with rfl | rfl | rfl | rfl <;> rfl)
    (by decide) (by decide)

/-- C17, amended. Let a tree be built by `Add` calls from distinct freshly
constructed nodes. `Create` followed by `Destroy` on the root returns, leaves the
root uninitialized and frees every other node of the tree. For a root without
children the pair can be repeated: create, destroy, create, destroy returns and
the hook calls of the second pair are those of the first. -/
theorem create_destroy_repeat (w : World) (r : Nat) (kids : Forest) (fuel : Nat)
    (hfresh : ∀ j ∈ (Forest.cons r kids .nil).ids, w.heap j = some {})
    (hnd : (Forest.cons r kids .nil).ids.Nodup)
    (hfuel : 2 * kids.size + 1 ≤ fuel) :
    ∃ w0, AddForest r kids w = .done () w0 ∧
      (∃ w2, createDestroy fuel w0 (some r) = .done () w2 ∧
        w2.log = w.log ++ calls .OnCreate (Forest.cons r kids .nil).ids ++
          calls .OnDestroy (Forest.cons r kids .nil).postorder ∧
        (∃ x, w2.heap r = some x ∧ x.isInitialized = false) ∧
        ∀ j ∈ kids.ids, w2.heap j = none) ∧
      (kids = .nil →
        ∃ w4, ((createDestroy fuel w0 (some r)).andThen
            fun w2 => createDestroy fuel w2 (some r)) = .done () w4 ∧
          w4.log = w.log ++ [(.OnCreate, r), (.OnDestroy, r)] ++
            [(.OnCreate, r), (.OnDestroy, r)]) := by
  obtain ⟨w0, hbuild, ht, hflags, -, hlog0⟩ := addForest_isTree w r kids hfresh hnd
  obtain ⟨hA, hB⟩ := create_destroy_on_tree w0 r kids fuel ht
    (fun j hj x hx => (hflags j hj x hx).1) hfuel
  rw [hlog0] at hA hB
  exact ⟨w0, hbuild, hA, hB⟩

/-- C17 amended, on the fresh nodes 0 and 1 with node 1 added to node 0 (one pair)
and on the fresh node 4 without children (two pairs). -/
theorem create_destroy_repeat_witness :
    (∃ w0, AddForest 0 (.cons 1 .nil .nil) freshWorld = .done () w0 ∧
      ∃ w2, createDestroy 3 w0 (some 0) = .done () w2 ∧
        w2.log = freshWorld.log ++ calls .OnCreate [0, 1] ++ calls .OnDestroy [1, 0] ∧
        (∃ x, w2.heap 0 = some x ∧ x.isInitialized = false) ∧
        ∀ j ∈ [1], w2.heap j = none) ∧
    ∃ w0, AddForest 4 .nil freshWorld = .done () w0 ∧
      ∃ w4, ((createDestroy 1 w0 (some 4)).andThen
          fun w2 => createDestroy 1 w2 (some 4)) = .done () w4 ∧
        w4.log = freshWorld.log ++ [(.OnCreate, 4), (.OnDestroy, 4)] ++
          [(.OnCreate, 4), (.OnDestroy, 4)] :=
  ⟨(create_destroy_repeat freshWorld 0 (.cons 1 .nil .nil) 3
      (by
        intro j hj
        simp only [Forest.ids, List.mem_cons, List.append_nil, List.nil_append,
          List.not_mem_nil, or_false] at hj
        rcases hj with rfl | rfl <;> rfl)
      (by decide) (by decide)).imp fun _ h => ⟨h.1, h.2.1⟩,
    (create_destroy_repeat freshWorld 4 .nil 1
      (by
        intro j hj
        simp only [Forest.ids, List.append_nil, List.mem_singleton] at hj
        subst hj
        rfl)
      (by decide) (by decide)).imp fun _ h => ⟨h.1, h.2.2 rfl⟩⟩

end ApexUI
